import Mathlib

/-!
# Comment attribution and tagged-comment parsing of lupdate and qdoc

A shallow embedding of

* `src/linguist/lupdate/clangtoolastreader.cpp`: the literal normalizer
  (`cleanQuote`), the finder of the comments that precede a source location
  (`rawCommentsFromSourceLocation`), the tagged-comment parser
  (`setInfoFromRawComment`), the visitor of the call expressions
  (`VisitCallExpr`) and the way of its records into the translator
  (`fillTranslator`, `fillTranslatorMessage`, `processPreprocessorCall`);
* `src/qdoc/qmlvisitor.cpp`: the signature parser `QmlSignatureParser` and the
  branch of `applyDocumentation` that runs it, and the search for the comment
  before a QML entity (`precedingComment`) with the set `usedComments`.

Strings (`QString`, `std::string`, `llvm::StringRef`) are lists of characters.
Every recursion is structural, so each definition evaluates on concrete input.
-/

set_option autoImplicit false

/-! ## Strings: the Qt and LLVM primitives the code calls -/

namespace Qt

/-- The characters `QChar::isSpace` accepts: U+0020, U+0009..U+000D, U+0085,
U+00A0 and the Unicode separators (categories Zs, Zl, Zp). -/
def isSpace (c : Char) : Bool :=
  c.val.toNat == 0x20 || (0x09 ≤ c.val.toNat && c.val.toNat ≤ 0x0d) ||
  c.val.toNat == 0x85 || c.val.toNat == 0xa0 || c.val.toNat == 0x1680 ||
  (0x2000 ≤ c.val.toNat && c.val.toNat ≤ 0x200a) ||
  c.val.toNat == 0x2028 || c.val.toNat == 0x2029 || c.val.toNat == 0x202f ||
  c.val.toNat == 0x205f || c.val.toNat == 0x3000

/-- The text without the characters satisfying `p` at its end. -/
def trimRight (p : Char → Bool) (s : List Char) : List Char :=
  (s.reverse.dropWhile p).reverse

/-- The function `QString::trimmed`: whitespace removed at both ends. -/
def trimmed (s : List Char) : List Char :=
  trimRight isSpace (s.dropWhile isSpace)

/-- A text that is not empty and neither starts nor ends with whitespace, as
`trimmed` leaves it. -/
def IsCore (m : List Char) : Prop :=
  (∃ x xs, m = x :: xs ∧ isSpace x = false) ∧ (∃ ys y, m = ys ++ [y] ∧ isSpace y = false)

/-- The function `QString::size`: the number of UTF-16 code units. -/
def size (s : List Char) : Nat :=
  (s.map (fun c => if c.val.toNat < 0x10000 then 1 else 2)).sum

/-- The function `QString::startsWith`. -/
def startsWith (s p : List Char) : Bool := p.isPrefixOf s

/-- The function `QString::endsWith`. -/
def endsWith (s p : List Char) : Bool := p.isSuffixOf s

/-- The function `QString::indexOf(QChar)`: the first position of `c`, or -1. -/
def indexOf (c : Char) : List Char → Int
  | [] => -1
  | x :: xs =>
    if x = c then 0
    else if indexOf c xs < 0 then -1 else indexOf c xs + 1

/-- The pieces of `s` between occurrences of `sep`; `cur` is the piece being
read, in reverse. -/
def splitAux (sep : Char) : List Char → List Char → List (List Char)
  | [], cur => [cur.reverse]
  | c :: cs, cur =>
    if c = sep then cur.reverse :: splitAux sep cs [] else splitAux sep cs (c :: cur)

/-- The call `QString::split(sep, Qt::SkipEmptyParts)`. -/
def splitSkipEmpty (sep : Char) (s : List Char) : List (List Char) :=
  (splitAux sep s []).filter (fun piece => !piece.isEmpty)

/-- The call `line.remove(QLatin1String("*/"))`: every occurrence of the block
comment closer is taken out, scanning from the left. -/
def removeCloser : List Char → List Char
  | [] => []
  | [c] => [c]
  | c :: d :: rest =>
    if c = '*' ∧ d = '/' then removeCloser rest else c :: removeCloser (d :: rest)

/-- What `QHash::insert` does to the entries of the hash: the value of an
existing key is replaced, a new key gets a new entry. -/
def hashInsert (k v : List Char) :
    List (List Char × List Char) → List (List Char × List Char)
  | [] => [(k, v)]
  | (k0, v0) :: rest => if k0 = k then (k, v) :: rest else (k0, v0) :: hashInsert k v rest

/-- The value `QHash::value` finds for a key, if the hash has the key. -/
def hashValue (k : List Char) : List (List Char × List Char) → Option (List Char)
  | [] => none
  | (k0, v0) :: rest => if k0 = k then some v0 else hashValue k rest

/-- The number of entries a hash has for a key. -/
def hashCount (k : List Char) (m : List (List Char × List Char)) : Nat :=
  (m.filter (fun e => e.1 = k)).length

end Qt

namespace Regex

/-- The class `\s` of the regular expressions (PCRE without Unicode
properties), which is also the default set of `llvm::StringRef::trim`: space,
`\t`, `\n`, `\v`, `\f`, `\r`. -/
def isSpace (c : Char) : Bool :=
  c.val.toNat == 0x20 || (0x09 ≤ c.val.toNat && c.val.toNat ≤ 0x0d)

/-- The class `\w` (ASCII letters, digits and the underscore). -/
def isWord (c : Char) : Bool := c.isAlphanum || c == '_'

/-- The pattern `\s+` followed by the pattern `f`: `\s+` is greedy and gives
characters back one at a time until `f` matches what remains. -/
def spacePlus {α : Type} (f : List Char → Option α) : List Char → Option α
  | [] => none
  | c :: cs =>
    if isSpace c then
      match spacePlus f cs with
      | some r => some r
      | none => f cs
    else none

/-- The subject without the final newline that `$` may stand before. -/
def beforeEnd (s : List Char) : List Char :=
  if s.getLast? = some '\n' then s.dropLast else s

/-- The pattern `(.+)$`: a dot does not match a newline, `$` matches at the end
of the subject or before its final newline. -/
def dotPlusEnd (s : List Char) : Option (List Char) :=
  if beforeEnd s ≠ [] ∧ '\n' ∉ beforeEnd s then some (beforeEnd s) else none

/-- The pattern `(.*)$`. -/
def dotStarEnd (s : List Char) : Option (List Char) :=
  if '\n' ∉ beforeEnd s then some (beforeEnd s) else none

/-- The pattern `(.+)\*\/$`. -/
def dotPlusCloserEnd (s : List Char) : Option (List Char) :=
  if ['*', '/'].isSuffixOf (beforeEnd s) ∧ 2 < (beforeEnd s).length
      ∧ '\n' ∉ (beforeEnd s).take ((beforeEnd s).length - 2) then
    some ((beforeEnd s).take ((beforeEnd s).length - 2))
  else none

/-- The greedy `(.*)` with the dot matching every character, followed by `pat`:
the text before the last occurrence of `pat`. -/
def lastSplit (pat : List Char) : List Char → Option (List Char)
  | [] => if pat.isEmpty then some [] else none
  | c :: cs =>
    match lastSplit pat cs with
    | some r => some (c :: r)
    | none => if pat.isPrefixOf (c :: cs) then some [] else none

end Regex

namespace LupdatePrivate

/-- The enumeration `QuoteCompulsary` with its values. -/
inductive QuoteCompulsary where
  | None
  | Left
  | Right
  | LeftAndRight
  deriving DecidableEq, Repr

/-- The value of an enumerator: `None = 0x01`, `Left = 0x02`, `Right = 0x04`,
`LeftAndRight = Left | Right`. -/
def QuoteCompulsary.value : QuoteCompulsary → Nat
  | .None => 0x01
  | .Left => 0x02
  | .Right => 0x04
  | .LeftAndRight => 0x02 ||| 0x04

/-- The function `llvm::StringRef::trim` with its default character set. -/
def trim (s : List Char) : List Char :=
  Qt.trimRight Regex.isSpace (s.dropWhile Regex.isSpace)

/-- The function `llvm::StringRef::consume_front`: whether `s` starts with `p`,
and `s` without it when it does. -/
def consume_front (s p : List Char) : Bool × List Char :=
  if p.isPrefixOf s then (true, s.drop p.length) else (false, s)

/-- The function `llvm::StringRef::consume_back`. -/
def consume_back (s p : List Char) : Bool × List Char :=
  if p.isSuffixOf s then (true, s.take (s.length - p.length)) else (false, s)

/-- The function `cleanQuote(llvm::StringRef s, QuoteCompulsary quote)`. -/
def cleanQuote (s : List Char) (quote : QuoteCompulsary) : List Char :=
  if s.isEmpty then []
  else if !(consume_front (trim s) ['"']).1 && (quote.value &&& 0x02) != 0 then []
  else if !(consume_back (consume_front (trim s) ['"']).2 ['"']).1
      && (quote.value &&& 0x04) != 0 then []
  else (consume_back (consume_front (trim s) ['"']).2 ['"']).2

/-- The delimiter class `[^\(\)\\ ]` of the raw string literal pattern. -/
def isDelimiterChar (c : Char) : Bool :=
  !(c == '(' || c == ')' || c == '\\' || c == ' ')

/-- The raw string literal pattern from just after `R"` on: the delimiter
`([^\(\)\\ ]{0,16})`, then `\(`, the greedy `(?<characters>.*)` and
`\)\1\"`. The result is the capture `characters`. -/
def rawStringLiteralBody (rest : List Char) : Option (List Char) :=
  if (rest.takeWhile isDelimiterChar).length ≤ 16 then
    match rest.dropWhile isDelimiterChar with
    | '(' :: body =>
      Regex.lastSplit (')' :: (rest.takeWhile isDelimiterChar ++ ['"'])) body
    | _ => none
  else none

/-- The search for the pattern `rawStringLiteral`,
`(?:\bu8|\b[LuU])??R\"([^\(\)\\ ]{0,16})\((?<characters>.*)\)\1\"`: the
capture `characters` of the leftmost match. The encoding prefix is optional
and lazy, so the leftmost match is the one of the leftmost `R"` whose rest
matches. -/
def rawStringLiteral : List Char → Option (List Char)
  | [] => none
  | c :: cs =>
    match (if c = 'R' then
        (match cs with
          | '"' :: rest => rawStringLiteralBody rest
          | _ => none)
        else none) with
    | some r => some r
    | none => rawStringLiteral cs

/-- The pattern `(?<characters>[^\"\\]*(?:\\.[^\"\\]*)*)\"` from just after the
opening quote on: the characters up to the first quote that no backslash
escapes. A backslash escapes any character but a newline. -/
def escapedCharacters : List Char → Option (List Char)
  | [] => none
  | [c] => if c = '"' then some [] else none
  | c :: d :: rest =>
    if c = '"' then some []
    else if c = '\\' then
      (if d = '\n' then none
       else (escapedCharacters rest).map (fun r => c :: d :: r))
    else (escapedCharacters (d :: rest)).map (fun r => c :: r)

/-- The pattern `stringLiteral` at one position: an encoding prefix `u8`, `L`,
`u` or `U`, the opening quote and the characters. -/
def stringLiteralAt : List Char → Option (List Char)
  | 'u' :: '8' :: '"' :: rest => escapedCharacters rest
  | 'L' :: '"' :: rest => escapedCharacters rest
  | 'u' :: '"' :: rest => escapedCharacters rest
  | 'U' :: '"' :: rest => escapedCharacters rest
  | _ => none

/-- The search for the pattern `stringLiteral`,
`(?:\bu8|\b[LuU])+?\"(?<characters>[^\"\\]*(?:\\.[^\"\\]*)*)\"`, from a
position whose previous character is a word character or not (`prevWord`);
`\b` before a prefix needs it not to be. -/
def stringLiteralFrom (prevWord : Bool) : List Char → Option (List Char)
  | [] => none
  | c :: cs =>
    match (if prevWord then none else stringLiteralAt (c :: cs)) with
    | some r => some r
    | none => stringLiteralFrom (Regex.isWord c) cs

/-- The search for the pattern `stringLiteral` in a whole string. -/
def stringLiteral (s : List Char) : Option (List Char) :=
  stringLiteralFrom false s

/-- The character `string.at(index - 1)`. -/
def charBefore (s : List Char) (index : Int) : Option Char :=
  s.get? (index - 1).toNat

/-- The function `cleanQuote(const std::string &token)`, for a string literal
taken from the source code. -/
def cleanQuoteToken (token : List Char) : List Char :=
  if token.isEmpty then []
  else if Qt.indexOf '"' (Qt.trimmed token) ≤ 0 then
    cleanQuote token QuoteCompulsary.LeftAndRight
  else
    match (if charBefore (Qt.trimmed token) (Qt.indexOf '"' (Qt.trimmed token)) = some 'R'
        then rawStringLiteral (Qt.trimmed token)
        else stringLiteral (Qt.trimmed token)) with
    | some characters => characters
    | none => Qt.trimmed token

/-- What a `QRegularExpressionMatch` of the patterns of the parser holds: the
captures `identifier` and `comment` of a match, `none` without a match. -/
abbrev Captures := Option (List Char × List Char)

/-- The class `[:=~%]` of the tag markers. -/
def isIdentifier (c : Char) : Bool := c == ':' || c == '=' || c == '~' || c == '%'

/-- The pattern `cppStyle`, `^\/\/(?<identifier>[:=~%])\s+(?<comment>.+)$`. -/
def cppStyle : List Char → Captures
  | '/' :: '/' :: i :: rest =>
    if isIdentifier i then (Regex.spacePlus Regex.dotPlusEnd rest).map (fun c => ([i], c))
    else none
  | _ => none

/-- The pattern `cStyleSingle`,
`^\/\*(?<identifier>[:=~%])\s+(?<comment>.+)\*\/$`. -/
def cStyleSingle : List Char → Captures
  | '/' :: '*' :: i :: rest =>
    if isIdentifier i then
      (Regex.spacePlus Regex.dotPlusCloserEnd rest).map (fun c => ([i], c))
    else none
  | _ => none

/-- The pattern `cStyleMultiBegin`,
`^\/\*(?<identifier>[:=~%])\s+(?<comment>.*)$`. -/
def cStyleMultiBegin : List Char → Captures
  | '/' :: '*' :: i :: rest =>
    if isIdentifier i then (Regex.spacePlus Regex.dotStarEnd rest).map (fun c => ([i], c))
    else none
  | _ => none

/-- The pattern `idefix`, `^\/\*(?<identifier>[:=~%])`: the capture
`identifier`. -/
def idefix : List Char → Option (List Char)
  | '/' :: '*' :: i :: _ => if isIdentifier i then some [i] else none
  | _ => none

/-- The function `capture(exp, line, i, c)`: the returned flag, then the new
values of `*i` and `*c`. -/
def capture (exp : List Char → Captures) (line : List Char) :
    Bool × List Char × List Char :=
  match exp line with
  | none => (false, [], [])
  | some (i, c) =>
    if i = ['%'] then
      (!(cleanQuote (Qt.trimmed c) QuoteCompulsary.Left).isEmpty, i,
        cleanQuote (Qt.trimmed c) QuoteCompulsary.Left)
    else (!(Qt.trimmed c).isEmpty, i, Qt.trimmed c)

/-- The function `llvm::StringRef::contains`: whether `pat` occurs in `text`. -/
def contains (pat : List Char) : List Char → Bool
  | [] => pat.isEmpty
  | c :: cs => pat.isPrefixOf (c :: cs) || contains pat cs

/-- The texts `trFunctionPresent` looks for, in its order. -/
def trFunctions : List (List Char) :=
  ["qtTrId(".toList, "tr(".toList, "trUtf8(".toList, "translate(".toList,
   "Q_DECLARE_TR_FUNCTIONS(".toList, "QT_TR_N_NOOP(".toList, "QT_TRID_N_NOOP(".toList,
   "QT_TRANSLATE_N_NOOP(".toList, "QT_TRANSLATE_N_NOOP3(".toList, "QT_TR_NOOP(".toList,
   "QT_TRID_NOOP(".toList, "QT_TRANSLATE_NOOP(".toList, "QT_TRANSLATE_NOOP3(".toList,
   "QT_TR_NOOP_UTF8(".toList, "QT_TRANSLATE_NOOP_UTF8(".toList,
   "QT_TRANSLATE_NOOP3_UTF8(".toList]

/-- The function `trFunctionPresent`. -/
def trFunctionPresent (text : List Char) : Bool :=
  trFunctions.any (fun pat => contains pat text)

end LupdatePrivate

/-! ## The record and the tagged-comment parser -/

/-- The structure `TranslationRelatedStore`; `callLocation` is left out (no
function modelled here reads it from the record). -/
structure TranslationRelatedStore where
  callType : List Char := []
  rawCode : List Char := []
  funcName : List Char := []
  locationCol : Int := -1
  contextArg : List Char := []
  contextRetrieved : List Char := []
  lupdateSource : List Char := []
  lupdateLocationFile : List Char := []
  lupdateLocationLine : Int := -1
  lupdateId : List Char := []
  lupdateSourceWhenId : List Char := []
  lupdateIdMetaData : List Char := []
  lupdateMagicMetaData : List Char := []
  lupdateAllMagicMetaData : List (List Char × List Char) := []
  lupdateComment : List Char := []
  lupdateExtraComment : List Char := []
  lupdatePlural : List Char := []
  deriving DecidableEq, Repr

namespace LupdateVisitor

/-- The local variables of `setInfoFromRawComment` that live across the lines
of a comment. -/
structure LineState where
  save : Bool := false
  sawStarPrefix : Bool := false
  sourceIdentifier : Bool := false
  comment : List Char := []
  identifier : List Char := []
  deriving DecidableEq, Repr

/-- The variable `first`, `comment.section(isSpace, 0, 0)` with `isSpace` the
pattern `\s+`: the text before the first whitespace of `comment`. -/
def magicFirst (comment : List Char) : List Char :=
  comment.takeWhile (fun c => !Regex.isSpace c)

/-- The variable `second`, `comment.mid(first.size()).trimmed()`. -/
def magicSecond (comment : List Char) : List Char :=
  Qt.trimmed (comment.drop (magicFirst comment).length)

/-- The end of the loop body of `setInfoFromRawComment`, from `if (!save)` on:
the text is routed by its identifier, then `save`, `comment` and `identifier`
are reset. -/
def saveComment (st : LineState) (store : TranslationRelatedStore) :
    LineState × TranslationRelatedStore :=
  if !st.save then (st, store)
  else
    ({ st with save := false, comment := [], identifier := [] },
      if st.identifier = [':'] then
        { store with
            lupdateExtraComment :=
              (if !store.lupdateExtraComment.isEmpty then store.lupdateExtraComment ++ [' ']
                else store.lupdateExtraComment) ++ st.comment }
      else if st.identifier = ['='] then
        { store with lupdateIdMetaData := st.comment }
      else if st.identifier = ['~'] then
        (if !(magicSecond st.comment).isEmpty then
          { store with
              lupdateAllMagicMetaData :=
                Qt.hashInsert (magicFirst st.comment) (magicSecond st.comment)
                  store.lupdateAllMagicMetaData }
         else store)
      else if st.identifier = ['%'] then
        { store with lupdateSourceWhenId := store.lupdateSourceWhenId ++ st.comment }
      else store)

/-- The line of a multi line comment after `if (line.endsWith("*/"))` and
`if (sourceIdentifier)`. -/
def continuationText (st : LineState) (line : List Char) : List Char :=
  if st.sourceIdentifier then
    LupdatePrivate.cleanQuote
      (if Qt.endsWith line ['*', '/'] then Qt.trimmed (Qt.removeCloser line) else line)
      LupdatePrivate.QuoteCompulsary.Left
  else if Qt.endsWith line ['*', '/'] then Qt.trimmed (Qt.removeCloser line) else line

/-- The variable `comment` after a line of a multi line comment is added. -/
def continuationComment (st : LineState) (line : List Char) : List Char :=
  (if !(continuationText st line).isEmpty && !st.comment.isEmpty && !st.sourceIdentifier
    then st.comment ++ [' '] else st.comment) ++ continuationText st line

/-- One pass of the loop body of `setInfoFromRawComment` on a line of the
comment (trimmed first, as the body does). -/
def processLine (st : LineState) (store : TranslationRelatedStore) (rawLine : List Char) :
    LineState × TranslationRelatedStore :=
  let line := Qt.trimmed rawLine
  if !st.sawStarPrefix then
    if Qt.startsWith line ['/', '/'] then
      saveComment
        { st with save := (LupdatePrivate.capture LupdatePrivate.cppStyle line).1,
                  identifier := (LupdatePrivate.capture LupdatePrivate.cppStyle line).2.1,
                  comment := (LupdatePrivate.capture LupdatePrivate.cppStyle line).2.2 }
        store
    else if Qt.startsWith line ['/', '*'] && Qt.endsWith line ['*', '/'] then
      saveComment
        { st with save := (LupdatePrivate.capture LupdatePrivate.cStyleSingle line).1,
                  identifier := (LupdatePrivate.capture LupdatePrivate.cStyleSingle line).2.1,
                  comment := (LupdatePrivate.capture LupdatePrivate.cStyleSingle line).2.2 }
        store
    else if Qt.startsWith line ['/', '*'] then
      match LupdatePrivate.idefix line with
      | none => ({ st with sawStarPrefix := true }, store)
      | some i =>
        if Qt.size line > 4 then
          saveComment
            { st with
                sawStarPrefix := true,
                identifier := (LupdatePrivate.capture LupdatePrivate.cStyleMultiBegin line).2.1,
                comment := (LupdatePrivate.capture LupdatePrivate.cStyleMultiBegin line).2.2,
                sourceIdentifier :=
                  (LupdatePrivate.capture LupdatePrivate.cStyleMultiBegin line).2.1 = ['%'] }
            store
        else
          saveComment
            { st with sawStarPrefix := true, identifier := i, sourceIdentifier := i = ['%'] }
            store
    else saveComment st store
  else
    saveComment
      { st with
          sawStarPrefix := if Qt.endsWith line ['*', '/'] then false else st.sawStarPrefix,
          comment := continuationComment st line,
          save :=
            !(if Qt.endsWith line ['*', '/'] then false else st.sawStarPrefix)
              && !(continuationComment st line).isEmpty }
      store

/-- The loop of `setInfoFromRawComment` over the lines of the comment. -/
def processLines (st : LineState) (store : TranslationRelatedStore) :
    List (List Char) → LineState × TranslationRelatedStore
  | [] => (st, store)
  | line :: rest => processLines (processLine st store line).1 (processLine st store line).2 rest

/-- The function `setInfoFromRawComment`: the record after the comment is
read. -/
def setInfoFromRawComment (commentString : List Char) (store : TranslationRelatedStore) :
    TranslationRelatedStore :=
  (processLines {} store (Qt.splitSkipEmpty '\n' commentString)).2

end LupdateVisitor

/-! ## The comment texts of the claims about the parser -/

/-- The tagged line `//~ k v`. -/
def magicLine (k v : List Char) : List Char :=
  '/' :: '/' :: '~' :: ' ' :: (k ++ ' ' :: v)

/-- The lines of a text, joined by newlines. -/
def joinLines : List (List Char) → List Char
  | [] => []
  | [line] => line
  | line :: next :: rest => line ++ '\n' :: joinLines (next :: rest)

/-- The texts joined by single spaces. -/
def joinWithSpace : List (List Char) → List Char
  | [] => []
  | [text] => text
  | text :: next :: rest => text ++ ' ' :: joinWithSpace (next :: rest)

/-- The trimmed texts that are not empty, joined by single spaces. -/
def joinTrimmed (texts : List (List Char)) : List Char :=
  joinWithSpace ((texts.map Qt.trimmed).filter (fun text => !text.isEmpty))

/-- Whether the closer `*/` of a block comment occurs in a text. -/
def hasCloser (text : List Char) : Prop := ['*', '/'] <:+: text

instance (text : List Char) : Decidable (hasCloser text) :=
  inferInstanceAs (Decidable (['*', '/'] <:+: text))

/-- The lines of a block comment tagged `:`: the first line is the opener
`/*:`, the whitespace `ws` and the text `first`; the lines `middle` follow;
the last line is the text `last` and the closer `*/`. -/
def blockCommentLines (ws first : List Char) (middle : List (List Char)) (last : List Char) :
    List (List Char) :=
  ('/' :: '*' :: ':' :: (ws ++ first)) :: (middle ++ [last ++ ['*', '/']])

/-! ## The finder of the comments before a source location -/

/-- A decomposed `clang::SourceLocation`: the file and the byte offset in it,
with the two flags the finder asks for. -/
structure SourceLocation where
  file : Nat
  offset : Nat
  isInvalid : Bool := false
  isFileID : Bool := true
  deriving DecidableEq, Repr

/-- A `clang::RawComment`: the file and the byte offsets of `getBegin()` and
`getEnd()` of its source range. The end is the offset just after the comment. -/
structure RawComment where
  file : Nat
  beginOffset : Nat
  endOffset : Nat
  deriving DecidableEq, Repr

/-- What the finder asks of `clang::SourceManager`: the buffer of a file
(`getBufferData`, `none` when it reports `invalid`) and the line number of an
offset of a file (`getLineNumber`). -/
structure SourceManager where
  bufferData : Nat → Option (List Char)
  getLineNumber : Nat → Nat → Nat

/-- A source manager with one buffer for every file, lines ending in a
newline character and numbered from 1. -/
def SourceManager.ofBuffer (buffer : List Char) : SourceManager where
  bufferData := fun _ => some buffer
  getLineNumber := fun _ offset => 1 + (buffer.take offset).count '\n'

/-- The range of a buffer that `llvm::StringRef(buffer + start, length)`
covers. -/
def stringRef (buffer : List Char) (start length : Nat) : List Char :=
  (buffer.drop start).take length

/-- The function `RawComment::getRawText`: the text of the comment's range. -/
def RawComment.getRawText (buffer : List Char) (c : RawComment) : List Char :=
  stringRef buffer c.beginOffset (c.endOffset - c.beginOffset)

/-- The order `SourceManager::isBeforeInTranslationUnit` on decomposed
locations: by file, then by offset. -/
def isBeforeInTranslationUnit (file1 offset1 file2 offset2 : Nat) : Bool :=
  file1 < file2 || (file1 == file2 && offset1 < offset2)

/-- The comparison `clang::BeforeThanCompare<clang::RawComment>` of a comment
with the dummy comment at the declaration: by the begin of their ranges. -/
def compareSourceLocation (loc : SourceLocation) (c : RawComment) : Bool :=
  isBeforeInTranslationUnit c.file c.beginOffset loc.file loc.offset

/-- The binary search of `std::lower_bound` on the range of `len` elements
from `first`; `fuel` bounds the number of halvings. -/
def lowerBoundAux (loc : SourceLocation) (rawComments : List RawComment) :
    Nat → Nat → Nat → Nat
  | 0, first, _ => first
  | fuel + 1, first, len =>
    if len = 0 then first
    else
      match rawComments.get? (first + len / 2) with
      | none => first
      | some c =>
        if compareSourceLocation loc c then
          lowerBoundAux loc rawComments fuel (first + len / 2 + 1) (len - len / 2 - 1)
        else lowerBoundAux loc rawComments fuel first (len / 2)

/-- The call `std::lower_bound(rawComments.begin(), rawComments.end(),
&commentAtDeclarationLocation, compareSourceLocation)`, as an index. -/
def lower_bound (loc : SourceLocation) (rawComments : List RawComment) : Nat :=
  lowerBoundAux loc rawComments rawComments.length 0 rawComments.length

/-- The difference of two `unsigned` offsets, which wraps around below zero. -/
def unsignedSub (a b : Nat) : Nat := (a + 4294967296 - b) % 4294967296

/-- The characters of `";\x7d#@"`, which end a declaration, a scope or start a
preprocessor directive. -/
def isStopChar (ch : Char) : Bool := ch == ';' || ch == '}' || ch == '#' || ch == '@'

/-- The test `text.find_first_of(";\x7d#@") != llvm::StringRef::npos`. -/
def findFirstOfStop (text : List Char) : Bool := text.any isStopChar

/-- Whether the byte at offset `p` belongs to the comment. -/
def RawComment.covers (c : RawComment) (p : Nat) : Prop :=
  c.beginOffset ≤ p ∧ p < c.endOffset

instance (c : RawComment) (p : Nat) : Decidable (c.covers p) :=
  inferInstanceAs (Decidable (c.beginOffset ≤ p ∧ p < c.endOffset))

namespace LupdateVisitor

/-- The text between a comment and the declaration, or the comment accepted
before it: `llvm::StringRef text(buffer + commentEnd, lastDecompLoc -
commentEnd)`. When the comment ends behind `lastDecompLoc` the length wraps in
`unsigned` and the code reads past the buffer, which is not defined; the model
yields the buffer to its end there, as for any length that reaches past the
buffer. The model is exact as long as the comment ends at or before
`lastDecompLoc` and `lastDecompLoc` is inside the buffer. -/
def textBetween (buffer : List Char) (lastDecompLoc : Nat) (c : RawComment) : List Char :=
  stringRef buffer c.endOffset (unsignedSub lastDecompLoc c.endOffset)

/-- The `do ... while (comment != rawComments.begin())` loop of
`rawCommentsFromSourceLocation`. `before` holds the comments from the one the
iterator steps back to first down to `rawComments.begin()`, and `retrieved`
the comments accepted so far, in source order. -/
def walkBack (sm : SourceManager) (buffer : List Char) (loc : SourceLocation) :
    List RawComment → Nat → List RawComment → List RawComment
  | [], _, retrieved => retrieved
  | c :: before, lastDecompLoc, retrieved =>
    if loc.file ≠ c.file then retrieved
    else if sm.getLineNumber loc.file loc.offset = sm.getLineNumber c.file c.endOffset then
      walkBack sm buffer loc before lastDecompLoc retrieved
    else if findFirstOfStop (textBetween buffer lastDecompLoc c) then retrieved
    else if LupdatePrivate.trFunctionPresent (textBetween buffer lastDecompLoc c) then retrieved
    else walkBack sm buffer loc before c.beginOffset (c :: retrieved)

/-- The comments `rawCommentsFromSourceLocation` retrieves for a location,
before their raw text is taken. `rawComments` is the comment list the AST
context gives for the location (always there: `m_context` is not null). -/
def retrievedComments (sm : SourceManager) (rawComments : List RawComment)
    (loc : SourceLocation) : List RawComment :=
  if loc.isInvalid || !loc.isFileID then []
  else if rawComments.isEmpty then []
  else if lower_bound loc rawComments = 0 then []
  else
    match sm.bufferData loc.file with
    | none => []
    | some buffer =>
      walkBack sm buffer loc ((rawComments.take (lower_bound loc rawComments)).reverse)
        loc.offset []

/-- The function `rawCommentsFromSourceLocation`: the raw text of the comments
retrieved for a location. -/
def rawCommentsFromSourceLocation (sm : SourceManager) (rawComments : List RawComment)
    (loc : SourceLocation) : List (List Char) :=
  match sm.bufferData loc.file with
  | none => []
  | some buffer => (retrievedComments sm rawComments loc).map (RawComment.getRawText buffer)

/-- The loop of `VisitCallExpr` and of `processPreprocessorCall` over the raw
comments: `setInfoFromRawComment` on each, in order. -/
def setInfoFromRawComments (rawComments : List (List Char)) (store : TranslationRelatedStore) :
    TranslationRelatedStore :=
  rawComments.foldl (fun st rawComment => setInfoFromRawComment rawComment st) store

end LupdateVisitor

/-- Whether the text `pat` stands in the buffer at offset `q`. -/
def occursAt (buffer pat : List Char) (q : Nat) : Prop := pat <+: buffer.drop q

instance (buffer pat : List Char) (q : Nat) : Decidable (occursAt buffer pat q) :=
  inferInstanceAs (Decidable (pat <+: buffer.drop q))

/-- Whether the `length` bytes from offset `q` on lie outside the comment. -/
def RawComment.apartFrom (c : RawComment) (q length : Nat) : Prop :=
  c.endOffset ≤ q ∨ q + length ≤ c.beginOffset

instance (c : RawComment) (q length : Nat) : Decidable (c.apartFrom q length) :=
  inferInstanceAs (Decidable (c.endOffset ≤ q ∨ q + length ≤ c.beginOffset))

/-! ## The scenarios of the specification -/

/-- Scenario A: the marker call `foo()` at offset 0, on line 1, with a comment
behind it on its line. -/
def scenarioA : List Char := "foo(); //: Explains foo\n".toList

/-- The only comment of scenario A, `//: Explains foo`. -/
def scenarioAComments : List RawComment := [⟨0, 7, 23⟩]

/-- Scenario A with the comment on the line before the call, which is then at
offset 17. -/
def scenarioABefore : List Char := "//: Explains foo\nfoo();\n".toList

/-- The only comment of `scenarioABefore`. -/
def scenarioABeforeComments : List RawComment := [⟨0, 0, 16⟩]

/-- Scenario C: `baz()` at offset 0 and `qux()` at offset 37. -/
def scenarioC : List Char := "baz(); // unrelated\n//: real comment\nqux();".toList

/-- The two comments of scenario C, `// unrelated` and `//: real comment`. -/
def scenarioCComments : List RawComment := [⟨0, 7, 19⟩, ⟨0, 20, 36⟩]

/-- Two marker calls written with a blank before the parenthesis, at offsets 9
and 20, after one comment. -/
def twoCalls : List Char := "//: hint\ntr (\"a\") + tr (\"b\");\n".toList

/-- The only comment of `twoCalls`, `//: hint`. -/
def twoCallsComments : List RawComment := [⟨0, 0, 8⟩]

/-- Two marker calls in one statement, at offsets 13 and 22, after one
comment. -/
def twoArguments : List Char := "//: hint\nfoo(tr(\"a\"), tr(\"b\"));\n".toList

/-- Two statements, `foo();` at offset 8 and `bar();` at offset 23, each with
a comment on the line before it. -/
def twoStatements : List Char := "//: one\nfoo();\n//: two\nbar();".toList

/-- The two comments of `twoStatements`, `//: one` and `//: two`. -/
def twoStatementsComments : List RawComment := [⟨0, 0, 7⟩, ⟨0, 15, 22⟩]

/-! ## The signature parser of qdoc's QML visitor -/

/-- The token kinds of qdoc's tokenizer that the signature parser tells
apart; every other kind is `Tok_SomeOperator` to it. -/
inductive Tok where
  | Tok_Eoi | Tok_Ampersand | Tok_Aster | Tok_Caret | Tok_LeftParen | Tok_RightParen
  | Tok_LeftBracket | Tok_RightBracket | Tok_Comma | Tok_Ellipsis | Tok_Equal
  | Tok_Gulbrandsen | Tok_Number | Tok_SomeOperator | Tok_Ident | Tok_char | Tok_const
  | Tok_double | Tok_int | Tok_int64 | Tok_long | Tok_short | Tok_signed | Tok_unsigned
  | Tok_void
  deriving DecidableEq, Repr

open Tok

/-- Modelled from the spec: the kind of a word read by qdoc's tokenizer
(`tokenizer.cpp` is not among the sources): the type keywords the parser names
have kinds of their own, a word starting with a digit is a number, any other
word is an identifier. -/
def wordKind (w : List Char) : Tok :=
  if w = "char".toList then Tok_char
  else if w = "const".toList then Tok_const
  else if w = "double".toList then Tok_double
  else if w = "int".toList then Tok_int
  else if w = "__int64".toList then Tok_int64
  else if w = "long".toList then Tok_long
  else if w = "short".toList then Tok_short
  else if w = "signed".toList then Tok_signed
  else if w = "unsigned".toList then Tok_unsigned
  else if w = "void".toList then Tok_void
  else if (w.head?.map Char.isDigit) = some true then Tok_Number
  else Tok_Ident

/-- The word read so far (kept in reverse), as a token when there is one. -/
def flushWord (word : List Char) : List (Tok × List Char) :=
  if word.isEmpty then [] else [(wordKind word.reverse, word.reverse)]

/-- Modelled from the spec: the tokens qdoc's tokenizer (`tokenizer.cpp` is
not among the sources) reads from a signature text, each with its lexeme:
words, the punctuation the parser names, `::` and `...`; blanks separate
tokens. -/
def tokenize : List Char → List Char → List (Tok × List Char)
  | [], word => flushWord word
  | ':' :: ':' :: cs, word => flushWord word ++ (Tok_Gulbrandsen, [':', ':']) :: tokenize cs []
  | '.' :: '.' :: '.' :: cs, word =>
    flushWord word ++ (Tok_Ellipsis, ['.', '.', '.']) :: tokenize cs []
  | c :: cs, word =>
    if Regex.isWord c then tokenize cs (c :: word)
    else if Regex.isSpace c then flushWord word ++ tokenize cs []
    else
      flushWord word ++
        ((if c = '&' then Tok_Ampersand else if c = '*' then Tok_Aster
          else if c = '^' then Tok_Caret else if c = '(' then Tok_LeftParen
          else if c = ')' then Tok_RightParen else if c = '[' then Tok_LeftBracket
          else if c = ']' then Tok_RightBracket else if c = ',' then Tok_Comma
          else if c = '=' then Tok_Equal else Tok_SomeOperator), [c]) :: tokenize cs []

/-- Modelled from the spec: the state of qdoc's `Tokenizer` (`tokenizer.h` is
not among the sources) as the parser sees it: the tokens not read yet, the
lexemes of the current and of the previous token, and the depths, each the
number of opening tokens read so far minus the number of closing ones. -/
structure Tokenizer where
  input : List (Tok × List Char)
  lexeme : List Char := []
  previousLexeme : List Char := []
  parenDepth : Int := 0
  bracketDepth : Int := 0
  deriving DecidableEq, Repr

/-- Modelled from the spec: `Tokenizer::getToken` reads the next token, or
`Tok_Eoi` at the end of the input. -/
def Tokenizer.getToken (t : Tokenizer) : Tok × Tokenizer :=
  match t.input with
  | [] => (Tok_Eoi, { t with lexeme := [], previousLexeme := t.lexeme })
  | (kind, lexeme) :: rest =>
    (kind,
      { input := rest, lexeme := lexeme, previousLexeme := t.lexeme,
        parenDepth :=
          if kind = Tok_LeftParen then t.parenDepth + 1
          else if kind = Tok_RightParen then t.parenDepth - 1 else t.parenDepth,
        bracketDepth :=
          if kind = Tok_LeftBracket then t.bracketDepth + 1
          else if kind = Tok_RightBracket then t.bracketDepth - 1 else t.bracketDepth })

/-- A parameter of a function node: type, name and default value. -/
structure Parameter where
  type : List Char
  name : List Char
  defaultValue : List Char
  deriving DecidableEq, Repr

/-- What the parser writes of a `FunctionNode`: location, return type and
parameters. -/
structure FunctionNode where
  location : Nat := 0
  returnType : List Char := []
  parameters : List Parameter := []
  deriving DecidableEq, Repr

/-- Modelled from the spec: `CodeChunk::append` (`codechunk.cpp` is not among
the sources) adds a lexeme to the text of the chunk, verbatim. -/
def CodeChunk.append (chunk lexeme : List Char) : List Char := chunk ++ lexeme

/-- The class `QmlSignatureParser`: its data members. -/
structure QmlSignatureParser where
  signature_ : List Char
  names_ : List (List Char) := []
  funcName_ : List Char := []
  tokenizer_ : Tokenizer
  tok_ : Tok := Tok_Eoi
  func_ : FunctionNode := {}
  location_ : Nat := 0
  deriving DecidableEq, Repr

namespace QmlSignatureParser

/-- The function `readToken`. -/
def readToken (p : QmlSignatureParser) : QmlSignatureParser :=
  { p with tok_ := p.tokenizer_.getToken.1, tokenizer_ := p.tokenizer_.getToken.2 }

/-- The function `previousLexeme`. -/
def previousLexeme (p : QmlSignatureParser) : List Char := p.tokenizer_.previousLexeme

/-- The function `lexeme`. -/
def lexeme (p : QmlSignatureParser) : List Char := p.tokenizer_.lexeme

/-- A bound on the number of tokens a loop of the parser can still read. -/
def fuel (p : QmlSignatureParser) : Nat := p.tokenizer_.input.length + 1

/-- The loop `while (match(A) || match(B) || ...) type->append(previousLexeme())`
for the token kinds `targets`; the flag tells whether it read a token. -/
def matchWhile (targets : List Tok) :
    Nat → QmlSignatureParser → List Char → Bool → QmlSignatureParser × List Char × Bool
  | 0, p, type, matched => (p, type, matched)
  | n + 1, p, type, matched =>
    if p.tok_ ∈ targets then
      matchWhile targets n (readToken p) (CodeChunk.append type (readToken p).previousLexeme) true
    else (p, type, matched)

/-- One pass of the `for (;;)` loop of `matchTypeAndName` up to the test of
`Tok_Gulbrandsen`: the flag is `false` for `return false`. -/
def matchTypePart (p : QmlSignatureParser) (type : List Char) :
    Bool × QmlSignatureParser × List Char :=
  let r := if p.tok_ ≠ Tok_Ident then
      matchWhile [Tok_signed, Tok_unsigned, Tok_short, Tok_long, Tok_int64] (fuel p) p type false
    else (p, type, false)
  if !r.2.2 then
    if r.1.tok_ = Tok_Ident then
      (true, readToken r.1, CodeChunk.append r.2.1 (readToken r.1).previousLexeme)
    else if r.1.tok_ ∈ [Tok_void, Tok_int, Tok_char, Tok_double, Tok_Ellipsis] then
      (true, readToken r.1, CodeChunk.append r.2.1 (readToken r.1).previousLexeme)
    else (false, r.1, r.2.1)
  else if r.1.tok_ ∈ [Tok_int, Tok_char, Tok_double] then
    (true, readToken r.1, CodeChunk.append r.2.1 (readToken r.1).previousLexeme)
  else (true, r.1, r.2.1)

/-- The `for (;;)` loop of `matchTypeAndName`, which matches
`Alpha::Beta::...::Omega`: the flag is `false` for `return false`. -/
def matchQualified :
    Nat → QmlSignatureParser → List Char → Bool × QmlSignatureParser × List Char
  | 0, p, type => (true, p, type)
  | n + 1, p, type =>
    if !(matchTypePart p type).1 then matchTypePart p type
    else if (matchTypePart p type).2.1.tok_ = Tok_Gulbrandsen then
      matchQualified n (readToken (matchTypePart p type).2.1)
        (CodeChunk.append (matchTypePart p type).2.2
          (readToken (matchTypePart p type).2.1).previousLexeme)
    else matchTypePart p type

/-- The loop of `matchTypeAndName` over array brackets. -/
def matchBrackets (bracketDepth0 : Int) :
    Nat → QmlSignatureParser → List Char → QmlSignatureParser × List Char
  | 0, p, type => (p, type)
  | n + 1, p, type =>
    if (p.tokenizer_.bracketDepth ≥ bracketDepth0 ∧ p.tok_ ≠ Tok_Eoi)
        ∨ p.tok_ = Tok_RightBracket then
      matchBrackets bracketDepth0 n (readToken p) (CodeChunk.append type (lexeme p))
    else (p, type)

/-- The function `matchTypeAndName(type, var)`: the returned flag, the parser,
the chunk `*type` and the name `*var`; `var` is `none` for a null pointer. -/
def matchTypeAndName (p : QmlSignatureParser) (type : List Char) (var : Option (List Char)) :
    Bool × QmlSignatureParser × List Char × Option (List Char) :=
  let q := matchQualified (fuel p) p type
  if !q.1 then (false, q.2.1, q.2.2, var)
  else
    let r := matchWhile [Tok_Ampersand, Tok_Aster, Tok_const, Tok_Caret] (fuel q.2.1) q.2.1
      q.2.2 false
    let named := var.isSome && r.1.tok_ = Tok_Ident
    let p2 := if named then readToken r.1 else r.1
    let var2 := if named then some (previousLexeme p2) else var
    if p2.tok_ = Tok_LeftBracket then
      let b := matchBrackets p2.tokenizer_.bracketDepth (fuel p2) p2 r.2.1
      (true, b.1, b.2, var2)
    else (true, p2, r.2.1, var2)

/-- The loop of `matchParameter` that collects the default value. -/
def matchDefaultValue (parenDepth0 : Int) :
    Nat → QmlSignatureParser → List Char → QmlSignatureParser × List Char
  | 0, p, defaultValue => (p, defaultValue)
  | n + 1, p, defaultValue =>
    if p.tokenizer_.parenDepth ≥ parenDepth0
        ∧ (p.tok_ ≠ Tok_Comma ∨ p.tokenizer_.parenDepth > parenDepth0)
        ∧ p.tok_ ≠ Tok_Eoi then
      matchDefaultValue parenDepth0 n (readToken p) (CodeChunk.append defaultValue (lexeme p))
    else (p, defaultValue)

/-- The function `matchParameter`. -/
def matchParameter (p : QmlSignatureParser) : Bool × QmlSignatureParser :=
  let r := matchTypeAndName p [] (some [])
  let name := if (r.2.2.2.getD []).isEmpty then r.2.2.1 else r.2.2.2.getD []
  let type := if (r.2.2.2.getD []).isEmpty then [] else r.2.2.1
  if !r.1 then (false, r.2.1)
  else
    let d := if r.2.1.tok_ = Tok_Equal then
        matchDefaultValue (readToken r.2.1).tokenizer_.parenDepth (fuel r.2.1)
          (readToken r.2.1) []
      else (r.2.1, [])
    (true,
      { d.1 with
          func_ :=
            { d.1.func_ with parameters := d.1.func_.parameters ++ [⟨type, name, d.2⟩] } })

/-- The loop `while (match(Tok_Ident))` of `matchFunctionDecl` over the
qualified name of the function. -/
def matchNames : Nat → QmlSignatureParser → QmlSignatureParser
  | 0, p => p
  | n + 1, p =>
    if p.tok_ = Tok_Ident then
      let p1 := readToken p
      if p1.tok_ = Tok_Gulbrandsen then
        matchNames n { readToken p1 with names_ := p1.names_ ++ [previousLexeme p1] }
      else { p1 with funcName_ := previousLexeme p1 }
    else p

/-- The loop `do ... while (match(Tok_Comma))` of `matchFunctionDecl` over the
parameters: `false` stands for `return false`. -/
def matchParameters : Nat → QmlSignatureParser → Bool × QmlSignatureParser
  | 0, p => (true, p)
  | n + 1, p =>
    let r := matchParameter p
    if !r.1 then (false, r.2)
    else if r.2.tok_ = Tok_Comma then matchParameters n (readToken r.2)
    else (true, r.2)

/-- The function `matchFunctionDecl`: the returned flag and the parser, with
its function node, when it returns. -/
def matchFunctionDecl (p : QmlSignatureParser) : Bool × QmlSignatureParser :=
  let t := if Qt.indexOf ' ' p.signature_ > 0
        ∧ Qt.indexOf '(' p.signature_ - Qt.indexOf ' ' p.signature_ > 1 then
      matchTypeAndName p [] none
    else (true, p, [], none)
  if !t.1 then (false, t.2.1)
  else
    let p1 := matchNames (fuel t.2.1) t.2.1
    if p1.tok_ ≠ Tok_LeftParen then (false, p1)
    else
      let p2 := readToken p1
      let p3 := { p2 with func_ := { p2.func_ with location := p2.location_, returnType := t.2.2.1 } }
      let r := if p3.tok_ ≠ Tok_RightParen then
          matchParameters (fuel p3) { p3 with func_ := { p3.func_ with parameters := [] } }
        else (true, p3)
      if !r.1 then (false, r.2)
      else if r.2.tok_ = Tok_RightParen then (true, readToken r.2)
      else (false, r.2)

/-- The constructor of `QmlSignatureParser`: the tokenizer is set on the
signature, the first token is read and `matchFunctionDecl` is called. The flag
is what `matchFunctionDecl` returned. -/
def create (func : FunctionNode) (signature : List Char) (loc : Nat) :
    Bool × QmlSignatureParser :=
  matchFunctionDecl
    (readToken
      { signature_ := signature, tokenizer_ := { input := tokenize signature [] },
        func_ := func, location_ := loc })

end QmlSignatureParser

/-- Scenario E: a signature whose first default value is a parenthesised pair. -/
def scenarioE : List Char := "void foo(int a = (1,2), QString b)".toList

/-- Scenario E with a call as the first default value, whose parentheses open
after the first token of the value. -/
def scenarioECall : List Char := "void foo(int a = f(1,2), QString b)".toList

/-! ## From the records to the translator -/

/-- The function `hasQuote`. -/
def LupdatePrivate.hasQuote (source : List Char) : Bool :=
  LupdatePrivate.contains ['"'] source

/-- The call `context.substr(0, context.find(pat, 0))` of
`contextForFunctionDecl`: the text before the first occurrence of `pat`, the
whole text when `pat` does not occur (`find` gives `npos`). -/
def LupdatePrivate.substrBeforeFind (pat : List Char) : List Char → List Char
  | [] => []
  | c :: cs => if pat.isPrefixOf (c :: cs) then [] else c :: substrBeforeFind pat cs

/-- The function `contextForFunctionDecl`, on the qualified name that clang
prints for the function. -/
def LupdatePrivate.contextForFunctionDecl (qualifiedName funcName : List Char) : List Char :=
  LupdatePrivate.substrBeforeFind (':' :: ':' :: funcName) qualifiedName

/-- The function `TranslationRelatedStore::isValid`. -/
def TranslationRelatedStore.isValid (store : TranslationRelatedStore) : Bool :=
  !store.lupdateLocationFile.isEmpty && store.lupdateLocationLine > -1 && store.locationCol > -1

/-- The enumerators of `TrFunctionAliasManager::TrFunction` that the visitor
names. -/
inductive TrFunction where
  | Function_Q_DECLARE_TR_FUNCTIONS
  | Function_QT_TR_N_NOOP | Function_tr | Function_trUtf8 | Function_QT_TR_NOOP
  | Function_QT_TR_NOOP_UTF8
  | Function_QT_TRANSLATE_N_NOOP | Function_QT_TRANSLATE_N_NOOP3 | Function_translate
  | Function_findMessage | Function_QT_TRANSLATE_NOOP | Function_QT_TRANSLATE_NOOP_UTF8
  | Function_QT_TRANSLATE_NOOP3 | Function_QT_TRANSLATE_NOOP3_UTF8
  | Function_QT_TRID_N_NOOP | Function_qtTrId | Function_QT_TRID_NOOP
  deriving DecidableEq, Repr

open TrFunction

/-- Modelled from the spec: the lookup `trFunctionAliasManager.trFunctionByName`
(`lupdate.h` is not among the sources) when no alias was added: each kind is
found by its own name, any other name is not found. -/
def defaultTrFunctionByName (name : List Char) : Option TrFunction :=
  if name = "Q_DECLARE_TR_FUNCTIONS".toList then some Function_Q_DECLARE_TR_FUNCTIONS
  else if name = "QT_TR_N_NOOP".toList then some Function_QT_TR_N_NOOP
  else if name = "tr".toList then some Function_tr
  else if name = "trUtf8".toList then some Function_trUtf8
  else if name = "QT_TR_NOOP".toList then some Function_QT_TR_NOOP
  else if name = "QT_TR_NOOP_UTF8".toList then some Function_QT_TR_NOOP_UTF8
  else if name = "QT_TRANSLATE_N_NOOP".toList then some Function_QT_TRANSLATE_N_NOOP
  else if name = "QT_TRANSLATE_N_NOOP3".toList then some Function_QT_TRANSLATE_N_NOOP3
  else if name = "translate".toList then some Function_translate
  else if name = "findMessage".toList then some Function_findMessage
  else if name = "QT_TRANSLATE_NOOP".toList then some Function_QT_TRANSLATE_NOOP
  else if name = "QT_TRANSLATE_NOOP_UTF8".toList then some Function_QT_TRANSLATE_NOOP_UTF8
  else if name = "QT_TRANSLATE_NOOP3".toList then some Function_QT_TRANSLATE_NOOP3
  else if name = "QT_TRANSLATE_NOOP3_UTF8".toList then some Function_QT_TRANSLATE_NOOP3_UTF8
  else if name = "QT_TRID_N_NOOP".toList then some Function_QT_TRID_N_NOOP
  else if name = "qtTrId".toList then some Function_qtTrId
  else if name = "QT_TRID_NOOP".toList then some Function_QT_TRID_NOOP
  else none

/-- Modelled from the spec: the enumeration `TranslatorMessage::Type`
(`translatormessage.h` is not among the sources). -/
inductive TranslatorMessageType where
  | Unfinished | Finished | Vanished | Obsolete
  deriving DecidableEq, Repr

/-- Modelled from the spec: the class `TranslatorMessage`
(`translatormessage.h` is not among the sources), with the members that its
constructor and the setters `setExtras`, `setExtraComment` and `setId` write. -/
structure TranslatorMessage where
  context : List Char := []
  sourceText : List Char := []
  comment : List Char := []
  userData : List Char := []
  fileName : List Char := []
  lineNumber : Int := -1
  translations : List (List Char) := []
  type : TranslatorMessageType := TranslatorMessageType.Unfinished
  plural : Bool := false
  extras : List (List Char × List Char) := []
  extraComment : List Char := []
  id : List Char := []
  deriving DecidableEq, Repr

/-- Modelled from the spec: `Translator::append` (`translator.h` is not among
the sources) adds a message at the end of the messages of the translator. -/
def Translator.append (tor : List TranslatorMessage) (msg : TranslatorMessage) :
    List TranslatorMessage :=
  tor ++ [msg]

/-- What `VisitCallExpr` reads of a `clang::CallExpr` and of the AST: whether
the full location of its begin is invalid, the name of the file of that
location, whether it has a direct callee and a type, the name and the
qualified name of the callee, the spelling line number, the location of its
begin, and its arguments as `printPretty` prints them. -/
structure CallExpr where
  locationIsInvalid : Bool := false
  fileName : List Char
  hasDirectCallee : Bool := true
  hasType : Bool := true
  funcName : List Char
  qualifiedName : List Char
  spellingLineNumber : Int
  beginLoc : SourceLocation
  arguments : List (List Char)

/-- What the visitor reads of its `clang::ASTContext`: the source manager and
the list of raw comments. -/
structure ASTContext where
  sourceManager : SourceManager
  rawComments : List RawComment

namespace LupdateVisitor

/-- The function `fillTranslatorMessage`. The function `ParserTool::transcode`
is not among the sources and is the parameter `transcode`. -/
def fillTranslatorMessage (transcode : List Char → List Char) (store : TranslationRelatedStore)
    (forcePlural : Bool) (isId : Bool) : TranslatorMessage :=
  let msg : TranslatorMessage :=
    { context :=
        if !isId then
          transcode (if store.contextArg.isEmpty then store.contextRetrieved
            else store.contextArg)
        else [],
      sourceText := transcode (if isId then store.lupdateSourceWhenId else store.lupdateSource),
      comment := transcode store.lupdateComment,
      userData := [],
      fileName := store.lupdateLocationFile,
      lineNumber := store.lupdateLocationLine,
      translations := [],
      type := TranslatorMessageType.Unfinished,
      plural := if forcePlural then forcePlural else !store.lupdatePlural.isEmpty }
  { (if !store.lupdateAllMagicMetaData.isEmpty then
        { msg with extras := store.lupdateAllMagicMetaData }
      else msg) with
    extraComment := transcode store.lupdateExtraComment }

/-- The function `handleTranslate`: the translator `m_tor` after the call. -/
def handleTranslate (transcode : List Char → List Char) (tor : List TranslatorMessage)
    (store : TranslationRelatedStore) (forcePlural : Bool) : List TranslatorMessage :=
  Translator.append tor
    { fillTranslatorMessage transcode store forcePlural false with
      id := transcode store.lupdateIdMetaData }

/-- The function `handleTr`: the translator `m_tor` after the call. -/
def handleTr (transcode : List Char → List Char) (tor : List TranslatorMessage)
    (store : TranslationRelatedStore) (forcePlural : Bool) : List TranslatorMessage :=
  if store.contextRetrieved.isEmpty && store.contextArg.isEmpty then tor
  else
    Translator.append tor
      { fillTranslatorMessage transcode store forcePlural false with
        id := transcode store.lupdateIdMetaData }

/-- The function `handleTrId`: the translator `m_tor` after the call. -/
def handleTrId (transcode : List Char → List Char) (tor : List TranslatorMessage)
    (store : TranslationRelatedStore) (forcePlural : Bool) : List TranslatorMessage :=
  Translator.append tor
    { fillTranslatorMessage transcode store forcePlural true with
      id := transcode store.lupdateId }

/-- The function `fillTranslator(TranslationRelatedStore store)`: the
translator `m_tor` after the call. The lookup of the alias manager is the
parameter `trFunctionByName`; `none` stands for a name it does not find. -/
def fillTranslator (trFunctionByName : List Char → Option TrFunction)
    (transcode : List Char → List Char) (tor : List TranslatorMessage)
    (store : TranslationRelatedStore) : List TranslatorMessage :=
  match trFunctionByName store.funcName with
  | some Function_Q_DECLARE_TR_FUNCTIONS => tor
  | some Function_QT_TR_N_NOOP => handleTr transcode tor store true
  | some Function_tr => handleTr transcode tor store false
  | some Function_trUtf8 => handleTr transcode tor store false
  | some Function_QT_TR_NOOP => handleTr transcode tor store false
  | some Function_QT_TR_NOOP_UTF8 => handleTr transcode tor store false
  | some Function_QT_TRANSLATE_N_NOOP => handleTranslate transcode tor store true
  | some Function_QT_TRANSLATE_N_NOOP3 => handleTranslate transcode tor store true
  | some Function_translate => handleTranslate transcode tor store false
  | some Function_findMessage => handleTranslate transcode tor store false
  | some Function_QT_TRANSLATE_NOOP => handleTranslate transcode tor store false
  | some Function_QT_TRANSLATE_NOOP_UTF8 => handleTranslate transcode tor store false
  | some Function_QT_TRANSLATE_NOOP3 => handleTranslate transcode tor store false
  | some Function_QT_TRANSLATE_NOOP3_UTF8 => handleTranslate transcode tor store false
  | some Function_QT_TRID_N_NOOP => handleTrId transcode tor store true
  | some Function_qtTrId => handleTrId transcode tor store false
  | some Function_QT_TRID_NOOP => handleTrId transcode tor store false
  | none => tor

/-- The function `fillTranslator()`: `fillTranslator(store)` on each record of
`m_translationStoresFromAST`, in order. -/
def fillTranslatorAll (trFunctionByName : List Char → Option TrFunction)
    (transcode : List Char → List Char) (tor : List TranslatorMessage)
    (m_translationStoresFromAST : List TranslationRelatedStore) : List TranslatorMessage :=
  m_translationStoresFromAST.foldl (fillTranslator trFunctionByName transcode) tor

/-- The function `rawCommentsForCallExpr` (`m_context` is not null). -/
def rawCommentsForCallExpr (m_context : ASTContext) (callExpr : CallExpr) : List (List Char) :=
  rawCommentsFromSourceLocation m_context.sourceManager m_context.rawComments callExpr.beginLoc

/-- The record of `VisitCallExpr` after the function independent retrieve and
the loop over the raw comments. -/
def callExprStore (m_context : ASTContext) (callExpression : CallExpr) :
    TranslationRelatedStore :=
  setInfoFromRawComments (rawCommentsForCallExpr m_context callExpression)
    { callType := "ASTRead_CallExpr".toList,
      funcName := callExpression.funcName,
      lupdateLocationFile := callExpression.fileName,
      lupdateLocationLine := callExpression.spellingLineNumber,
      contextRetrieved :=
        LupdatePrivate.contextForFunctionDecl callExpression.qualifiedName
          callExpression.funcName }

/-- The function `VisitCallExpr`: the member `m_translationStoresFromAST` after
the call. -/
def VisitCallExpr (trFunctionByName : List Char → Option TrFunction) (m_context : ASTContext)
    (m_inputFile : List Char) (m_translationStoresFromAST : List TranslationRelatedStore)
    (callExpression : CallExpr) : List TranslationRelatedStore :=
  if callExpression.locationIsInvalid then m_translationStoresFromAST
  else if callExpression.fileName ≠ m_inputFile then m_translationStoresFromAST
  else if !callExpression.hasDirectCallee then m_translationStoresFromAST
  else if !callExpression.hasType then m_translationStoresFromAST
  else if callExpression.funcName ≠ "tr".toList ∧ callExpression.funcName ≠ "qtTrId".toList
      ∧ callExpression.funcName ≠ "translate".toList
      ∧ callExpression.funcName ≠ "trUtf8".toList then m_translationStoresFromAST
  else
    match trFunctionByName callExpression.funcName with
    | some Function_tr | some Function_trUtf8 =>
      if callExpression.arguments.length ≠ 3
          ∨ !LupdatePrivate.hasQuote (callExpression.arguments.getD 0 []) then
        m_translationStoresFromAST
      else
        m_translationStoresFromAST ++
          [{ callExprStore m_context callExpression with
              lupdateSource := LupdatePrivate.cleanQuoteToken (callExpression.arguments.getD 0 []),
              lupdateComment :=
                LupdatePrivate.cleanQuoteToken (callExpression.arguments.getD 1 []),
              lupdatePlural := callExpression.arguments.getD 2 [] }]
    | some Function_translate =>
      if callExpression.arguments.length ≠ 4
          ∨ !LupdatePrivate.hasQuote (callExpression.arguments.getD 0 [])
          ∨ !LupdatePrivate.hasQuote (callExpression.arguments.getD 1 []) then
        m_translationStoresFromAST
      else
        m_translationStoresFromAST ++
          [{ callExprStore m_context callExpression with
              contextArg := LupdatePrivate.cleanQuoteToken (callExpression.arguments.getD 0 []),
              lupdateSource := LupdatePrivate.cleanQuoteToken (callExpression.arguments.getD 1 []),
              lupdateComment :=
                LupdatePrivate.cleanQuoteToken (callExpression.arguments.getD 2 []),
              lupdatePlural := callExpression.arguments.getD 3 [] }]
    | some Function_qtTrId =>
      if callExpression.arguments.length ≠ 2
          ∨ !LupdatePrivate.hasQuote (callExpression.arguments.getD 0 []) then
        m_translationStoresFromAST
      else
        m_translationStoresFromAST ++
          [{ callExprStore m_context callExpression with
              lupdateId := LupdatePrivate.cleanQuoteToken (callExpression.arguments.getD 0 []),
              lupdatePlural := callExpression.arguments.getD 1 [] }]
    | _ => m_translationStoresFromAST ++ [callExprStore m_context callExpression]

/-- The function `processPreprocessorCall`: the members
`m_qDeclateTrFunctionContext` and `m_noopTranslationStores` after the call.
The member `callLocation` of the record is passed beside it. -/
def processPreprocessorCall (m_context : ASTContext)
    (m_qDeclateTrFunctionContext m_noopTranslationStores : List TranslationRelatedStore)
    (store : TranslationRelatedStore) (callLocation : SourceLocation) :
    List TranslationRelatedStore × List TranslationRelatedStore :=
  let filled :=
    setInfoFromRawComments
      (rawCommentsFromSourceLocation m_context.sourceManager m_context.rawComments callLocation)
      store
  if filled.isValid then
    if LupdatePrivate.contains "Q_DECLARE_TR_FUNCTIONS".toList filled.funcName then
      (m_qDeclateTrFunctionContext ++ [filled], m_noopTranslationStores)
    else (m_qDeclateTrFunctionContext, m_noopTranslationStores ++ [filled])
  else (m_qDeclateTrFunctionContext, m_noopTranslationStores)

end LupdateVisitor

/-! ## The inputs of the claims about the records -/

/-- The tagged line `//` + marker + one blank + text. -/
def taggedLine (marker : Char) (text : List Char) : List Char :=
  '/' :: '/' :: marker :: ' ' :: text

/-- Whether a line is of the form `//` + one of `:`, `=`, `~`, `%` + at least
one whitespace character + text that is not empty. -/
def isTaggedLineForm (line : List Char) : Prop :=
  ∃ marker space rest, line = '/' :: '/' :: marker :: space :: rest
    ∧ LupdatePrivate.isIdentifier marker = true ∧ Regex.isSpace space = true ∧ rest ≠ []

/-- A call `QObject::tr("hello")` at offset 0 of line 1 of `main.cpp`, printed
with its two default arguments. -/
def trCall : CallExpr :=
  { fileName := "main.cpp".toList, funcName := "tr".toList,
    qualifiedName := "QObject::tr".toList, spellingLineNumber := 1, beginLoc := ⟨0, 0, false, true⟩,
    arguments := ["\"hello\"".toList, [], []] }

/-- A call `qtTrId("msg-id")` at offset 0 of line 1 of `main.cpp`, printed with
its default argument. -/
def qtTrIdCall : CallExpr :=
  { fileName := "main.cpp".toList, funcName := "qtTrId".toList,
    qualifiedName := "qtTrId".toList, spellingLineNumber := 1, beginLoc := ⟨0, 0, false, true⟩,
    arguments := ["\"msg-id\"".toList, []] }

/-- A call `QCoreApplication::translate("Ctx", "hello")` at offset 0 of line 1
of `main.cpp`, printed with its two default arguments. -/
def translateCall : CallExpr :=
  { fileName := "main.cpp".toList, funcName := "translate".toList,
    qualifiedName := "QCoreApplication::translate".toList, spellingLineNumber := 1,
    beginLoc := ⟨0, 0, false, true⟩,
    arguments := ["\"Ctx\"".toList, "\"hello\"".toList, [], []] }

/-- The AST context of a file with the text `buffer` and without any comment. -/
def noCommentContext (buffer : List Char) : ASTContext :=
  { sourceManager := SourceManager.ofBuffer buffer, rawComments := [] }

/-- Whether a call has the name and the arguments of one of the marker
functions `tr`, `trUtf8`, `translate`, `qtTrId`: the number of arguments of
the function, and a quote in each literal argument that `VisitCallExpr` asks
one of. -/
def isWellFormedCall (c : CallExpr) : Prop :=
  ((c.funcName = "tr".toList ∨ c.funcName = "trUtf8".toList) ∧ c.arguments.length = 3
      ∧ LupdatePrivate.hasQuote (c.arguments.getD 0 []) = true)
    ∨ (c.funcName = "translate".toList ∧ c.arguments.length = 4
      ∧ LupdatePrivate.hasQuote (c.arguments.getD 0 []) = true
      ∧ LupdatePrivate.hasQuote (c.arguments.getD 1 []) = true)
    ∨ (c.funcName = "qtTrId".toList ∧ c.arguments.length = 2
      ∧ LupdatePrivate.hasQuote (c.arguments.getD 0 []) = true)

instance (c : CallExpr) : Decidable (isWellFormedCall c) := by
  unfold isWellFormedCall
  infer_instance

/-- Whether two records agree in every member but `lupdateExtraComment`,
`lupdateIdMetaData`, `lupdateAllMagicMetaData` and `lupdateSourceWhenId`. -/
def TranslationRelatedStore.sameOutsideComments (a b : TranslationRelatedStore) : Prop :=
  a.callType = b.callType ∧ a.rawCode = b.rawCode ∧ a.funcName = b.funcName
    ∧ a.locationCol = b.locationCol ∧ a.contextArg = b.contextArg
    ∧ a.contextRetrieved = b.contextRetrieved ∧ a.lupdateSource = b.lupdateSource
    ∧ a.lupdateLocationFile = b.lupdateLocationFile
    ∧ a.lupdateLocationLine = b.lupdateLocationLine ∧ a.lupdateId = b.lupdateId
    ∧ a.lupdateMagicMetaData = b.lupdateMagicMetaData ∧ a.lupdateComment = b.lupdateComment
    ∧ a.lupdatePlural = b.lupdatePlural

/-- A line of a block comment that holds one double-quoted piece: the
whitespace `lead`, the piece between two quotes, the whitespace `trail`. -/
structure QuotedLine where
  lead : List Char := []
  piece : List Char
  trail : List Char := []

/-- The text of a line with one double-quoted piece. -/
def QuotedLine.text (l : QuotedLine) : List Char :=
  l.lead ++ '"' :: (l.piece ++ '"' :: l.trail)

/-- Whether the parts of a line with one double-quoted piece are what they are
called: `lead` and `trail` are whitespace, and the text has no newline. -/
def QuotedLine.isLine (l : QuotedLine) : Prop :=
  (∀ c ∈ l.lead, Qt.isSpace c = true) ∧ (∀ c ∈ l.trail, Qt.isSpace c = true) ∧ '\n' ∉ l.text

instance (l : QuotedLine) : Decidable l.isLine := by
  unfold QuotedLine.isLine
  infer_instance

/-- The texts, one after the other without a separator. -/
def concatAll : List (List Char) → List Char
  | [] => []
  | text :: rest => text ++ concatAll rest

/-- The lines of a block comment tagged `%` whose lines each hold one
double-quoted piece: the opener `/*%` and the line `first`, the lines
`middle`, and the line `last` followed by the closer `*/`. -/
def sourceBlockLines (first : QuotedLine) (middle : List QuotedLine) (last : QuotedLine) :
    List (List Char) :=
  ('/' :: '*' :: '%' :: first.text) :: (middle.map QuotedLine.text ++ [last.text ++ ['*', '/']])

namespace QmlSignatureParser

/-- The parser as the constructor of `QmlSignatureParser` has it when it calls
`matchFunctionDecl`: the tokenizer is set on the signature and the first token
is read. -/
def start (func : FunctionNode) (signature : List Char) (loc : Nat) : QmlSignatureParser :=
  readToken
    { signature_ := signature, tokenizer_ := { input := tokenize signature [] },
      func_ := func, location_ := loc }

/-- The function `matchFunctionDecl` up to and with its test
`tok_ != Tok_LeftParen`: the flag is `false` where the function returns
`false` there; then the parser and the chunk `returnType`. -/
def matchFunctionHead (p : QmlSignatureParser) : Bool × QmlSignatureParser × List Char :=
  let t := if Qt.indexOf ' ' p.signature_ > 0
        ∧ Qt.indexOf '(' p.signature_ - Qt.indexOf ' ' p.signature_ > 1 then
      matchTypeAndName p [] none
    else (true, p, [], none)
  if !t.1 then (false, t.2.1, t.2.2.1)
  else
    (decide ((matchNames (fuel t.2.1) t.2.1).tok_ = Tok.Tok_LeftParen),
      matchNames (fuel t.2.1) t.2.1, t.2.2.1)

/-- The function `matchFunctionDecl` after its test `tok_ != Tok_LeftParen`,
from `readToken()` on, for the parser and the chunk `returnType` it has
there. -/
def matchFunctionTail (p1 : QmlSignatureParser) (returnType : List Char) :
    Bool × QmlSignatureParser :=
  let p2 := readToken p1
  let p3 := { p2 with func_ := { p2.func_ with location := p2.location_, returnType := returnType } }
  let r := if p3.tok_ ≠ Tok.Tok_RightParen then
      matchParameters (fuel p3) { p3 with func_ := { p3.func_ with parameters := [] } }
    else (true, p3)
  if !r.1 then (false, r.2)
  else if r.2.tok_ = Tok.Tok_RightParen then (true, readToken r.2)
  else (false, r.2)

/-- The same parser on another function node and location. -/
def withNode (p : QmlSignatureParser) (func : FunctionNode) (loc : Nat) : QmlSignatureParser :=
  { p with func_ := func, location_ := loc }

end QmlSignatureParser

/-- The branch of `QmlDocVisitor::applyDocumentation` for a topic that ends in
`method` on a function node: the constructor of `QmlSignatureParser` runs on
the node, and the node is all the branch has of the parse afterwards. -/
def applyMethodTopic (fn : FunctionNode) (args : List Char) (loc : Nat) : FunctionNode :=
  (QmlSignatureParser.create fn args loc).2.func_

/-! ## The passes of the finder's loop -/

/-- One pass of the loop of `rawCommentsFromSourceLocation` that gets to build
`text`: the comment the iterator is at, the value of `lastDecompLoc`, the
comment accepted last before the pass (`none` when none is accepted yet; the
loop keeps only its begin, in `lastDecompLoc`) and the text. -/
structure WalkStep where
  comment : RawComment
  lastDecompLoc : Nat
  accepted : Option RawComment
  text : List Char
  deriving DecidableEq, Repr

namespace LupdateVisitor

/-- The passes of the `do ... while` loop of `rawCommentsFromSourceLocation`
that build `text`, in the order of the walk; the arguments are those of
`walkBack`, with the comment accepted last in place of the accepted
comments. -/
def walkBackSteps (sm : SourceManager) (buffer : List Char) (loc : SourceLocation) :
    List RawComment → Nat → Option RawComment → List WalkStep
  | [], _, _ => []
  | c :: before, lastDecompLoc, accepted =>
    if loc.file ≠ c.file then []
    else if sm.getLineNumber loc.file loc.offset = sm.getLineNumber c.file c.endOffset then
      walkBackSteps sm buffer loc before lastDecompLoc accepted
    else
      ⟨c, lastDecompLoc, accepted, textBetween buffer lastDecompLoc c⟩ ::
        (if findFirstOfStop (textBetween buffer lastDecompLoc c) then []
          else if LupdatePrivate.trFunctionPresent (textBetween buffer lastDecompLoc c) then []
          else walkBackSteps sm buffer loc before c.beginOffset (some c))

/-- The passes of the loop that build `text` when
`rawCommentsFromSourceLocation` runs for a location. -/
def retrievalSteps (sm : SourceManager) (rawComments : List RawComment)
    (loc : SourceLocation) : List WalkStep :=
  if loc.isInvalid || !loc.isFileID then []
  else if rawComments.isEmpty then []
  else if lower_bound loc rawComments = 0 then []
  else
    match sm.bufferData loc.file with
    | none => []
    | some buffer =>
      walkBackSteps sm buffer loc ((rawComments.take (lower_bound loc rawComments)).reverse)
        loc.offset none

/-- Whether a pass accepts its comment: the text has no stop character and no
marker call. -/
def accepts (s : WalkStep) : Bool :=
  !findFirstOfStop s.text && !LupdatePrivate.trFunctionPresent s.text

end LupdateVisitor

/-- Two comments on two lines before a call, the second with a `;` in its
text: `//: a` at offsets 0 to 5, `//: b; c` at offsets 6 to 14, the call at
offset 15. -/
def stackedComments : List Char := "//: a\n//: b; c\nfoo();".toList

/-- The two comments of `stackedComments`. -/
def stackedCommentsList : List RawComment := [⟨0, 0, 5⟩, ⟨0, 6, 14⟩]

/-- A comment behind an argument on the line of a call, and a comment on the
line before: `//: note` at offsets 0 to 8, `/* arg */` at offsets 9 to 18, the
call `tr("x")` at offset 19. -/
def sameLineComment : List Char := "//: note\n/* arg */ tr(\"x\");".toList

/-- The two comments of `sameLineComment`. -/
def sameLineCommentList : List RawComment := [⟨0, 0, 8⟩, ⟨0, 9, 18⟩]

/-- The raw string literal token `R"d(body)d"` behind an encoding prefix. -/
def rawStringToken (prefixText d body : List Char) : List Char :=
  prefixText ++ 'R' :: '"' :: (d ++ '(' :: (body ++ ')' :: (d ++ ['"'])))

/-- Whether a text is one of the encoding prefixes `u8`, `L`, `u`, `U` of a
string literal, or empty. -/
def isEncodingPrefix (prefixText : List Char) : Prop :=
  prefixText = [] ∨ prefixText = ['u', '8'] ∨ prefixText = ['L'] ∨ prefixText = ['u']
    ∨ prefixText = ['U']

instance (prefixText : List Char) : Decidable (isEncodingPrefix prefixText) := by
  unfold isEncodingPrefix
  infer_instance

/-! ## The comments before a QML entity -/

namespace QQmlJS

/-- The class `QQmlJS::AST::SourceLocation` of the QML parser: the members
`offset`, `length`, `startLine` and `startColumn`, all `quint32` and 0 in a
default constructed location. -/
structure SourceLocation where
  offset : Nat := 0
  length : Nat := 0
  startLine : Nat := 0
  startColumn : Nat := 0
  deriving DecidableEq, Repr

/-- The function `SourceLocation::isValid`: `length != 0`. -/
def SourceLocation.isValid (l : SourceLocation) : Bool := l.length != 0

/-- The function `SourceLocation::begin`: `offset`. -/
def SourceLocation.begin (l : SourceLocation) : Nat := l.offset

/-- The function `SourceLocation::end` (`end` is a keyword here):
`offset + length`, in `quint32`. -/
def SourceLocation.end_ (l : SourceLocation) : Nat := (l.offset + l.length) % 4294967296

end QQmlJS

/-- What `precedingComment` and `applyDocumentation` read and write of the
class `QmlDocVisitor`: the text `document` (one element for each `QChar`), the
comments of the engine (`engine->comments()`, in source order), the member
`lastEndOffset` and the set `usedComments`. -/
structure QmlDocVisitor where
  document : List Char
  comments : List QQmlJS.SourceLocation
  lastEndOffset : Nat := 0
  usedComments : List Nat := []

namespace QmlDocVisitor

/-- The test of `precedingComment` for a multiline comment,
`document.at(loc.offset - 1) == '*'`. For the offset 0 the index is outside
the document, where `QString::at` is not defined; the test counts as failed
there, as it does for any other index outside the document. -/
def isMultiline (v : QmlDocVisitor) (loc : QQmlJS.SourceLocation) : Bool :=
  match loc.offset with
  | 0 => false
  | n + 1 => v.document.get? n = some '*'

/-- The test of `precedingComment` for the text of a qdoc comment:
`document.mid(loc.offset, loc.length)` starts with `!` or with `*`. -/
def startsDoc (v : QmlDocVisitor) (loc : QQmlJS.SourceLocation) : Bool :=
  ((v.document.drop loc.offset).take loc.length).head? = some '!'
    || ((v.document.drop loc.offset).take loc.length).head? = some '*'

/-- The loop of `precedingComment` over the comments from the last one back;
`comments` holds the ones not looked at yet, the nearest first. -/
def precedingCommentLoop (v : QmlDocVisitor) (offset : Nat) :
    List QQmlJS.SourceLocation → QQmlJS.SourceLocation
  | [] => {}
  | loc :: comments =>
    if loc.begin ≤ v.lastEndOffset then {}
    else if loc.begin ∈ v.usedComments then {}
    else if loc.begin > v.lastEndOffset ∧ loc.end_ < offset then
      if v.isMultiline loc then
        if v.startsDoc loc then loc
        else precedingCommentLoop v offset comments
      else precedingCommentLoop v offset comments
    else precedingCommentLoop v offset comments

/-- The function `precedingComment`. -/
def precedingComment (v : QmlDocVisitor) (offset : Nat) : QQmlJS.SourceLocation :=
  precedingCommentLoop v offset v.comments.reverse

/-- The function `applyDocumentation`, as far as the members of the visitor
go: the comment `precedingComment` finds for the location, if it is valid, is
put into `usedComments`. What the function does to the node is left out. -/
def applyDocumentation (v : QmlDocVisitor) (location : QQmlJS.SourceLocation) : QmlDocVisitor :=
  if (v.precedingComment location.begin).isValid then
    { v with usedComments := (v.precedingComment location.begin).offset :: v.usedComments }
  else v

/-- Whether a comment starts after `lastEndOffset`, ends before `offset`, is a
multiline comment and has a text that begins with `!` or `*`. -/
def isDocCommentBefore (v : QmlDocVisitor) (offset : Nat) (loc : QQmlJS.SourceLocation) :
    Bool :=
  decide (loc.begin > v.lastEndOffset) && decide (loc.end_ < offset) && v.isMultiline loc
    && v.startsDoc loc

end QmlDocVisitor

/-- A QML document with one qdoc comment, whose text is at offsets 2 to 8, in
front of an item at offset 11; the comment is used already. -/
def usedDocComment : QmlDocVisitor :=
  { document := "/*! doc */\nItem {}".toList, comments := [{ offset := 2, length := 6 }],
    usedComments := [2] }

/-- The QML document of `usedDocComment` with no comment used yet. -/
def freshDocComment : QmlDocVisitor :=
  { document := "/*! doc */\nItem {}".toList, comments := [{ offset := 2, length := 6 }] }

/-! ## The literal normalizer -/

namespace Qt

theorem trimRight_concat_of_neg (p : Char → Bool) (xs : List Char) (c : Char)
    (h : p c = false) : trimRight p (xs ++ [c]) = xs ++ [c] := by
  simp [trimRight, List.dropWhile_cons, h]

theorem trimRight_sublist (p : Char → Bool) (s : List Char) : (trimRight p s).Sublist s := by
  unfold trimRight
  have h := (List.dropWhile_sublist p (l := s.reverse)).reverse
  simpa using h

theorem indexOf_of_not_mem (c : Char) (s : List Char) (h : c ∉ s) : indexOf c s = -1 := by
  induction s with
  | nil => rfl
  | cons x xs ih =>
    simp only [List.mem_cons, not_or] at h
    have hx : ¬ x = c := fun e => h.1 e.symm
    simp [indexOf, hx, ih h.2]

theorem trimmed_sublist (s : List Char) : (trimmed s).Sublist s :=
  (trimRight_sublist _ _).trans (List.dropWhile_sublist _)

end Qt

namespace LupdatePrivate

theorem trim_sublist (s : List Char) : (trim s).Sublist s :=
  (Qt.trimRight_sublist _ _).trans (List.dropWhile_sublist _)

theorem trim_quoted (s : List Char) : trim ('"' :: (s ++ ['"'])) = '"' :: (s ++ ['"']) := by
  have h1 : Regex.isSpace '"' = false := by decide
  unfold trim
  rw [List.dropWhile_cons_of_neg (by simp [h1])]
  exact Qt.trimRight_concat_of_neg Regex.isSpace ('"' :: s) '"' h1

theorem trimmed_quoted (s : List Char) :
    Qt.trimmed ('"' :: (s ++ ['"'])) = '"' :: (s ++ ['"']) := by
  have h1 : Qt.isSpace '"' = false := by decide
  unfold Qt.trimmed
  rw [List.dropWhile_cons_of_neg (by simp [h1])]
  exact Qt.trimRight_concat_of_neg Qt.isSpace ('"' :: s) '"' h1

theorem consume_front_quote (t : List Char) : consume_front ('"' :: t) ['"'] = (true, t) := by
  simp [consume_front]

theorem consume_back_quote (t : List Char) : consume_back (t ++ ['"']) ['"'] = (true, t) := by
  simp [consume_back, List.isSuffixOf]

theorem consume_front_of_not_mem (t : List Char) (h : '"' ∉ t) :
    consume_front t ['"'] = (false, t) := by
  cases t with
  | nil => simp [consume_front]
  | cons x xs =>
    simp only [List.mem_cons, not_or] at h
    have hx : ¬ x = '"' := fun e => h.1 e.symm
    simp [consume_front, hx, Ne.symm hx]

theorem consume_back_of_not_mem (t : List Char) (h : '"' ∉ t) :
    consume_back t ['"'] = (false, t) := by
  have hs : ¬ (['"'] <:+ t) := fun hsuf => h (hsuf.subset (List.mem_singleton.mpr rfl))
  have hb : List.isSuffixOf ['"'] t = false := by
    rw [Bool.eq_false_iff]
    intro hh
    exact hs (List.isSuffixOf_iff_suffix.mp hh)
  simp [consume_back, hb]

theorem cleanQuote_quoted (s : List Char) (q : QuoteCompulsary) :
    cleanQuote ('"' :: (s ++ ['"'])) q = s := by
  simp [cleanQuote, trim_quoted, consume_front_quote, consume_back_quote]

theorem cleanQuote_of_not_mem_none (s : List Char) (h : '"' ∉ s) :
    cleanQuote s QuoteCompulsary.None = trim s := by
  have ht : '"' ∉ trim s := fun hm => h ((trim_sublist s).subset hm)
  by_cases he : s = []
  · subst he; rfl
  · simp [cleanQuote, he, consume_front_of_not_mem _ ht, consume_back_of_not_mem _ ht,
      QuoteCompulsary.value]

theorem cleanQuote_of_not_mem_compulsory (s : List Char) (h : '"' ∉ s) (q : QuoteCompulsary)
    (hq : q ≠ QuoteCompulsary.None) : cleanQuote s q = [] := by
  have ht : '"' ∉ trim s := fun hm => h ((trim_sublist s).subset hm)
  by_cases he : s = []
  · subst he; rfl
  · cases q with
    | None => exact absurd rfl hq
    | Left => simp [cleanQuote, he, consume_front_of_not_mem _ ht, QuoteCompulsary.value]
    | Right =>
      simp [cleanQuote, he, consume_front_of_not_mem _ ht, consume_back_of_not_mem _ ht,
        QuoteCompulsary.value]
    | LeftAndRight =>
      simp [cleanQuote, he, consume_front_of_not_mem _ ht, QuoteCompulsary.value]

/-- C9. Round trip of the literal normalizer: for every string `s`, both
`cleanQuote` on the source token `"s"` and `cleanQuote` with both quotes
compulsory return exactly `s`, so wrapping the result in double quotes again
gives back the original literal text. -/
theorem cleanQuote_roundtrip (s : List Char) :
    cleanQuoteToken ('"' :: (s ++ ['"'])) = s
      ∧ cleanQuote ('"' :: (s ++ ['"'])) QuoteCompulsary.LeftAndRight = s
      ∧ '"' :: (cleanQuoteToken ('"' :: (s ++ ['"'])) ++ ['"']) = '"' :: (s ++ ['"']) := by
  have h : cleanQuoteToken ('"' :: (s ++ ['"'])) = s := by
    simp [cleanQuoteToken, trimmed_quoted, Qt.indexOf, cleanQuote_quoted]
  exact ⟨h, cleanQuote_quoted s _, by rw [h]⟩

/-- C10, the claim as stated fails: the input `abc` has no double quote, and
`cleanQuote` on a source token and `cleanQuote` with a compulsory quote return
the empty string for it, not the trimmed input `abc`. -/
theorem cleanQuote_no_quote_counterexample :
    cleanQuoteToken ['a', 'b', 'c'] ≠ Qt.trimmed ['a', 'b', 'c']
      ∧ cleanQuote ['a', 'b', 'c'] QuoteCompulsary.Left ≠ trim ['a', 'b', 'c'] := by
  decide

/-- C10, amended. For every input string without a double quote, `cleanQuote`
with no compulsory quote (`None`) returns the input with leading and trailing
whitespace trimmed and otherwise unchanged; with a compulsory quote (`Left`,
`Right`, `LeftAndRight`) it returns the empty string, and so does `cleanQuote`
on a source token, which asks for both quotes. -/
theorem cleanQuote_no_quote (s : List Char) (h : '"' ∉ s) :
    cleanQuote s QuoteCompulsary.None = trim s
      ∧ (∀ q, q ≠ QuoteCompulsary.None → cleanQuote s q = [])
      ∧ cleanQuoteToken s = [] := by
  refine ⟨cleanQuote_of_not_mem_none s h, cleanQuote_of_not_mem_compulsory s h, ?_⟩
  have ht : '"' ∉ Qt.trimmed s := fun hm => h ((Qt.trimmed_sublist s).subset hm)
  by_cases he : s = []
  · subst he; rfl
  · simp [cleanQuoteToken, he, Qt.indexOf_of_not_mem _ _ ht,
      cleanQuote_of_not_mem_compulsory s h QuoteCompulsary.LeftAndRight (by decide)]

/-- C10, amended, at the input ` abc `: trimmed to `abc` without a compulsory
quote, empty with one and on the source token path. -/
theorem cleanQuote_no_quote_witness :
    '"' ∉ [' ', 'a', 'b', 'c', ' ']
      ∧ (cleanQuote [' ', 'a', 'b', 'c', ' '] QuoteCompulsary.None = ['a', 'b', 'c']
        ∧ (∀ q, q ≠ QuoteCompulsary.None → cleanQuote [' ', 'a', 'b', 'c', ' '] q = [])
        ∧ cleanQuoteToken [' ', 'a', 'b', 'c', ' '] = []) :=
  ⟨by decide, cleanQuote_no_quote [' ', 'a', 'b', 'c', ' '] (by decide)⟩

end LupdatePrivate

/-! ## The finder -/

theorem findFirstOfStop_false (text : List Char) (h : findFirstOfStop text = false)
    (i : Nat) (ch : Char) (hi : text[i]? = some ch) : isStopChar ch = false := by
  unfold findFirstOfStop at h
  rw [List.any_eq_false] at h
  have hm : ch ∈ text := List.getElem?_mem hi
  simpa using h ch hm

theorem unsignedSub_of_le (a b : Nat) (hab : b ≤ a) (ha : a < 4294967296) :
    unsignedSub a b = a - b := by
  unfold unsignedSub
  omega

theorem stringRef_getElem? (buffer : List Char) (start length i : Nat) (hi : i < length) :
    (stringRef buffer start length)[i]? = buffer[start + i]? := by
  unfold stringRef
  rw [List.getElem?_take_of_lt hi, List.getElem?_drop]

namespace LupdateVisitor

theorem textBetween_getElem? (buffer : List Char) (last : Nat) (c : RawComment) (p : Nat)
    (h1 : c.endOffset ≤ p) (h2 : p < last) (h3 : last < 4294967296) :
    (textBetween buffer last c)[p - c.endOffset]? = buffer[p]? := by
  unfold textBetween
  rw [unsignedSub_of_le last c.endOffset (by omega) h3, stringRef_getElem? _ _ _ _ (by omega)]
  congr 1
  omega

/-- Every comment the walk adds ends on another line than the declaration. -/
theorem walkBack_line (sm : SourceManager) (buffer : List Char) (loc : SourceLocation) :
    ∀ (before : List RawComment) (last : Nat) (retrieved : List RawComment),
      (∀ c ∈ retrieved,
        sm.getLineNumber c.file c.endOffset ≠ sm.getLineNumber loc.file loc.offset) →
      ∀ c ∈ walkBack sm buffer loc before last retrieved,
        sm.getLineNumber c.file c.endOffset ≠ sm.getLineNumber loc.file loc.offset := by
  intro before
  induction before with
  | nil => intro last retrieved h; simpa [walkBack] using h
  | cons c0 rest ih =>
    intro last retrieved h
    unfold walkBack
    split_ifs with h1 h2 h3 h4
    · exact h
    · exact ih last retrieved h
    · exact h
    · exact h
    · apply ih
      intro c hc
      rcases List.mem_cons.mp hc with rfl | hc
      · exact fun e => h2 e.symm
      · exact h c hc

/-- The walk returns comments it was given or had accepted, and the ones it
adds are in the file of the declaration. -/
theorem walkBack_mem (sm : SourceManager) (buffer : List Char) (loc : SourceLocation) :
    ∀ (before : List RawComment) (last : Nat) (retrieved : List RawComment),
      ∀ c ∈ walkBack sm buffer loc before last retrieved,
        c ∈ retrieved ∨ (c ∈ before ∧ c.file = loc.file) := by
  intro before
  induction before with
  | nil => intro last retrieved c hc; left; simpa [walkBack] using hc
  | cons c0 rest ih =>
    intro last retrieved c hc
    unfold walkBack at hc
    split_ifs at hc with h1 h2 h3 h4
    · exact Or.inl hc
    · rcases ih last retrieved c hc with h | h
      · exact Or.inl h
      · exact Or.inr ⟨List.mem_cons_of_mem _ h.1, h.2⟩
    · exact Or.inl hc
    · exact Or.inl hc
    · rcases ih _ _ c hc with h | h
      · rcases List.mem_cons.mp h with rfl | h
        · exact Or.inr ⟨List.mem_cons_self _ _, (not_not.mp h1).symm⟩
        · exact Or.inl h
      · exact Or.inr ⟨List.mem_cons_of_mem _ h.1, h.2⟩

/-- The invariant of the walk for the intervening-structure rule: outside the
accepted comments, no stop character lies between an accepted comment and the
declaration. -/
theorem walkBack_clean (sm : SourceManager) (buffer : List Char) (loc : SourceLocation) :
    ∀ (before : List RawComment) (last : Nat) (retrieved : List RawComment),
      last < 4294967296 →
      (∀ c ∈ before, c.beginOffset < 4294967296) →
      (∀ p, last ≤ p → p < loc.offset → (∀ d ∈ retrieved, ¬ d.covers p) →
        ∀ ch, buffer[p]? = some ch → isStopChar ch = false) →
      (∀ c ∈ retrieved, ∀ p, c.endOffset ≤ p → p < loc.offset →
        (∀ d ∈ retrieved, ¬ d.covers p) → ∀ ch, buffer[p]? = some ch → isStopChar ch = false) →
      ∀ c ∈ walkBack sm buffer loc before last retrieved, ∀ p, c.endOffset ≤ p →
        p < loc.offset → (∀ d ∈ walkBack sm buffer loc before last retrieved, ¬ d.covers p) →
        ∀ ch, buffer[p]? = some ch → isStopChar ch = false := by
  intro before
  induction before with
  | nil => intro last retrieved _ _ _ hK; simpa [walkBack] using hK
  | cons c0 rest ih =>
    intro last retrieved hlast hbefore hG hK
    have hrest : ∀ c ∈ rest, c.beginOffset < 4294967296 :=
      fun c hc => hbefore c (List.mem_cons_of_mem _ hc)
    unfold walkBack
    split_ifs with h1 h2 h3 h4
    · exact hK
    · exact ih last retrieved hlast hrest hG hK
    · exact hK
    · exact hK
    · have hstop : findFirstOfStop (textBetween buffer last c0) = false := by simpa using h3
      have hnew : ∀ p, c0.endOffset ≤ p → p < loc.offset →
          (∀ d ∈ retrieved, ¬ d.covers p) → ∀ ch, buffer[p]? = some ch →
          isStopChar ch = false := by
        intro p hp1 hp2 hout ch hch
        by_cases hpl : p < last
        · have hget := textBetween_getElem? buffer last c0 p hp1 hpl hlast
          exact findFirstOfStop_false _ hstop (p - c0.endOffset) ch (hget.trans hch)
        · exact hG p (by omega) hp2 hout ch hch
      apply ih c0.beginOffset (c0 :: retrieved) (hbefore c0 (List.mem_cons_self _ _)) hrest
      · intro p hp1 hp2 hout ch hch
        have hc0 : ¬ c0.covers p := hout c0 (List.mem_cons_self _ _)
        have hend : c0.endOffset ≤ p := by
          unfold RawComment.covers at hc0
          omega
        exact hnew p hend hp2 (fun d hd => hout d (List.mem_cons_of_mem _ hd)) ch hch
      · intro c hc p hp1 hp2 hout ch hch
        have hout2 : ∀ d ∈ retrieved, ¬ d.covers p :=
          fun d hd => hout d (List.mem_cons_of_mem _ hd)
        rcases List.mem_cons.mp hc with rfl | hc
        · exact hnew p hp1 hp2 hout2 ch hch
        · exact hK c hc p hp1 hp2 hout2 ch hch

theorem retrievedComments_eq_walkBack (sm : SourceManager) (rawComments : List RawComment)
    (loc : SourceLocation) (c : RawComment) (hc : c ∈ retrievedComments sm rawComments loc) :
    ∃ buffer, sm.bufferData loc.file = some buffer ∧
      retrievedComments sm rawComments loc =
        walkBack sm buffer loc ((rawComments.take (lower_bound loc rawComments)).reverse)
          loc.offset [] := by
  unfold retrievedComments at hc ⊢
  split_ifs at hc ⊢ with h1 h2 h3
  · simp at hc
  · simp at hc
  · simp at hc
  · cases hb : sm.bufferData loc.file with
    | none => simp [hb] at hc
    | some buffer => exact ⟨buffer, rfl, rfl⟩

/-- C1. Same-line rule: for every comment list, source manager and target
location, no comment the finder returns ends on the source line of the target
location. -/
theorem retrievedComments_not_same_line (sm : SourceManager) (rawComments : List RawComment)
    (loc : SourceLocation) (c : RawComment) (hc : c ∈ retrievedComments sm rawComments loc) :
    sm.getLineNumber c.file c.endOffset ≠ sm.getLineNumber loc.file loc.offset := by
  obtain ⟨buffer, _, heq⟩ := retrievedComments_eq_walkBack sm rawComments loc c hc
  rw [heq] at hc
  exact walkBack_line sm buffer loc _ _ [] (by simp) c hc

/-- Outside the returned comments, no stop character lies between a returned
comment and the target location. -/
theorem retrievedComments_stop_free (sm : SourceManager) (rawComments : List RawComment)
    (loc : SourceLocation) (buffer : List Char) (hbuf : sm.bufferData loc.file = some buffer)
    (hloc : loc.offset < 4294967296)
    (hbegin : ∀ c ∈ rawComments, c.beginOffset < 4294967296)
    (c : RawComment) (hc : c ∈ retrievedComments sm rawComments loc)
    (p : Nat) (hp1 : c.endOffset ≤ p) (hp2 : p < loc.offset)
    (hout : ∀ d ∈ retrievedComments sm rawComments loc, ¬ d.covers p)
    (ch : Char) (hch : buffer[p]? = some ch) : isStopChar ch = false := by
  obtain ⟨buffer2, hbuf2, heq⟩ := retrievedComments_eq_walkBack sm rawComments loc c hc
  have hb : buffer2 = buffer := Option.some.inj (hbuf2.symm.trans hbuf)
  subst hb
  rw [heq] at hc hout
  have hbefore : ∀ c ∈ (rawComments.take (lower_bound loc rawComments)).reverse,
      c.beginOffset < 4294967296 := by
    intro d hd
    exact hbegin d (List.mem_of_mem_take (List.mem_reverse.mp hd))
  exact walkBack_clean sm buffer2 loc _ loc.offset [] hloc hbefore
    (fun p h1 h2 => by omega) (by simp) c hc p hp1 hp2 hout ch hch

/-- C2. Intervening-structure rule: for every comment the finder returns for a
target location, the source text from the end of that comment to the target,
the text of the returned comments left out, has none of the characters `;`,
`\x7d`, `#`, `@`. Offsets are `unsigned`, so below 2^32. -/
theorem retrievedComments_no_stop_char (sm : SourceManager) (rawComments : List RawComment)
    (loc : SourceLocation) (buffer : List Char) (hbuf : sm.bufferData loc.file = some buffer)
    (hloc : loc.offset < 4294967296)
    (hbegin : ∀ c ∈ rawComments, c.beginOffset < 4294967296)
    (c : RawComment) (hc : c ∈ retrievedComments sm rawComments loc)
    (p : Nat) (hp1 : c.endOffset ≤ p) (hp2 : p < loc.offset)
    (hout : ∀ d ∈ retrievedComments sm rawComments loc, ¬ d.covers p)
    (ch : Char) (hch : buffer[p]? = some ch) :
    ch ≠ ';' ∧ ch ≠ '}' ∧ ch ≠ '#' ∧ ch ≠ '@' := by
  have h := retrievedComments_stop_free sm rawComments loc buffer hbuf hloc hbegin c hc p hp1
    hp2 hout ch hch
  simpa [isStopChar, and_assoc] using h

end LupdateVisitor

namespace LupdatePrivate

theorem contains_of_infix (pat : List Char) :
    ∀ text : List Char, pat <:+: text → contains pat text = true := by
  intro text
  induction text with
  | nil =>
    intro h
    have : pat = [] := List.eq_nil_of_infix_nil h
    subst this
    rfl
  | cons c cs ih =>
    intro h
    rcases List.infix_cons_iff.mp h with h | h
    · simp [contains, List.isPrefixOf_iff_prefix.mpr h]
    · simp [contains, ih h]

theorem trFunctions_ne_nil (pat : List Char) (h : pat ∈ trFunctions) : 0 < pat.length := by
  have hall : ∀ p ∈ trFunctions, 0 < p.length := by decide
  exact hall pat h

end LupdatePrivate

theorem stringRef_infix (buffer pat : List Char) (start length q : Nat)
    (hp : 0 < pat.length) (h1 : start ≤ q) (h2 : q + pat.length ≤ start + length)
    (h3 : pat <+: buffer.drop q) :
    pat <:+: stringRef buffer start length := by
  obtain ⟨t, ht⟩ := h3
  unfold stringRef
  have hq : buffer.drop q = (buffer.drop start).drop (q - start) := by
    rw [List.drop_drop]
    congr 1
    omega
  have hs : buffer.drop start = (buffer.drop start).take (q - start) ++ (pat ++ t) := by
    rw [ht, hq, List.take_append_drop]
  have hlen : ((buffer.drop start).take (q - start)).length = q - start := by
    have hl : (buffer.drop q).length = pat.length + t.length := by
      rw [← ht, List.length_append]
    rw [List.length_take, List.length_drop]
    rw [List.length_drop] at hl
    omega
  refine ⟨(buffer.drop start).take (q - start), t.take (length - (q - start) - pat.length), ?_⟩
  conv_rhs => rw [hs]
  rw [List.take_append_eq_append_take, List.take_append_eq_append_take, hlen]
  have e1 : ((buffer.drop start).take (q - start)).take length
      = (buffer.drop start).take (q - start) := by
    rw [List.take_take]
    congr 1
    omega
  have e2 : pat.take (length - (q - start)) = pat := List.take_of_length_le (by omega)
  rw [e1, e2, List.append_assoc]

namespace LupdateVisitor

theorem trFunctionPresent_false (text : List Char)
    (h : LupdatePrivate.trFunctionPresent text = false) (pat : List Char)
    (hp : pat ∈ LupdatePrivate.trFunctions) : ¬ pat <:+: text := by
  intro hin
  unfold LupdatePrivate.trFunctionPresent at h
  rw [List.any_eq_false] at h
  exact h pat hp (LupdatePrivate.contains_of_infix pat text hin)

/-- The invariant of the walk for the intervening-marker-call rule: outside
the accepted comments, no marker call text lies between an accepted comment
and the declaration. -/
theorem walkBack_no_marker (sm : SourceManager) (buffer : List Char) (loc : SourceLocation) :
    ∀ (before : List RawComment) (last : Nat) (retrieved : List RawComment),
      last < 4294967296 →
      (∀ c ∈ before, c.beginOffset < 4294967296) →
      (∀ c ∈ before, c.beginOffset ≤ c.endOffset) →
      (∀ c ∈ retrieved, c.beginOffset ≤ c.endOffset) →
      (last = loc.offset ∨ ∃ d ∈ retrieved, d.beginOffset = last) →
      (∀ q pat, pat ∈ LupdatePrivate.trFunctions → last ≤ q → q + pat.length ≤ loc.offset →
        occursAt buffer pat q → (∀ d ∈ retrieved, d.apartFrom q pat.length) → False) →
      (∀ c ∈ retrieved, ∀ q pat, pat ∈ LupdatePrivate.trFunctions → c.endOffset ≤ q →
        q + pat.length ≤ loc.offset → occursAt buffer pat q →
        (∀ d ∈ retrieved, d.apartFrom q pat.length) → False) →
      ∀ c ∈ walkBack sm buffer loc before last retrieved, ∀ q pat,
        pat ∈ LupdatePrivate.trFunctions → c.endOffset ≤ q → q + pat.length ≤ loc.offset →
        occursAt buffer pat q →
        (∀ d ∈ walkBack sm buffer loc before last retrieved, d.apartFrom q pat.length) →
        False := by
  intro before
  induction before with
  | nil => intro last retrieved _ _ _ _ _ _ hK; simpa [walkBack] using hK
  | cons c0 rest ih =>
    intro last retrieved hlast hbefore hwfb hwfr hB hG hK
    have hrest : ∀ c ∈ rest, c.beginOffset < 4294967296 :=
      fun c hc => hbefore c (List.mem_cons_of_mem _ hc)
    have hwfrest : ∀ c ∈ rest, c.beginOffset ≤ c.endOffset :=
      fun c hc => hwfb c (List.mem_cons_of_mem _ hc)
    unfold walkBack
    split_ifs with h1 h2 h3 h4
    · exact hK
    · exact ih last retrieved hlast hrest hwfrest hwfr hB hG hK
    · exact hK
    · exact hK
    · have hpres : LupdatePrivate.trFunctionPresent (textBetween buffer last c0) = false := by
        simpa using h4
      have hnew : ∀ q pat, pat ∈ LupdatePrivate.trFunctions → c0.endOffset ≤ q →
          q + pat.length ≤ loc.offset → occursAt buffer pat q →
          (∀ d ∈ retrieved, d.apartFrom q pat.length) → False := by
        intro q pat hpat hq1 hq2 hocc hout
        have hn := LupdatePrivate.trFunctions_ne_nil pat hpat
        by_cases hql : q + pat.length ≤ last
        · apply trFunctionPresent_false _ hpres pat hpat
          unfold textBetween
          rw [unsignedSub_of_le last c0.endOffset (by omega) hlast]
          exact stringRef_infix buffer pat c0.endOffset (last - c0.endOffset) q hn hq1
            (by omega) hocc
        · by_cases hq3 : last ≤ q
          · exact hG q pat hpat hq3 hq2 hocc hout
          · rcases hB with hB | ⟨d, hd, hdl⟩
            · omega
            · have h5 := hout d hd
              have h6 := hwfr d hd
              unfold RawComment.apartFrom at h5
              omega
      apply ih c0.beginOffset (c0 :: retrieved) (hbefore c0 (List.mem_cons_self _ _)) hrest
        hwfrest
      · intro c hc
        rcases List.mem_cons.mp hc with rfl | hc
        · exact hwfb _ (List.mem_cons_self _ _)
        · exact hwfr c hc
      · exact Or.inr ⟨c0, List.mem_cons_self _ _, rfl⟩
      · intro q pat hpat hq1 hq2 hocc hout
        have hn := LupdatePrivate.trFunctions_ne_nil pat hpat
        have hc0 := hout c0 (List.mem_cons_self _ _)
        have hend : c0.endOffset ≤ q := by
          unfold RawComment.apartFrom at hc0
          omega
        exact hnew q pat hpat hend hq2 hocc (fun d hd => hout d (List.mem_cons_of_mem _ hd))
      · intro c hc q pat hpat hq1 hq2 hocc hout
        have hout2 : ∀ d ∈ retrieved, d.apartFrom q pat.length :=
          fun d hd => hout d (List.mem_cons_of_mem _ hd)
        rcases List.mem_cons.mp hc with rfl | hc
        · exact hnew q pat hpat hq1 hq2 hocc hout2
        · exact hK c hc q pat hpat hq1 hq2 hocc hout2

/-- Intervening-marker-call rule: no marker call text lies, outside the
returned comments, between a returned comment and the target location. -/
theorem retrievedComments_no_marker (sm : SourceManager) (rawComments : List RawComment)
    (loc : SourceLocation) (buffer : List Char) (hbuf : sm.bufferData loc.file = some buffer)
    (hloc : loc.offset < 4294967296)
    (hbegin : ∀ c ∈ rawComments, c.beginOffset < 4294967296)
    (hwf : ∀ c ∈ rawComments, c.beginOffset ≤ c.endOffset)
    (c : RawComment) (hc : c ∈ retrievedComments sm rawComments loc)
    (q : Nat) (pat : List Char) (hpat : pat ∈ LupdatePrivate.trFunctions)
    (hq1 : c.endOffset ≤ q) (hq2 : q + pat.length ≤ loc.offset)
    (hocc : occursAt buffer pat q)
    (hout : ∀ d ∈ retrievedComments sm rawComments loc, d.apartFrom q pat.length) : False := by
  obtain ⟨buffer2, hbuf2, heq⟩ := retrievedComments_eq_walkBack sm rawComments loc c hc
  have hb : buffer2 = buffer := Option.some.inj (hbuf2.symm.trans hbuf)
  subst hb
  rw [heq] at hc hout
  have hmem : ∀ d ∈ (rawComments.take (lower_bound loc rawComments)).reverse,
      d ∈ rawComments := fun d hd => List.mem_of_mem_take (List.mem_reverse.mp hd)
  exact walkBack_no_marker sm buffer2 loc _ loc.offset [] hloc
    (fun d hd => hbegin d (hmem d hd)) (fun d hd => hwf d (hmem d hd)) (by simp)
    (Or.inl rfl) (fun q pat _ h1 h2 => by
      have := LupdatePrivate.trFunctions_ne_nil pat ‹_›
      omega) (by simp) c hc q pat hpat hq1 hq2 hocc hout

end LupdateVisitor

/-! ## The ordered search, and comments shared by two sites -/

/-- On a comment list that the comparison with the declaration partitions,
every comment before the index `std::lower_bound` returns is before the
declaration. -/
theorem lowerBoundAux_before (loc : SourceLocation) (xs : List RawComment)
    (hmono : ∀ (i j : Nat) (c d : RawComment), i ≤ j → xs[i]? = some c → xs[j]? = some d →
      compareSourceLocation loc d = true → compareSourceLocation loc c = true) :
    ∀ (fuel first len : Nat),
      (∀ (i : Nat) (c : RawComment), i < first → xs[i]? = some c →
        compareSourceLocation loc c = true) →
      ∀ (i : Nat) (c : RawComment), i < lowerBoundAux loc xs fuel first len → xs[i]? = some c →
        compareSourceLocation loc c = true := by
  intro fuel
  induction fuel with
  | zero => intro first len h; simpa [lowerBoundAux] using h
  | succ n ih =>
    intro first len h i c hi hc
    unfold lowerBoundAux at hi
    split_ifs at hi with h0
    · exact h i c hi hc
    · cases hm : xs.get? (first + len / 2) with
      | none =>
        rw [hm] at hi
        exact h i c hi hc
      | some d =>
        rw [hm] at hi
        have hm2 : xs[first + len / 2]? = some d := by simpa using hm
        dsimp only at hi
        split_ifs at hi with hcmp
        · refine ih _ _ ?_ i c hi hc
          intro j e hj he
          exact hmono j (first + len / 2) e d (by omega) he hm2 hcmp
        · exact ih _ _ h i c hi hc

theorem lower_bound_before (loc : SourceLocation) (xs : List RawComment)
    (hfile : ∀ c ∈ xs, c.file = loc.file)
    (hsorted : xs.Pairwise (fun a b => a.beginOffset ≤ b.beginOffset))
    (c : RawComment) (hc : c ∈ xs.take (lower_bound loc xs)) :
    c.beginOffset < loc.offset := by
  have hmono : ∀ (i j : Nat) (c d : RawComment), i ≤ j → xs[i]? = some c → xs[j]? = some d →
      compareSourceLocation loc d = true → compareSourceLocation loc c = true := by
    intro i j c d hij hc hd hcmp
    obtain ⟨hi, rfl⟩ := List.getElem?_eq_some.mp hc
    obtain ⟨hj, rfl⟩ := List.getElem?_eq_some.mp hd
    have hle : xs[i].beginOffset ≤ xs[j].beginOffset := by
      rcases Nat.lt_or_eq_of_le hij with hlt | heq
      · exact List.pairwise_iff_getElem.mp hsorted i j hi hj hlt
      · subst heq; exact Nat.le_refl _
    have hfi := hfile _ (List.getElem_mem hi)
    have hfj := hfile _ (List.getElem_mem hj)
    simp only [compareSourceLocation, isBeforeInTranslationUnit, hfi, hfj, Nat.lt_irrefl,
      decide_False, beq_self_eq_true, Bool.true_and, Bool.false_or, decide_eq_true_eq]
      at hcmp ⊢
    omega
  obtain ⟨i, hi⟩ := List.mem_iff_getElem?.mp hc
  rw [List.getElem?_take] at hi
  split_ifs at hi with hlt
  have hcmp := lowerBoundAux_before loc xs hmono xs.length 0 xs.length
    (fun i c h => absurd h (Nat.not_lt_zero i)) i c hlt hi
  have hf := hfile c (List.getElem?_mem hi)
  simpa [compareSourceLocation, isBeforeInTranslationUnit, hf] using hcmp

namespace LupdateVisitor

theorem retrievedComments_subset_take (sm : SourceManager) (rawComments : List RawComment)
    (loc : SourceLocation) (c : RawComment) (hc : c ∈ retrievedComments sm rawComments loc) :
    c ∈ rawComments.take (lower_bound loc rawComments) := by
  obtain ⟨buffer, _, heq⟩ := retrievedComments_eq_walkBack sm rawComments loc c hc
  rw [heq] at hc
  rcases walkBack_mem sm buffer loc _ _ _ c hc with h | h
  · simp at h
  · exact List.mem_reverse.mp h.1

/-- C1 at the site `qux()` of scenario C: the comment `//: real comment` is
returned, and it ends on line 2 while the site is on line 3. -/
theorem retrievedComments_not_same_line_witness :
    (⟨0, 20, 36⟩ : RawComment) ∈
        retrievedComments (SourceManager.ofBuffer scenarioC) scenarioCComments ⟨0, 37, false, true⟩
      ∧ (SourceManager.ofBuffer scenarioC).getLineNumber 0 36
        ≠ (SourceManager.ofBuffer scenarioC).getLineNumber 0 37 :=
  ⟨by decide,
    retrievedComments_not_same_line (SourceManager.ofBuffer scenarioC) scenarioCComments
      ⟨0, 37, false, true⟩ ⟨0, 20, 36⟩ (by decide)⟩

/-- C2 at the site `qux()` of scenario C: the newline at offset 36, between the
returned comment `//: real comment` and the site, is no stop character. -/
theorem retrievedComments_no_stop_char_witness :
    (⟨0, 20, 36⟩ : RawComment) ∈
        retrievedComments (SourceManager.ofBuffer scenarioC) scenarioCComments ⟨0, 37, false, true⟩
      ∧ scenarioC[36]? = some '\n'
      ∧ ('\n' ≠ ';' ∧ '\n' ≠ '}' ∧ '\n' ≠ '#' ∧ '\n' ≠ '@') :=
  ⟨by decide, by decide,
    retrievedComments_no_stop_char (SourceManager.ofBuffer scenarioC) scenarioCComments
      ⟨0, 37, false, true⟩ scenarioC rfl (by decide) (by decide) ⟨0, 20, 36⟩ (by decide) 36
      (by decide) (by decide) (by decide) '\n' (by decide)⟩

end LupdateVisitor

/-! ## The scenarios -/

namespace LupdateVisitor

/-- C4, the claim as stated fails: for scenario A the record that finding and
parsing the comments of the site `foo()` fills does not have the extra comment
`Explains foo`. -/
theorem scenarioA_counterexample :
    (setInfoFromRawComments
        (rawCommentsFromSourceLocation (SourceManager.ofBuffer scenarioA) scenarioAComments
          ⟨0, 0, false, true⟩) {}).lupdateExtraComment
      ≠ "Explains foo".toList := by
  decide

/-- C4, amended. For the source text of scenario A, with `foo()` at line 1 and
`//: Explains foo` behind it as the only comment, the finder returns no
comment for the site (no comment starts before it), and parsing into a fresh
record leaves the extra comment empty; with the same comment on the line
before the call, finding and parsing yields `Explains foo`. -/
theorem scenarioA_trailing_comment_not_found :
    rawCommentsFromSourceLocation (SourceManager.ofBuffer scenarioA) scenarioAComments
        ⟨0, 0, false, true⟩ = []
      ∧ (setInfoFromRawComments
          (rawCommentsFromSourceLocation (SourceManager.ofBuffer scenarioA) scenarioAComments
            ⟨0, 0, false, true⟩) {}).lupdateExtraComment = []
      ∧ (setInfoFromRawComments
          (rawCommentsFromSourceLocation (SourceManager.ofBuffer scenarioABefore)
            scenarioABeforeComments ⟨0, 17, false, true⟩) {}).lupdateExtraComment
        = "Explains foo".toList := by
  decide

/-- C6. Scenario C: the finder returns no comment for the site `baz()`, and
for the site `qux()` finding and parsing into a fresh record yields the extra
comment `real comment`. -/
theorem scenarioC_attribution :
    rawCommentsFromSourceLocation (SourceManager.ofBuffer scenarioC) scenarioCComments
        ⟨0, 0, false, true⟩ = []
      ∧ (setInfoFromRawComments
          (rawCommentsFromSourceLocation (SourceManager.ofBuffer scenarioC) scenarioCComments
            ⟨0, 37, false, true⟩) {}).lupdateExtraComment
        = "real comment".toList := by
  decide

end LupdateVisitor

namespace QmlSignatureParser

/-- C8, what the code does on scenario E: `matchFunctionDecl` returns false.
The depth `parenDepth0` is read after the opening parenthesis of the default
value, so the comma inside `(1,2)` ends the parameter `a` with the default
value `(1`, and the next parameter cannot start at the token `2`. When the
default value is the call `f(1,2)`, the parse succeeds with the two
parameters. -/
theorem scenarioE_rejected :
    (create {} scenarioE 0).1 = false
      ∧ (create {} scenarioE 0).2.func_.parameters = [⟨"int".toList, "a".toList, "(1".toList⟩]
      ∧ (create {} scenarioE 0).2.tok_ = Tok.Tok_Number
      ∧ (create {} scenarioE 0).2.tokenizer_.lexeme = "2".toList
      ∧ (create {} scenarioECall 0).1 = true
      ∧ (create {} scenarioECall 0).2.funcName_ = "foo".toList
      ∧ (create {} scenarioECall 0).2.func_.parameters
        = [⟨"int".toList, "a".toList, "f(1,2)".toList⟩, ⟨"QString".toList, "b".toList, []⟩] := by
  decide

end QmlSignatureParser

/-! ## Trimming and the patterns of the parser -/

namespace Qt

theorem dropWhile_head (p : Char → Bool) :
    ∀ (l : List Char) (x : Char) (xs : List Char), l.dropWhile p = x :: xs → p x = false := by
  intro l
  induction l with
  | nil => intro x xs h; simp at h
  | cons c cs ih =>
    intro x xs h
    by_cases hc : p c = true
    · rw [List.dropWhile_cons_of_pos hc] at h
      exact ih x xs h
    · rw [List.dropWhile_cons_of_neg hc] at h
      injection h with h1 _
      subst h1
      simpa using hc

theorem trimRight_append_blank (p : Char → Bool) (s b : List Char)
    (hb : ∀ c ∈ b, p c = true) : trimRight p (s ++ b) = trimRight p s := by
  unfold trimRight
  rw [List.reverse_append, List.dropWhile_append_of_pos (fun c hc => hb c (List.mem_reverse.mp hc))]

theorem trimRight_append_concat (p : Char → Bool) (s ys : List Char) (y : Char)
    (hy : p y = false) : trimRight p (s ++ (ys ++ [y])) = s ++ (ys ++ [y]) := by
  rw [← List.append_assoc]
  exact trimRight_concat_of_neg p (s ++ ys) y hy

/-- What `trimmed` makes of a core between two runs of whitespace. -/
theorem trimmed_of_core_between (a m b : List Char) (ha : ∀ c ∈ a, isSpace c = true)
    (hb : ∀ c ∈ b, isSpace c = true) (hm : IsCore m) : trimmed (a ++ m ++ b) = m := by
  obtain ⟨⟨x, xs, hx, hxs⟩, ⟨ys, y, hy, hys⟩⟩ := hm
  unfold trimmed
  rw [List.append_assoc, List.dropWhile_append_of_pos ha]
  have h1 : (m ++ b).dropWhile isSpace = m ++ b := by
    rw [hx, List.cons_append, List.dropWhile_cons_of_neg (by simp [hxs])]
  rw [h1, trimRight_append_blank _ _ _ hb, hy]
  exact trimRight_concat_of_neg isSpace ys y hys

theorem trimmed_of_core (m : List Char) (hm : IsCore m) : trimmed m = m := by
  simpa using trimmed_of_core_between [] m [] (by simp) (by simp) hm

theorem trimmed_of_blank (s : List Char) (h : ∀ c ∈ s, isSpace c = true) : trimmed s = [] := by
  unfold trimmed
  rw [List.dropWhile_eq_nil_iff.mpr h]
  rfl

/-- A text with a character that is no whitespace is its trimmed text, a core,
between two runs of whitespace. -/
theorem exists_core (s : List Char) (h : ∃ c ∈ s, isSpace c = false) :
    ∃ a b, s = a ++ trimmed s ++ b ∧ (∀ c ∈ a, isSpace c = true)
      ∧ (∀ c ∈ b, isSpace c = true) ∧ IsCore (trimmed s) := by
  have hs : s = s.takeWhile isSpace ++ s.dropWhile isSpace :=
    (List.takeWhile_append_dropWhile isSpace s).symm
  have ha : ∀ c ∈ s.takeWhile isSpace, isSpace c = true := fun c hc => List.mem_takeWhile_imp hc
  have hd : s.dropWhile isSpace ≠ [] := by
    intro hnil
    obtain ⟨c, hc, hcs⟩ := h
    have := List.dropWhile_eq_nil_iff.mp hnil c hc
    simp [hcs] at this
  obtain ⟨x, xs, hx⟩ := List.exists_cons_of_ne_nil hd
  have hxs : isSpace x = false := dropWhile_head isSpace s x xs hx
  have hr : (s.dropWhile isSpace).reverse.dropWhile isSpace ≠ [] := by
    intro hnil
    have := List.dropWhile_eq_nil_iff.mp hnil x (by rw [hx]; simp)
    simp [hxs] at this
  obtain ⟨y, ys, hy⟩ := List.exists_cons_of_ne_nil hr
  have hys : isSpace y = false := dropWhile_head isSpace _ y ys hy
  have hsplit : s.dropWhile isSpace =
      trimmed s ++ ((s.dropWhile isSpace).reverse.takeWhile isSpace).reverse := by
    have h2 := List.takeWhile_append_dropWhile isSpace (s.dropWhile isSpace).reverse
    have h3 := congrArg List.reverse h2
    rw [List.reverse_append, List.reverse_reverse] at h3
    exact h3.symm
  have hb : ∀ c ∈ ((s.dropWhile isSpace).reverse.takeWhile isSpace).reverse,
      isSpace c = true := fun c hc => List.mem_takeWhile_imp (List.mem_reverse.mp hc)
  have hm : trimmed s = ys.reverse ++ [y] := by
    unfold trimmed trimRight
    rw [hy, List.reverse_cons]
  refine ⟨s.takeWhile isSpace, _, ?_, ha, hb, ?_, ⟨ys.reverse, y, hm, hys⟩⟩
  · rw [List.append_assoc, ← hsplit]
    exact hs
  · cases hys2 : ys.reverse with
    | nil =>
      rw [hys2] at hm
      rw [hm, hx] at hsplit
      simp only [List.nil_append, List.singleton_append] at hsplit
      injection hsplit with h1 _
      exact ⟨y, [], by rw [hm]; rfl, hys⟩
    | cons z zs =>
      rw [hys2] at hm
      rw [hm, hx] at hsplit
      simp only [List.cons_append] at hsplit
      injection hsplit with h1 _
      exact ⟨z, zs ++ [y], by rw [hm]; rfl, by rw [← h1]; exact hxs⟩

end Qt

namespace Regex

theorem isSpace_imp (c : Char) (h : isSpace c = true) : Qt.isSpace c = true := by
  unfold isSpace at h
  unfold Qt.isSpace
  simp only [Bool.or_eq_true, Bool.and_eq_true] at h ⊢
  tauto

theorem not_isSpace_of_not (c : Char) (h : Qt.isSpace c = false) : isSpace c = false := by
  cases hc : isSpace c with
  | false => rfl
  | true => rw [isSpace_imp c hc] at h; exact absurd h (by decide)

theorem spacePlus_eq {α : Type} (f : List Char → Option α) :
    ∀ (cs : List Char) (c : Char), isSpace c = true →
      (f ((c :: cs).dropWhile isSpace)).isSome = true →
      spacePlus f (c :: cs) = f ((c :: cs).dropWhile isSpace) := by
  intro cs
  induction cs with
  | nil =>
    intro c hc _
    simp [spacePlus, hc]
  | cons d ds ih =>
    intro c hc hsome
    rw [List.dropWhile_cons_of_pos hc] at hsome ⊢
    by_cases hd : isSpace d = true
    · have h1 := ih d hd hsome
      rw [spacePlus, if_pos hc, h1]
      cases hf : f ((d :: ds).dropWhile isSpace) with
      | none => rw [hf] at hsome; simp at hsome
      | some r => rfl
    · have hd2 : isSpace d = false := by simpa using hd
      rw [List.dropWhile_cons_of_neg hd]
      rw [spacePlus, if_pos hc]
      simp [spacePlus, hd2]

theorem beforeEnd_of_not_mem (s : List Char) (h : '\n' ∉ s) : beforeEnd s = s := by
  unfold beforeEnd
  have : s.getLast? ≠ some '\n' := by
    intro hl
    exact h (List.mem_of_getLast?_eq_some hl)
  simp [this]

theorem dotPlusEnd_of_not_mem (s : List Char) (hs : s ≠ []) (h : '\n' ∉ s) :
    dotPlusEnd s = some s := by
  unfold dotPlusEnd
  rw [beforeEnd_of_not_mem s h]
  simp [hs, h]

theorem dotStarEnd_of_not_mem (s : List Char) (h : '\n' ∉ s) : dotStarEnd s = some s := by
  unfold dotStarEnd
  rw [beforeEnd_of_not_mem s h]
  simp [h]

end Regex

namespace Qt

theorem splitAux_of_not_mem (sep : Char) :
    ∀ (s cur : List Char), sep ∉ s → splitAux sep s cur = [cur.reverse ++ s] := by
  intro s
  induction s with
  | nil => intro cur _; simp [splitAux]
  | cons c cs ih =>
    intro cur h
    simp only [List.mem_cons, not_or] at h
    have hc : ¬ c = sep := fun e => h.1 e.symm
    rw [splitAux, if_neg hc, ih (c :: cur) h.2]
    simp

theorem splitAux_append (sep : Char) :
    ∀ (s t cur : List Char), sep ∉ s →
      splitAux sep (s ++ sep :: t) cur = (cur.reverse ++ s) :: splitAux sep t [] := by
  intro s
  induction s with
  | nil => intro t cur _; simp [splitAux]
  | cons c cs ih =>
    intro t cur h
    simp only [List.mem_cons, not_or] at h
    have hc : ¬ c = sep := fun e => h.1 e.symm
    rw [List.cons_append, splitAux, if_neg hc, ih t (c :: cur) h.2]
    simp

theorem hashValue_hashInsert (k v : List Char) :
    ∀ m : List (List Char × List Char), hashValue k (hashInsert k v m) = some v := by
  intro m
  induction m with
  | nil => simp [hashInsert, hashValue]
  | cons e rest ih =>
    obtain ⟨k0, v0⟩ := e
    by_cases h : k0 = k
    · simp [hashInsert, hashValue, h]
    · simp [hashInsert, hashValue, h, ih]

theorem hashCount_hashInsert (k v : List Char) :
    ∀ m : List (List Char × List Char),
      hashCount k (hashInsert k v m) = if hashCount k m = 0 then 1 else hashCount k m := by
  intro m
  induction m with
  | nil => simp [hashInsert, hashCount]
  | cons e rest ih =>
    obtain ⟨k0, v0⟩ := e
    by_cases h : k0 = k
    · subst h
      simp [hashInsert, hashCount]
    · have h1 : hashCount k ((k0, v0) :: hashInsert k v rest) = hashCount k (hashInsert k v rest) := by
        simp [hashCount, h]
      have h2 : hashCount k ((k0, v0) :: rest) = hashCount k rest := by
        simp [hashCount, h]
      rw [hashInsert, if_neg h, h1, h2, ih]

theorem hashCount_hashInsert_of_le (k v : List Char) (m : List (List Char × List Char))
    (hm : hashCount k m ≤ 1) : hashCount k (hashInsert k v m) = 1 := by
  rw [hashCount_hashInsert]
  split_ifs with h
  · rfl
  · omega

end Qt

namespace LupdateVisitor

theorem isSpace_newline : Qt.isSpace '\n' = true := by decide

theorem not_mem_newline_of_no_space (k : List Char) (hk : ∀ c ∈ k, Qt.isSpace c = false) :
    '\n' ∉ k := by
  intro h
  have := hk _ h
  rw [isSpace_newline] at this
  exact absurd this (by decide)

/-- The trimmed tagged line `//~ k v`: the whitespace behind the value is
gone. -/
theorem trimmed_magicLine (k a m b : List Char) (hm : Qt.IsCore m)
    (hb : ∀ c ∈ b, Qt.isSpace c = true) :
    Qt.trimmed (magicLine k (a ++ m ++ b)) = magicLine k (a ++ m) := by
  obtain ⟨_, ⟨ys, y, hy, hys⟩⟩ := hm
  have h1 : Qt.isSpace '/' = false := by decide
  unfold magicLine Qt.trimmed
  rw [List.dropWhile_cons_of_neg (by simp [h1])]
  have e1 : '/' :: '/' :: '~' :: ' ' :: (k ++ ' ' :: (a ++ m ++ b))
      = ('/' :: '/' :: '~' :: ' ' :: (k ++ ' ' :: (a ++ m))) ++ b := by simp
  rw [e1, Qt.trimRight_append_blank _ _ _ hb, hy]
  have e2 : '/' :: '/' :: '~' :: ' ' :: (k ++ ' ' :: (a ++ (ys ++ [y])))
      = ('/' :: '/' :: '~' :: ' ' :: (k ++ ' ' :: (a ++ ys))) ++ [y] := by simp
  rw [e2]
  exact Qt.trimRight_concat_of_neg Qt.isSpace _ y hys

theorem isCore_key_value (k a m : List Char) (hk : k ≠ [])
    (hks : ∀ c ∈ k, Qt.isSpace c = false) (hm : Qt.IsCore m) :
    Qt.IsCore (k ++ ' ' :: (a ++ m)) := by
  obtain ⟨_, ⟨ys, y, hy, hys⟩⟩ := hm
  obtain ⟨k0, ks, rfl⟩ := List.exists_cons_of_ne_nil hk
  refine ⟨⟨k0, ks ++ ' ' :: (a ++ m), by simp, hks k0 (List.mem_cons_self _ _)⟩,
    ⟨k0 :: ks ++ ' ' :: (a ++ ys), y, by rw [hy]; simp, hys⟩⟩

theorem takeWhile_append_stop (p : Char → Bool) (k r : List Char) (x : Char)
    (hk : ∀ c ∈ k, p c = true) (hx : p x = false) : (k ++ x :: r).takeWhile p = k := by
  induction k with
  | nil => simp [List.takeWhile, hx]
  | cons c cs ih =>
    have hc : p c = true := hk c (List.mem_cons_self _ _)
    rw [List.cons_append, List.takeWhile_cons_of_pos hc,
      ih (fun d hd => hk d (List.mem_cons_of_mem _ hd))]

/-- One tagged line `//~ k v` read by the loop body: the value, trimmed, is
inserted for the key, and the variables of the loop are as at the start. -/
theorem processLine_magicLine (store : TranslationRelatedStore) (k v : List Char)
    (hk : k ≠ []) (hks : ∀ c ∈ k, Qt.isSpace c = false) (hvn : '\n' ∉ v)
    (hv : ∃ c ∈ v, Qt.isSpace c = false) :
    processLine {} store (magicLine k v) =
      ({}, { store with
              lupdateAllMagicMetaData :=
                Qt.hashInsert k (Qt.trimmed v) store.lupdateAllMagicMetaData }) := by
  obtain ⟨a, b, hsplit, ha, hb, hcore⟩ := Qt.exists_core v hv
  have hkn : '\n' ∉ k := not_mem_newline_of_no_space k hks
  have hmn : '\n' ∉ Qt.trimmed v := fun h => hvn ((Qt.trimmed_sublist v).subset h)
  have han : '\n' ∉ a := fun h => hvn (by rw [hsplit]; simp [h])
  have htl : Qt.trimmed (magicLine k v) = magicLine k (a ++ Qt.trimmed v) := by
    conv_lhs => rw [hsplit]
    exact trimmed_magicLine k a (Qt.trimmed v) b hcore hb
  have hne : k ++ ' ' :: (a ++ Qt.trimmed v) ≠ [] := by
    obtain ⟨k0, ks, rfl⟩ := List.exists_cons_of_ne_nil hk
    simp
  have hnl : '\n' ∉ k ++ ' ' :: (a ++ Qt.trimmed v) := by
    simp only [List.mem_append, List.mem_cons, not_or]
    exact ⟨hkn, by decide, han, hmn⟩
  have hdrop : (' ' :: (k ++ ' ' :: (a ++ Qt.trimmed v))).dropWhile Regex.isSpace
      = k ++ ' ' :: (a ++ Qt.trimmed v) := by
    obtain ⟨k0, ks, rfl⟩ := List.exists_cons_of_ne_nil hk
    have hk0 : Regex.isSpace k0 = false :=
      Regex.not_isSpace_of_not k0 (hks k0 (List.mem_cons_self _ _))
    rw [List.dropWhile_cons_of_pos (by decide), List.cons_append,
      List.dropWhile_cons_of_neg (by simp [hk0])]
  have hcpp : LupdatePrivate.cppStyle (magicLine k (a ++ Qt.trimmed v))
      = some (['~'], k ++ ' ' :: (a ++ Qt.trimmed v)) := by
    unfold magicLine LupdatePrivate.cppStyle
    have hid : LupdatePrivate.isIdentifier '~' = true := by decide
    simp only [hid, if_true]
    rw [Regex.spacePlus_eq _ _ ' ' (by decide)
      (by rw [hdrop, Regex.dotPlusEnd_of_not_mem _ hne hnl]; rfl), hdrop,
      Regex.dotPlusEnd_of_not_mem _ hne hnl]
    rfl
  have hcore2 := isCore_key_value k a (Qt.trimmed v) hk hks hcore
  have hcap : LupdatePrivate.capture LupdatePrivate.cppStyle (magicLine k (a ++ Qt.trimmed v))
      = (true, ['~'], k ++ ' ' :: (a ++ Qt.trimmed v)) := by
    unfold LupdatePrivate.capture
    rw [hcpp]
    have h1 : ¬ (['~'] : List Char) = ['%'] := by decide
    simp only [h1, if_false, Qt.trimmed_of_core _ hcore2]
    cases hl : k ++ ' ' :: (a ++ Qt.trimmed v) with
    | nil => exact absurd hl hne
    | cons x xs => rfl
  have hfirst : magicFirst (k ++ ' ' :: (a ++ Qt.trimmed v)) = k := by
    unfold magicFirst
    apply takeWhile_append_stop
    · intro c hc
      simp [Regex.not_isSpace_of_not c (hks c hc)]
    · decide
  have hsecond : magicSecond (k ++ ' ' :: (a ++ Qt.trimmed v)) = Qt.trimmed v := by
    unfold magicSecond
    rw [hfirst, List.drop_left']
    · have := Qt.trimmed_of_core_between (' ' :: a) (Qt.trimmed v) []
        (by
          intro c hc
          rcases List.mem_cons.mp hc with rfl | hc
          · decide
          · exact ha c hc)
        (by simp) hcore
      simpa using this
    · rfl
  have hnonempty : (Qt.trimmed v).isEmpty = false := by
    obtain ⟨⟨x, xs, hx, _⟩, _⟩ := hcore
    rw [hx]
    rfl
  have hstart : Qt.startsWith (magicLine k (a ++ Qt.trimmed v)) ['/', '/'] = true := by
    simp [Qt.startsWith, magicLine]
  unfold processLine
  simp only [htl, hstart, hcap]
  simp [saveComment, hsecond, hfirst, hnonempty]

end LupdateVisitor

namespace LupdateVisitor

theorem setInfoFromRawComment_one_line (store : TranslationRelatedStore) (line : List Char)
    (hne : line ≠ []) (hn : '\n' ∉ line) :
    setInfoFromRawComment line store = (processLine {} store line).2 := by
  unfold setInfoFromRawComment Qt.splitSkipEmpty
  rw [Qt.splitAux_of_not_mem _ _ _ hn]
  cases line with
  | nil => exact absurd rfl hne
  | cons c cs => simp [processLines]

theorem setInfoFromRawComment_two_lines (store : TranslationRelatedStore)
    (line1 line2 : List Char) (hne1 : line1 ≠ []) (hn1 : '\n' ∉ line1)
    (hne2 : line2 ≠ []) (hn2 : '\n' ∉ line2) :
    setInfoFromRawComment (joinLines [line1, line2]) store =
      (processLines {} store [line1, line2]).2 := by
  unfold setInfoFromRawComment Qt.splitSkipEmpty joinLines joinLines
  rw [Qt.splitAux_append _ _ _ _ hn1, Qt.splitAux_of_not_mem _ _ _ hn2]
  cases line1 with
  | nil => exact absurd rfl hne1
  | cons c cs =>
    cases line2 with
    | nil => exact absurd rfl hne2
    | cons d ds => simp

theorem magicLine_no_newline (k v : List Char) (hks : ∀ c ∈ k, Qt.isSpace c = false)
    (hvn : '\n' ∉ v) : '\n' ∉ magicLine k v := by
  have hkn := not_mem_newline_of_no_space k hks
  unfold magicLine
  simp only [List.mem_cons, List.mem_append, not_or]
  exact ⟨by decide, by decide, by decide, by decide, hkn, by decide, hvn⟩

/-- C7, the claim as stated fails: the value ` ` (one blank) is not empty, and
parsing `//~ k a` and then `//~ k` followed by a blank and that value leaves
the value `a` for the key `k`, not the trimmed second value. -/
theorem magicMetadata_blank_value_counterexample :
    Qt.hashValue ['k']
        (setInfoFromRawComment (magicLine ['k'] [' '])
          (setInfoFromRawComment (magicLine ['k'] ['a']) {})).lupdateAllMagicMetaData
      ≠ some (Qt.trimmed [' ']) := by
  decide

/-- C7, amended. For every non-empty key `k` without whitespace and every two
single-line values `v1` and `v2` that each have a character other than
whitespace, parsing the line `//~ k v1` and then the line `//~ k v2`, as two
comments or as the two lines of one comment, leaves the trimmed `v2` as the
value of `k`, with a single entry for `k`. -/
theorem magicMetadata_last_wins (store : TranslationRelatedStore) (k v1 v2 : List Char)
    (hk : k ≠ []) (hks : ∀ c ∈ k, Qt.isSpace c = false)
    (hn1 : '\n' ∉ v1) (hn2 : '\n' ∉ v2)
    (hv1 : ∃ c ∈ v1, Qt.isSpace c = false) (hv2 : ∃ c ∈ v2, Qt.isSpace c = false)
    (hstore : Qt.hashCount k store.lupdateAllMagicMetaData ≤ 1) :
    (Qt.hashValue k
          (setInfoFromRawComment (magicLine k v2)
            (setInfoFromRawComment (magicLine k v1) store)).lupdateAllMagicMetaData
        = some (Qt.trimmed v2)
      ∧ Qt.hashCount k
          (setInfoFromRawComment (magicLine k v2)
            (setInfoFromRawComment (magicLine k v1) store)).lupdateAllMagicMetaData = 1)
    ∧ (Qt.hashValue k
          (setInfoFromRawComment (joinLines [magicLine k v1, magicLine k v2])
            store).lupdateAllMagicMetaData
        = some (Qt.trimmed v2)
      ∧ Qt.hashCount k
          (setInfoFromRawComment (joinLines [magicLine k v1, magicLine k v2])
            store).lupdateAllMagicMetaData = 1) := by
  have hne : ∀ v, magicLine k v ≠ [] := fun v => by simp [magicLine]
  have hl1 := magicLine_no_newline k v1 hks hn1
  have hl2 := magicLine_no_newline k v2 hks hn2
  have hc1 := Qt.hashCount_hashInsert_of_le k (Qt.trimmed v1) _ hstore
  have hc2 := Qt.hashCount_hashInsert_of_le k (Qt.trimmed v2)
    (Qt.hashInsert k (Qt.trimmed v1) store.lupdateAllMagicMetaData) (le_of_eq hc1)
  refine ⟨?_, ?_⟩
  · rw [setInfoFromRawComment_one_line _ _ (hne v2) hl2,
      setInfoFromRawComment_one_line _ _ (hne v1) hl1,
      processLine_magicLine store k v1 hk hks hn1 hv1,
      processLine_magicLine _ k v2 hk hks hn2 hv2]
    exact ⟨Qt.hashValue_hashInsert _ _ _, hc2⟩
  · rw [setInfoFromRawComment_two_lines _ _ _ (hne v1) hl1 (hne v2) hl2]
    simp only [processLines, processLine_magicLine store k v1 hk hks hn1 hv1,
      processLine_magicLine _ k v2 hk hks hn2 hv2]
    exact ⟨Qt.hashValue_hashInsert _ _ _, hc2⟩

/-- C7, amended, on scenario D: after `//~ key1 value one` and
`//~ key1 value two` the value of `key1` is `value two`. -/
theorem magicMetadata_last_wins_witness :
    (Qt.hashValue "key1".toList
          (setInfoFromRawComment (magicLine "key1".toList "value two".toList)
            (setInfoFromRawComment (magicLine "key1".toList "value one".toList)
              {})).lupdateAllMagicMetaData
        = some "value two".toList
      ∧ Qt.hashCount "key1".toList
          (setInfoFromRawComment (magicLine "key1".toList "value two".toList)
            (setInfoFromRawComment (magicLine "key1".toList "value one".toList)
              {})).lupdateAllMagicMetaData = 1)
    ∧ (Qt.hashValue "key1".toList
          (setInfoFromRawComment "//~ key1 value one\n//~ key1 value two".toList
            {}).lupdateAllMagicMetaData
        = some "value two".toList
      ∧ Qt.hashCount "key1".toList
          (setInfoFromRawComment "//~ key1 value one\n//~ key1 value two".toList
            {}).lupdateAllMagicMetaData = 1) :=
  magicMetadata_last_wins {} "key1".toList "value one".toList "value two".toList
    (by decide) (by decide) (by decide) (by decide) (by decide) (by decide) (by decide)

end LupdateVisitor

namespace Qt

theorem length_le_size (s : List Char) : s.length ≤ size s := by
  induction s with
  | nil => simp [size]
  | cons c cs ih =>
    unfold size at ih ⊢
    simp only [List.map_cons, List.sum_cons, List.length_cons]
    split_ifs <;> omega

theorem splitSkipEmpty_joinLines :
    ∀ lines : List (List Char), (∀ line ∈ lines, '\n' ∉ line) →
      splitSkipEmpty '\n' (joinLines lines) = lines.filter (fun line => !line.isEmpty) := by
  intro lines
  induction lines with
  | nil => intro _; rfl
  | cons line rest ih =>
    intro h
    have hl : '\n' ∉ line := h line (List.mem_cons_self _ _)
    cases rest with
    | nil =>
      unfold splitSkipEmpty
      rw [joinLines, splitAux_of_not_mem _ _ _ hl]
      simp
    | cons next rest2 =>
      have ih2 := ih (fun l hl2 => h l (List.mem_cons_of_mem _ hl2))
      unfold splitSkipEmpty at ih2 ⊢
      rw [joinLines, splitAux_append _ _ _ _ hl, List.filter_cons, ih2]
      cases line with
      | nil => simp
      | cons x xs => simp

theorem removeCloser_append_closer :
    ∀ l : List Char, ¬ hasCloser l → removeCloser (l ++ ['*', '/']) = l := by
  intro l
  induction l with
  | nil => intro _; simp [removeCloser]
  | cons c cs ih =>
    intro h
    have hcs : ¬ hasCloser cs := fun hh => h (hh.trans (List.suffix_cons c cs).isInfix)
    cases cs with
    | nil =>
      by_cases hc : c = '*'
      · subst hc; simp [removeCloser]
      · simp [removeCloser, hc]
    | cons d ds =>
      have hcd : ¬ (c = '*' ∧ d = '/') := by
        rintro ⟨rfl, rfl⟩
        exact h ⟨[], ds, by simp⟩
      rw [List.cons_append, List.cons_append, removeCloser, if_neg hcd]
      rw [← List.cons_append, ih hcs]

theorem not_endsWith_closer (s : List Char) (h : ¬ hasCloser s) :
    endsWith s ['*', '/'] = false := by
  rw [Bool.eq_false_iff]
  intro hh
  exact h (List.isSuffixOf_iff_suffix.mp hh).isInfix

theorem trimmed_infix (s : List Char) : trimmed s <:+: s := by
  unfold trimmed trimRight
  have h1 : ((s.dropWhile isSpace).reverse.dropWhile isSpace).reverse <+: s.dropWhile isSpace := by
    have := List.dropWhile_suffix isSpace (l := (s.dropWhile isSpace).reverse)
    have h2 := List.reverse_prefix.mpr this
    simpa using h2
  exact h1.isInfix.trans (List.dropWhile_suffix isSpace).isInfix

end Qt

namespace LupdateVisitor

/-- The accumulated comment text after the lines `lines` of a multi line
comment were added to `comment`. -/
theorem joinWithSpace_cons_append (c t : List Char) (rest : List (List Char)) :
    joinWithSpace ((c ++ ' ' :: t) :: rest) = c ++ ' ' :: joinWithSpace (t :: rest) := by
  cases rest with
  | nil => simp [joinWithSpace]
  | cons f fs => simp [joinWithSpace]

theorem foldl_spaced_eq_joinWithSpace :
    ∀ (lines : List (List Char)) (c : List Char),
      lines.foldl
          (fun acc line =>
            acc ++ (if (Qt.trimmed line).isEmpty then [] else ' ' :: Qt.trimmed line)) c
        = joinWithSpace (c :: (lines.map Qt.trimmed).filter (fun text => !text.isEmpty)) := by
  intro lines
  induction lines with
  | nil => intro c; simp [joinWithSpace]
  | cons m ms ih =>
    intro c
    rw [List.foldl_cons, ih]
    by_cases hm : (Qt.trimmed m).isEmpty = true
    · simp [hm]
    · have hm2 : (Qt.trimmed m).isEmpty = false := by simpa using hm
      simp only [hm2, List.map_cons, List.filter_cons, Bool.not_false, if_true, Bool.false_eq_true,
        if_false]
      exact joinWithSpace_cons_append c (Qt.trimmed m) _

end LupdateVisitor

namespace LupdateVisitor

theorem dropWhile_regexSpace_blank_core (m : List Char) (hm : Qt.IsCore m) :
    ∀ a : List Char, (∀ c ∈ a, Qt.isSpace c = true) →
      ∃ a2, (a ++ m).dropWhile Regex.isSpace = a2 ++ m ∧ (∀ c ∈ a2, Qt.isSpace c = true)
        ∧ a2.Sublist a := by
  intro a
  induction a with
  | nil =>
    intro _
    obtain ⟨⟨x, xs, hx, hxs⟩, _⟩ := hm
    refine ⟨[], ?_, by simp, List.Sublist.refl _⟩
    rw [List.nil_append, hx, List.dropWhile_cons_of_neg (by simp [Regex.not_isSpace_of_not x hxs])]
  | cons c cs ih =>
    intro ha
    by_cases hc : Regex.isSpace c = true
    · obtain ⟨a2, h1, h2, h3⟩ := ih (fun d hd => ha d (List.mem_cons_of_mem _ hd))
      exact ⟨a2, by rw [List.cons_append, List.dropWhile_cons_of_pos hc, h1], h2,
        h3.trans (List.sublist_cons_self c cs)⟩
    · exact ⟨c :: cs, by rw [List.cons_append, List.dropWhile_cons_of_neg hc], ha,
        List.Sublist.refl _⟩

/-- The first line of a block comment tagged `:`, read by the loop body:
the multi line mode starts with the trimmed text of the line as the comment. -/
theorem processLine_opener (store : TranslationRelatedStore) (ws first : List Char)
    (hws : ws ≠ []) (hwsp : ∀ c ∈ ws, Regex.isSpace c = true)
    (hfn : '\n' ∉ first) (hf : ∃ c ∈ first, Qt.isSpace c = false)
    (hclose : ¬ hasCloser (ws ++ first)) :
    processLine {} store ('/' :: '*' :: ':' :: (ws ++ first)) =
      ({ save := false, sawStarPrefix := true, sourceIdentifier := false,
         comment := Qt.trimmed first, identifier := [':'] }, store) := by
  obtain ⟨a, b, hsplit, ha, hb, hcore⟩ := Qt.exists_core first hf
  obtain ⟨w0, ws1, hw⟩ := List.exists_cons_of_ne_nil hws
  have hmn : '\n' ∉ Qt.trimmed first := fun h => hfn ((Qt.trimmed_sublist first).subset h)
  have han : '\n' ∉ a := fun h => hfn (by rw [hsplit]; simp [h])
  -- the trimmed line
  have htl : Qt.trimmed ('/' :: '*' :: ':' :: (ws ++ first))
      = '/' :: '*' :: ':' :: (ws ++ (a ++ Qt.trimmed first)) := by
    obtain ⟨_, ⟨ys, y, hy, hys⟩⟩ := hcore
    have h1 : Qt.isSpace '/' = false := by decide
    conv_lhs => rw [hsplit]
    unfold Qt.trimmed
    rw [List.dropWhile_cons_of_neg (by simp [h1])]
    have e1 : '/' :: '*' :: ':' :: (ws ++ (a ++ Qt.trimRight Qt.isSpace (first.dropWhile Qt.isSpace) ++ b))
        = ('/' :: '*' :: ':' :: (ws ++ (a ++ Qt.trimRight Qt.isSpace (first.dropWhile Qt.isSpace)))) ++ b := by
      simp
    rw [e1, Qt.trimRight_append_blank _ _ _ hb]
    have hy2 : Qt.trimRight Qt.isSpace (first.dropWhile Qt.isSpace) = ys ++ [y] := hy
    rw [hy2]
    have e2 : '/' :: '*' :: ':' :: (ws ++ (a ++ (ys ++ [y])))
        = ('/' :: '*' :: ':' :: (ws ++ (a ++ ys))) ++ [y] := by simp
    rw [e2]
    exact Qt.trimRight_concat_of_neg Qt.isSpace _ y hys
  -- no closer at the end of the trimmed line
  have hpre : (ws ++ (a ++ Qt.trimmed first)) <+: (ws ++ first) := by
    refine ⟨b, ?_⟩
    conv_rhs => rw [hsplit]
    simp
  have hnc : ¬ hasCloser ('/' :: '*' :: ':' :: (ws ++ (a ++ Qt.trimmed first))) := by
    intro h
    unfold hasCloser at h
    rcases List.infix_cons_iff.mp h with h | h
    · simp [List.cons_prefix_cons] at h
    · rcases List.infix_cons_iff.mp h with h | h
      · simp [List.cons_prefix_cons] at h
      · rcases List.infix_cons_iff.mp h with h | h
        · simp [List.cons_prefix_cons] at h
        · exact hclose (h.trans hpre.isInfix)
  have hend := Qt.not_endsWith_closer _ hnc
  have hs1 : Qt.startsWith ('/' :: '*' :: ':' :: (ws ++ (a ++ Qt.trimmed first))) ['/', '/']
      = false := rfl
  have hs2 : Qt.startsWith ('/' :: '*' :: ':' :: (ws ++ (a ++ Qt.trimmed first))) ['/', '*']
      = true := rfl
  have hid : LupdatePrivate.idefix ('/' :: '*' :: ':' :: (ws ++ (a ++ Qt.trimmed first)))
      = some [':'] := by
    simp [LupdatePrivate.idefix, LupdatePrivate.isIdentifier]
  have hsize : Qt.size ('/' :: '*' :: ':' :: (ws ++ (a ++ Qt.trimmed first))) > 4 := by
    have h1 := Qt.length_le_size ('/' :: '*' :: ':' :: (ws ++ (a ++ Qt.trimmed first)))
    obtain ⟨⟨x, xs, hx, _⟩, _⟩ := hcore
    rw [hx, hw] at h1 ⊢
    simp only [List.length_cons, List.length_append] at h1
    omega
  -- the capture
  obtain ⟨a2, hdrop, ha2, ha2s⟩ := dropWhile_regexSpace_blank_core (Qt.trimmed first) hcore a ha
  have hdrop2 : (ws ++ (a ++ Qt.trimmed first)).dropWhile Regex.isSpace
      = a2 ++ Qt.trimmed first := by
    rw [List.dropWhile_append_of_pos hwsp, hdrop]
  have hxn : '\n' ∉ a2 ++ Qt.trimmed first := by
    simp only [List.mem_append, not_or]
    exact ⟨fun h => han (ha2s.subset h), hmn⟩
  have hcap : LupdatePrivate.capture LupdatePrivate.cStyleMultiBegin
      ('/' :: '*' :: ':' :: (ws ++ (a ++ Qt.trimmed first)))
      = (true, [':'], Qt.trimmed first) := by
    have hmb : LupdatePrivate.cStyleMultiBegin
        ('/' :: '*' :: ':' :: (ws ++ (a ++ Qt.trimmed first)))
        = some ([':'], a2 ++ Qt.trimmed first) := by
      unfold LupdatePrivate.cStyleMultiBegin
      have hid2 : LupdatePrivate.isIdentifier ':' = true := by decide
      simp only [hid2, if_true]
      have hsp : Regex.spacePlus Regex.dotStarEnd (ws ++ (a ++ Qt.trimmed first))
          = some (a2 ++ Qt.trimmed first) := by
        have hw0 : Regex.isSpace w0 = true := hwsp w0 (by rw [hw]; simp)
        have e : ws ++ (a ++ Qt.trimmed first) = w0 :: (ws1 ++ (a ++ Qt.trimmed first)) := by
          rw [hw]; rfl
        rw [e] at hdrop2 ⊢
        rw [Regex.spacePlus_eq _ _ w0 hw0
          (by rw [hdrop2, Regex.dotStarEnd_of_not_mem _ hxn]; rfl), hdrop2,
          Regex.dotStarEnd_of_not_mem _ hxn]
      rw [hsp]
      rfl
    unfold LupdatePrivate.capture
    rw [hmb]
    have h1 : ¬ ([':'] : List Char) = ['%'] := by decide
    have htr : Qt.trimmed (a2 ++ Qt.trimmed first) = Qt.trimmed first := by
      simpa using Qt.trimmed_of_core_between a2 (Qt.trimmed first) [] ha2 (by simp) hcore
    simp only [h1, if_false, htr]
    obtain ⟨⟨x, xs, hx, _⟩, _⟩ := hcore
    rw [hx]
    rfl
  unfold processLine
  simp only [htl, hs1, hs2, hend, hid, hcap]
  simp [saveComment, hsize]

end LupdateVisitor

namespace LupdateVisitor

/-- A line inside a block comment tagged `:`, read by the loop body: its
trimmed text is added to the comment after one space, if it has any. -/
theorem processLine_middle (store : TranslationRelatedStore) (c line : List Char)
    (hc : c ≠ []) (hclose : ¬ hasCloser line) :
    processLine
        { save := false, sawStarPrefix := true, sourceIdentifier := false, comment := c,
          identifier := [':'] } store line =
      ({ save := false, sawStarPrefix := true, sourceIdentifier := false,
         comment := c ++ (if (Qt.trimmed line).isEmpty then [] else ' ' :: Qt.trimmed line),
         identifier := [':'] }, store) := by
  have hend : Qt.endsWith (Qt.trimmed line) ['*', '/'] = false :=
    Qt.not_endsWith_closer _ (fun h => hclose (h.trans (Qt.trimmed_infix line)))
  have hce : c.isEmpty = false := by
    cases c with
    | nil => exact absurd rfl hc
    | cons x xs => rfl
  unfold processLine
  simp only [continuationComment, continuationText, hend, hce]
  by_cases ht : (Qt.trimmed line).isEmpty = true
  · have ht0 : Qt.trimmed line = [] := List.isEmpty_iff.mp ht
    simp [saveComment, ht0]
  · have ht2 : (Qt.trimmed line).isEmpty = false := by simpa using ht
    simp [saveComment, ht2]

/-- The last line of a block comment tagged `:`, read by the loop body: its
trimmed text without the closer is added, and the comment goes to the extra
comment of the record. -/
theorem processLine_closer (store : TranslationRelatedStore) (c last : List Char)
    (hc : c ≠ []) (hclose : ¬ hasCloser last) :
    processLine
        { save := false, sawStarPrefix := true, sourceIdentifier := false, comment := c,
          identifier := [':'] } store (last ++ ['*', '/']) =
      ({}, { store with
              lupdateExtraComment :=
                (if !store.lupdateExtraComment.isEmpty then store.lupdateExtraComment ++ [' ']
                  else store.lupdateExtraComment)
                ++ (c ++ (if (Qt.trimmed last).isEmpty then [] else ' ' :: Qt.trimmed last)) }) := by
  have hdw : (last ++ ['*', '/']).dropWhile Qt.isSpace = last.dropWhile Qt.isSpace ++ ['*', '/'] := by
    rw [List.dropWhile_append]
    split_ifs with h
    · have h2 : last.dropWhile Qt.isSpace = [] := by simpa using h
      rw [h2]
      rfl
    · rfl
  have htl : Qt.trimmed (last ++ ['*', '/']) = last.dropWhile Qt.isSpace ++ ['*', '/'] := by
    unfold Qt.trimmed
    rw [hdw]
    exact Qt.trimRight_append_concat Qt.isSpace _ ['*'] '/' (by decide)
  have hend : Qt.endsWith (last.dropWhile Qt.isSpace ++ ['*', '/']) ['*', '/'] = true := by
    unfold Qt.endsWith
    exact List.isSuffixOf_iff_suffix.mpr (List.suffix_append _ _)
  have hnc : ¬ hasCloser (last.dropWhile Qt.isSpace) :=
    fun h => hclose (h.trans (List.dropWhile_suffix Qt.isSpace).isInfix)
  have hrm := Qt.removeCloser_append_closer _ hnc
  have htr : Qt.trimmed (last.dropWhile Qt.isSpace) = Qt.trimmed last := by
    unfold Qt.trimmed
    rw [List.dropWhile_idempotent]
  have hce : c.isEmpty = false := by
    cases c with
    | nil => exact absurd rfl hc
    | cons x xs => rfl
  unfold processLine
  simp only [continuationComment, continuationText, htl, hend, hrm, htr, hce]
  by_cases ht : (Qt.trimmed last).isEmpty = true
  · have ht0 : Qt.trimmed last = [] := List.isEmpty_iff.mp ht
    simp [saveComment, ht0, hc]
  · have ht2 : (Qt.trimmed last).isEmpty = false := by simpa using ht
    simp [saveComment, ht2]

/-- The lines inside a block comment tagged `:`, read by the loop. -/
theorem processLines_middle (store : TranslationRelatedStore) (rest : List (List Char)) :
    ∀ (middle : List (List Char)) (c : List Char), c ≠ [] →
      (∀ line ∈ middle, ¬ hasCloser line) →
      processLines
          { save := false, sawStarPrefix := true, sourceIdentifier := false, comment := c,
            identifier := [':'] } store (middle.filter (fun line => !line.isEmpty) ++ rest) =
        processLines
          { save := false, sawStarPrefix := true, sourceIdentifier := false,
            comment := middle.foldl
              (fun acc line =>
                acc ++ (if (Qt.trimmed line).isEmpty then [] else ' ' :: Qt.trimmed line)) c,
            identifier := [':'] } store rest := by
  intro middle
  induction middle with
  | nil => intro c _ _; rfl
  | cons m ms ih =>
    intro c hc hclose
    have hms : ∀ line ∈ ms, ¬ hasCloser line := fun l hl => hclose l (List.mem_cons_of_mem _ hl)
    cases m with
    | nil =>
      have e : Qt.trimmed [] = [] := rfl
      simp only [List.filter_cons, List.isEmpty_nil, Bool.not_true, Bool.false_eq_true, if_false,
        List.foldl_cons, e, if_true, List.append_nil]
      exact ih c hc hms
    | cons x xs =>
      have hne : c ++ (if (Qt.trimmed (x :: xs)).isEmpty then []
          else ' ' :: Qt.trimmed (x :: xs)) ≠ [] := by
        cases c with
        | nil => exact absurd rfl hc
        | cons y ys => simp
      simp only [List.filter_cons, List.isEmpty_cons, Bool.not_false, if_true, List.cons_append,
        processLines, List.foldl_cons]
      rw [processLine_middle store c (x :: xs) hc (hclose _ (List.mem_cons_self _ _))]
      exact ih _ hne hms

end LupdateVisitor

namespace LupdateVisitor

theorem foldl_spaced_ne_nil :
    ∀ (lines : List (List Char)) (c : List Char), c ≠ [] →
      lines.foldl
          (fun acc line =>
            acc ++ (if (Qt.trimmed line).isEmpty then [] else ' ' :: Qt.trimmed line)) c ≠ [] := by
  intro lines
  induction lines with
  | nil => intro c hc; exact hc
  | cons m ms ih =>
    intro c hc
    rw [List.foldl_cons]
    apply ih
    cases c with
    | nil => exact absurd rfl hc
    | cons y ys => simp

/-- C5. For every block comment that opens with `/*:`, whitespace and text on
its first line and closes with `*/` on a later line, `setInfoFromRawComment`
on a fresh record sets the extra comment to the trimmed texts of the lines,
joined by exactly one space, the closer removed. The whitespace behind `/*:`
is of the class `\s` of the patterns; no line has a newline, and the closer
occurs at the end of the comment only. -/
theorem blockComment_extraComment (ws first : List Char) (middle : List (List Char))
    (last : List Char)
    (hws : ws ≠ []) (hwsp : ∀ c ∈ ws, Regex.isSpace c = true) (hwn : '\n' ∉ ws)
    (hfn : '\n' ∉ first) (hf : ∃ c ∈ first, Qt.isSpace c = false)
    (hmn : ∀ line ∈ middle, '\n' ∉ line) (hln : '\n' ∉ last)
    (hc1 : ¬ hasCloser (ws ++ first)) (hc2 : ∀ line ∈ middle, ¬ hasCloser line)
    (hc3 : ¬ hasCloser last) :
    (setInfoFromRawComment (joinLines (blockCommentLines ws first middle last))
        {}).lupdateExtraComment
      = joinTrimmed (first :: (middle ++ [last])) := by
  have hlines : ∀ line ∈ blockCommentLines ws first middle last, '\n' ∉ line := by
    intro line hl
    unfold blockCommentLines at hl
    rcases List.mem_cons.mp hl with rfl | hl
    · simp only [List.mem_cons, List.mem_append, not_or]
      exact ⟨by decide, by decide, by decide, hwn, hfn⟩
    · rcases List.mem_append.mp hl with hl | hl
      · exact hmn line hl
      · rw [List.mem_singleton] at hl
        subst hl
        simp only [List.mem_append, List.mem_cons, not_or]
        exact ⟨hln, by decide, by decide, by simp⟩
  have hfilter : (blockCommentLines ws first middle last).filter (fun line => !line.isEmpty)
      = ('/' :: '*' :: ':' :: (ws ++ first))
        :: (middle.filter (fun line => !line.isEmpty) ++ [last ++ ['*', '/']]) := by
    unfold blockCommentLines
    have hl : (last ++ ['*', '/']).isEmpty = false := by
      cases last <;> rfl
    simp [List.filter_cons, List.filter_append, hl]
  obtain ⟨_, _, _, _, _, hcore⟩ := Qt.exists_core first hf
  have hne : Qt.trimmed first ≠ [] := by
    obtain ⟨⟨x, xs, hx, _⟩, _⟩ := hcore
    rw [hx]
    simp
  have hne2 := foldl_spaced_ne_nil middle (Qt.trimmed first) hne
  unfold setInfoFromRawComment
  rw [Qt.splitSkipEmpty_joinLines _ hlines, hfilter, processLines,
    processLine_opener {} ws first hws hwsp hfn hf hc1,
    processLines_middle {} [last ++ ['*', '/']] middle (Qt.trimmed first) hne hc2,
    processLines, processLine_closer {} _ last hne2 hc3, processLines]
  have hfold := foldl_spaced_eq_joinWithSpace (middle ++ [last]) (Qt.trimmed first)
  rw [List.foldl_append] at hfold
  simp only [List.foldl_cons, List.foldl_nil] at hfold
  have hjoin : joinTrimmed (first :: (middle ++ [last]))
      = joinWithSpace (Qt.trimmed first
          :: ((middle ++ [last]).map Qt.trimmed).filter (fun text => !text.isEmpty)) := by
    unfold joinTrimmed
    have he : (Qt.trimmed first).isEmpty = false := by
      cases h : Qt.trimmed first with
      | nil => exact absurd h hne
      | cons x xs => rfl
    simp [List.filter_cons, he]
  rw [hjoin, ← hfold]
  rfl

/-- C5 on scenario B: the comment `/*: first part`, newline,
`   second part */` gives the extra comment `first part second part`. -/
theorem blockComment_extraComment_witness :
    (setInfoFromRawComment "/*: first part\n   second part */".toList {}).lupdateExtraComment
      = "first part second part".toList :=
  blockComment_extraComment [' '] "first part".toList [] "   second part ".toList
    (by decide) (by decide) (by decide) (by decide) (by decide) (by decide) (by decide)
    (by decide) (by decide) (by decide)

end LupdateVisitor

/-! ## From the records to the translator -/

open TrFunction

namespace LupdateVisitor

/-- C16, the claim as stated fails: the record `VisitCallExpr` makes for the
call `qtTrId("msg-id")` has no context argument and the retrieved context
`qtTrId`, and the message `handleTrId` builds from it with
`fillTranslatorMessage` has an empty context. -/
theorem fillTranslatorMessage_context_counterexample :
    (callExprStore (noCommentContext "qtTrId(\"msg-id\");\n".toList) qtTrIdCall).contextArg = []
      ∧ (callExprStore (noCommentContext "qtTrId(\"msg-id\");\n".toList)
          qtTrIdCall).contextRetrieved = "qtTrId".toList
      ∧ (fillTranslatorMessage (fun s => s)
          (callExprStore (noCommentContext "qtTrId(\"msg-id\");\n".toList) qtTrIdCall)
          false true).context ≠ "qtTrId".toList := by
  decide

/-- C16, amended. For every record, the message `fillTranslatorMessage` builds
for a message that is not ID based (`isId` false, as `handleTr` and
`handleTranslate` ask) has as its context the transcoded context argument
whenever that argument is not empty, and the transcoded retrieved context
otherwise; the message it builds for an ID based message (`isId` true, as
`handleTrId` asks) has an empty context. -/
theorem fillTranslatorMessage_context (transcode : List Char → List Char)
    (store : TranslationRelatedStore) (forcePlural : Bool) :
    (fillTranslatorMessage transcode store forcePlural false).context
        = (if store.contextArg ≠ [] then transcode store.contextArg
            else transcode store.contextRetrieved)
      ∧ (fillTranslatorMessage transcode store forcePlural true).context = [] := by
  constructor
  · cases hm : store.lupdateAllMagicMetaData.isEmpty <;>
      cases hc : store.contextArg <;> simp [fillTranslatorMessage, hm, hc]
  · cases hm : store.lupdateAllMagicMetaData.isEmpty <;> simp [fillTranslatorMessage, hm]

/-- C18. For every record of a kind that requires a context (`tr`, `trUtf8`,
`QT_TR_NOOP`, `QT_TR_NOOP_UTF8`, `QT_TR_N_NOOP`) whose context argument and
retrieved context are both empty, `fillTranslator` appends no message: the
translator is as before. -/
theorem fillTranslator_without_context (trFunctionByName : List Char → Option TrFunction)
    (transcode : List Char → List Char) (tor : List TranslatorMessage)
    (store : TranslationRelatedStore)
    (hkind : trFunctionByName store.funcName = some Function_tr
      ∨ trFunctionByName store.funcName = some Function_trUtf8
      ∨ trFunctionByName store.funcName = some Function_QT_TR_NOOP
      ∨ trFunctionByName store.funcName = some Function_QT_TR_NOOP_UTF8
      ∨ trFunctionByName store.funcName = some Function_QT_TR_N_NOOP)
    (harg : store.contextArg = []) (hretrieved : store.contextRetrieved = []) :
    fillTranslator trFunctionByName transcode tor store = tor := by
  have h : ∀ forcePlural, handleTr transcode tor store forcePlural = tor := by
    intro forcePlural
    simp [handleTr, harg, hretrieved]
  unfold fillTranslator
  rcases hkind with hk | hk | hk | hk | hk <;> rw [hk] <;> exact h _

/-- C18 on a record of kind `tr` without any context and a translator that
holds one message: the translator keeps that one message. -/
theorem fillTranslator_without_context_witness :
    fillTranslator defaultTrFunctionByName (fun s => s) [{ sourceText := "old".toList }]
        { funcName := "tr".toList, lupdateSource := "hello".toList,
          lupdateLocationFile := "main.cpp".toList, lupdateLocationLine := 1 }
      = [{ sourceText := "old".toList }] :=
  fillTranslator_without_context defaultTrFunctionByName (fun s => s)
    [{ sourceText := "old".toList }]
    { funcName := "tr".toList, lupdateSource := "hello".toList,
      lupdateLocationFile := "main.cpp".toList, lupdateLocationLine := 1 }
    (Or.inl (by decide)) rfl rfl

end LupdateVisitor

namespace TranslationRelatedStore

theorem sameOutsideComments_refl (a : TranslationRelatedStore) : a.sameOutsideComments a := by
  simp [sameOutsideComments]

theorem sameOutsideComments_trans {a b c : TranslationRelatedStore}
    (h1 : a.sameOutsideComments b) (h2 : b.sameOutsideComments c) : a.sameOutsideComments c := by
  unfold sameOutsideComments at *
  obtain ⟨a1, a2, a3, a4, a5, a6, a7, a8, a9, a10, a11, a12, a13⟩ := h1
  obtain ⟨b1, b2, b3, b4, b5, b6, b7, b8, b9, b10, b11, b12, b13⟩ := h2
  exact ⟨a1.trans b1, a2.trans b2, a3.trans b3, a4.trans b4, a5.trans b5, a6.trans b6,
    a7.trans b7, a8.trans b8, a9.trans b9, a10.trans b10, a11.trans b11, a12.trans b12,
    a13.trans b13⟩

end TranslationRelatedStore

namespace LupdateVisitor

theorem saveComment_frame (st : LineState) (store : TranslationRelatedStore) :
    (saveComment st store).2.sameOutsideComments store := by
  unfold saveComment
  split_ifs <;> simp [TranslationRelatedStore.sameOutsideComments]

theorem processLine_frame (st : LineState) (store : TranslationRelatedStore)
    (line : List Char) : (processLine st store line).2.sameOutsideComments store := by
  unfold processLine
  simp only []
  repeat' split
  all_goals
    first
    | exact saveComment_frame _ _
    | exact TranslationRelatedStore.sameOutsideComments_refl _

theorem processLines_frame :
    ∀ (lines : List (List Char)) (st : LineState) (store : TranslationRelatedStore),
      (processLines st store lines).2.sameOutsideComments store := by
  intro lines
  induction lines with
  | nil => intro st store; exact TranslationRelatedStore.sameOutsideComments_refl _
  | cons l ls ih =>
    intro st store
    rw [processLines]
    exact TranslationRelatedStore.sameOutsideComments_trans (ih _ _) (processLine_frame st store l)

theorem setInfoFromRawComment_frame (commentString : List Char)
    (store : TranslationRelatedStore) :
    (setInfoFromRawComment commentString store).sameOutsideComments store :=
  processLines_frame _ _ _

theorem setInfoFromRawComments_frame :
    ∀ (rawComments : List (List Char)) (store : TranslationRelatedStore),
      (setInfoFromRawComments rawComments store).sameOutsideComments store := by
  intro rawComments
  induction rawComments with
  | nil => intro store; exact TranslationRelatedStore.sameOutsideComments_refl _
  | cons c cs ih =>
    intro store
    unfold setInfoFromRawComments at ih ⊢
    rw [List.foldl_cons]
    exact TranslationRelatedStore.sameOutsideComments_trans (ih _)
      (setInfoFromRawComment_frame c store)

/-- The record `VisitCallExpr` starts from keeps the column -1, so it is not
valid, whatever the comments. -/
theorem callExprStore_locationCol (m_context : ASTContext) (callExpression : CallExpr) :
    (callExprStore m_context callExpression).locationCol = -1 := by
  have h := setInfoFromRawComments_frame (rawCommentsForCallExpr m_context callExpression)
    { callType := "ASTRead_CallExpr".toList,
      funcName := callExpression.funcName,
      lupdateLocationFile := callExpression.fileName,
      lupdateLocationLine := callExpression.spellingLineNumber,
      contextRetrieved :=
        LupdatePrivate.contextForFunctionDecl callExpression.qualifiedName
          callExpression.funcName }
  exact h.2.2.2.1

theorem VisitCallExpr_not_valid (trFunctionByName : List Char → Option TrFunction)
    (m_context : ASTContext) (m_inputFile : List Char) (stores : List TranslationRelatedStore)
    (callExpression : CallExpr) (s : TranslationRelatedStore)
    (hs : s ∈ VisitCallExpr trFunctionByName m_context m_inputFile stores callExpression) :
    s ∈ stores ∨ s.isValid = false := by
  have hcol := callExprStore_locationCol m_context callExpression
  unfold VisitCallExpr at hs
  repeat' split at hs
  all_goals
    first
    | exact Or.inl hs
    | (rcases List.mem_append.mp hs with h | h
       · exact Or.inl h
       · right
         rw [List.mem_singleton] at h
         subst h
         simp [TranslationRelatedStore.isValid, hcol])

end LupdateVisitor

namespace LupdateVisitor

/-- A record of a kind other than `Q_DECLARE_TR_FUNCTIONS`, with a context when
its kind is handled by `handleTr`, gets exactly one message appended, valid or
not. -/
theorem fillTranslator_appends (trFunctionByName : List Char → Option TrFunction)
    (transcode : List Char → List Char) (tor : List TranslatorMessage)
    (store : TranslationRelatedStore) (k : TrFunction)
    (hk : trFunctionByName store.funcName = some k)
    (hd : k ≠ Function_Q_DECLARE_TR_FUNCTIONS)
    (hctx : store.contextRetrieved ≠ [] ∨ store.contextArg ≠ []
      ∨ (k ≠ Function_QT_TR_N_NOOP ∧ k ≠ Function_tr ∧ k ≠ Function_trUtf8
        ∧ k ≠ Function_QT_TR_NOOP ∧ k ≠ Function_QT_TR_NOOP_UTF8)) :
    ∃ msg, fillTranslator trFunctionByName transcode tor store = tor ++ [msg] := by
  have htr : ∀ forcePlural, (store.contextRetrieved ≠ [] ∨ store.contextArg ≠ []) →
      ∃ msg, handleTr transcode tor store forcePlural = tor ++ [msg] := by
    intro forcePlural h
    have hc : (store.contextRetrieved.isEmpty && store.contextArg.isEmpty) = false := by
      rcases h with h | h
      · cases hr : store.contextRetrieved with
        | nil => exact absurd hr h
        | cons x xs => rfl
      · cases hr : store.contextArg with
        | nil => exact absurd hr h
        | cons x xs => simp
    unfold handleTr
    rw [hc]
    exact ⟨_, rfl⟩
  have hctx2 : (k = Function_QT_TR_N_NOOP ∨ k = Function_tr ∨ k = Function_trUtf8
      ∨ k = Function_QT_TR_NOOP ∨ k = Function_QT_TR_NOOP_UTF8) →
      store.contextRetrieved ≠ [] ∨ store.contextArg ≠ [] := by
    intro hkk
    rcases hctx with h | h | h
    · exact Or.inl h
    · exact Or.inr h
    · rcases hkk with e | e | e | e | e
      · exact absurd e h.1
      · exact absurd e h.2.1
      · exact absurd e h.2.2.1
      · exact absurd e h.2.2.2.1
      · exact absurd e h.2.2.2.2
  unfold fillTranslator
  rw [hk]
  cases k
  case Function_Q_DECLARE_TR_FUNCTIONS => exact absurd rfl hd
  case Function_QT_TR_N_NOOP => exact htr _ (hctx2 (by simp))
  case Function_tr => exact htr _ (hctx2 (by simp))
  case Function_trUtf8 => exact htr _ (hctx2 (by simp))
  case Function_QT_TR_NOOP => exact htr _ (hctx2 (by simp))
  case Function_QT_TR_NOOP_UTF8 => exact htr _ (hctx2 (by simp))
  all_goals exact ⟨_, rfl⟩

/-- C19, the claim as stated fails: the file of the call `QObject::tr("hello")`
has no comment, so the finder returns none for the call, and `VisitCallExpr`
followed by `fillTranslator` appends a message with the source text `hello`. -/
theorem no_comment_counterexample :
    rawCommentsForCallExpr (noCommentContext "QObject::tr(\"hello\");\n".toList) trCall = []
      ∧ (fillTranslatorAll defaultTrFunctionByName (fun s => s) []
          (VisitCallExpr defaultTrFunctionByName
            (noCommentContext "QObject::tr(\"hello\");\n".toList)
            "main.cpp".toList [] trCall)).map TranslatorMessage.sourceText
        = ["hello".toList] := by
  decide

/-- C19, amended. For every lookup of the alias manager that gives the names
`tr`, `trUtf8`, `translate` and `qtTrId` their own kinds, and for every call
site of one of them with well-formed arguments for which the finder returns no
comment, `VisitCallExpr` still adds one record, with no extra comment, no ID meta data,
no magic meta data and no source text override, and `fillTranslator` appends
exactly one message for it, unless the site is a `tr` or `trUtf8` call
without retrieved context. -/
theorem no_comment_record (trFunctionByName : List Char → Option TrFunction)
    (m_context : ASTContext) (m_inputFile : List Char)
    (stores : List TranslationRelatedStore) (callExpression : CallExpr)
    (transcode : List Char → List Char) (tor : List TranslatorMessage)
    (hnames : trFunctionByName "tr".toList = some Function_tr
      ∧ trFunctionByName "trUtf8".toList = some Function_trUtf8
      ∧ trFunctionByName "translate".toList = some Function_translate
      ∧ trFunctionByName "qtTrId".toList = some Function_qtTrId)
    (hloc : callExpression.locationIsInvalid = false)
    (hfile : callExpression.fileName = m_inputFile)
    (hcallee : callExpression.hasDirectCallee = true) (htype : callExpression.hasType = true)
    (hwf : isWellFormedCall callExpression)
    (hnone : rawCommentsForCallExpr m_context callExpression = [])
    (hctx : LupdatePrivate.contextForFunctionDecl callExpression.qualifiedName
        callExpression.funcName ≠ []
      ∨ (callExpression.funcName ≠ "tr".toList ∧ callExpression.funcName ≠ "trUtf8".toList)) :
    ∃ s, VisitCallExpr trFunctionByName m_context m_inputFile stores callExpression
          = stores ++ [s]
      ∧ s.lupdateExtraComment = [] ∧ s.lupdateIdMetaData = []
      ∧ s.lupdateAllMagicMetaData = [] ∧ s.lupdateSourceWhenId = []
      ∧ ∃ msg, fillTranslator trFunctionByName transcode tor s = tor ++ [msg] := by
  have hstore : callExprStore m_context callExpression =
      { callType := "ASTRead_CallExpr".toList,
        funcName := callExpression.funcName,
        lupdateLocationFile := callExpression.fileName,
        lupdateLocationLine := callExpression.spellingLineNumber,
        contextRetrieved :=
          LupdatePrivate.contextForFunctionDecl callExpression.qualifiedName
            callExpression.funcName } := by
    unfold callExprStore
    rw [hnone]
    rfl
  have hfields : ∀ s : TranslationRelatedStore,
      s.lupdateExtraComment = (callExprStore m_context callExpression).lupdateExtraComment →
      s.lupdateIdMetaData = (callExprStore m_context callExpression).lupdateIdMetaData →
      s.lupdateAllMagicMetaData
        = (callExprStore m_context callExpression).lupdateAllMagicMetaData →
      s.lupdateSourceWhenId = (callExprStore m_context callExpression).lupdateSourceWhenId →
      s.lupdateExtraComment = [] ∧ s.lupdateIdMetaData = []
        ∧ s.lupdateAllMagicMetaData = [] ∧ s.lupdateSourceWhenId = [] := by
    intro s h1 h2 h3 h4
    rw [h1, h2, h3, h4, hstore]
    exact ⟨rfl, rfl, rfl, rfl⟩
  have hfun : (callExprStore m_context callExpression).funcName = callExpression.funcName := by
    rw [hstore]
  have hret : (callExprStore m_context callExpression).contextRetrieved
      = LupdatePrivate.contextForFunctionDecl callExpression.qualifiedName
          callExpression.funcName := by
    rw [hstore]
  unfold isWellFormedCall at hwf
  rcases hwf with ⟨hname, hlen, hq⟩ | ⟨hname, hlen, hq0, hq1⟩ | ⟨hname, hlen, hq⟩
  · have hcr : LupdatePrivate.contextForFunctionDecl callExpression.qualifiedName
        callExpression.funcName ≠ [] := by
      rcases hctx with h | h
      · exact h
      · rcases hname with e | e
        · exact absurd e h.1
        · exact absurd e h.2
    have hk : trFunctionByName callExpression.funcName = some Function_tr
        ∨ trFunctionByName callExpression.funcName = some Function_trUtf8 := by
      rcases hname with e | e
      · left; rw [e]; exact hnames.1
      · right; rw [e]; exact hnames.2.1
    have hv : VisitCallExpr trFunctionByName m_context m_inputFile stores callExpression
        = stores ++
          [{ callExprStore m_context callExpression with
              lupdateSource := LupdatePrivate.cleanQuoteToken (callExpression.arguments.getD 0 []),
              lupdateComment :=
                LupdatePrivate.cleanQuoteToken (callExpression.arguments.getD 1 []),
              lupdatePlural := callExpression.arguments.getD 2 [] }] := by
      unfold VisitCallExpr
      rcases hname with e | e
      · have hk2 : trFunctionByName callExpression.funcName = some Function_tr := by
          rw [e]; exact hnames.1
        simp only [hloc, hfile, hcallee, htype, hk2, hlen, hq]
        simp [e]
      · have hk2 : trFunctionByName callExpression.funcName = some Function_trUtf8 := by
          rw [e]; exact hnames.2.1
        simp only [hloc, hfile, hcallee, htype, hk2, hlen, hq]
        simp [e]
    refine ⟨_, hv, ?_⟩
    obtain ⟨h1, h2, h3, h4⟩ := hfields
      { callExprStore m_context callExpression with
        lupdateSource := LupdatePrivate.cleanQuoteToken (callExpression.arguments.getD 0 []),
        lupdateComment :=
          LupdatePrivate.cleanQuoteToken (callExpression.arguments.getD 1 []),
        lupdatePlural := callExpression.arguments.getD 2 [] } rfl rfl rfl rfl
    refine ⟨h1, h2, h3, h4, ?_⟩
    rcases hk with hk | hk
    · exact fillTranslator_appends _ _ _ _ Function_tr (hfun ▸ hk) (by decide)
        (Or.inl (hret ▸ hcr))
    · exact fillTranslator_appends _ _ _ _ Function_trUtf8 (hfun ▸ hk) (by decide)
        (Or.inl (hret ▸ hcr))
  · have hk : trFunctionByName callExpression.funcName = some Function_translate := by
      rw [hname]; exact hnames.2.2.1
    have hv : VisitCallExpr trFunctionByName m_context m_inputFile stores callExpression
        = stores ++
          [{ callExprStore m_context callExpression with
              contextArg := LupdatePrivate.cleanQuoteToken (callExpression.arguments.getD 0 []),
              lupdateSource := LupdatePrivate.cleanQuoteToken (callExpression.arguments.getD 1 []),
              lupdateComment :=
                LupdatePrivate.cleanQuoteToken (callExpression.arguments.getD 2 []),
              lupdatePlural := callExpression.arguments.getD 3 [] }] := by
      unfold VisitCallExpr
      simp only [hloc, hfile, hcallee, htype, hk, hlen, hq0, hq1]
      simp [hname]
    refine ⟨_, hv, ?_⟩
    obtain ⟨h1, h2, h3, h4⟩ := hfields
      { callExprStore m_context callExpression with
        contextArg := LupdatePrivate.cleanQuoteToken (callExpression.arguments.getD 0 []),
        lupdateSource := LupdatePrivate.cleanQuoteToken (callExpression.arguments.getD 1 []),
        lupdateComment :=
          LupdatePrivate.cleanQuoteToken (callExpression.arguments.getD 2 []),
        lupdatePlural := callExpression.arguments.getD 3 [] } rfl rfl rfl rfl
    refine ⟨h1, h2, h3, h4, ?_⟩
    exact fillTranslator_appends _ _ _ _ Function_translate (hfun ▸ hk) (by decide)
      (Or.inr (Or.inr (by decide)))
  · have hk : trFunctionByName callExpression.funcName = some Function_qtTrId := by
      rw [hname]; exact hnames.2.2.2
    have hv : VisitCallExpr trFunctionByName m_context m_inputFile stores callExpression
        = stores ++
          [{ callExprStore m_context callExpression with
              lupdateId := LupdatePrivate.cleanQuoteToken (callExpression.arguments.getD 0 []),
              lupdatePlural := callExpression.arguments.getD 1 [] }] := by
      unfold VisitCallExpr
      simp only [hloc, hfile, hcallee, htype, hk, hlen, hq]
      simp [hname]
    refine ⟨_, hv, ?_⟩
    obtain ⟨h1, h2, h3, h4⟩ := hfields
      { callExprStore m_context callExpression with
        lupdateId := LupdatePrivate.cleanQuoteToken (callExpression.arguments.getD 0 []),
        lupdatePlural := callExpression.arguments.getD 1 [] } rfl rfl rfl rfl
    refine ⟨h1, h2, h3, h4, ?_⟩
    exact fillTranslator_appends _ _ _ _ Function_qtTrId (hfun ▸ hk) (by decide)
      (Or.inr (Or.inr (by decide)))

/-- C19, amended, on the call `QObject::tr("hello")` in a file without any
comment. -/
theorem no_comment_record_witness :
    isWellFormedCall trCall
      ∧ rawCommentsForCallExpr (noCommentContext "QObject::tr(\"hello\");\n".toList) trCall = []
      ∧ ∃ s, VisitCallExpr defaultTrFunctionByName
            (noCommentContext "QObject::tr(\"hello\");\n".toList) "main.cpp".toList [] trCall
          = [] ++ [s]
        ∧ s.lupdateExtraComment = [] ∧ s.lupdateIdMetaData = []
        ∧ s.lupdateAllMagicMetaData = [] ∧ s.lupdateSourceWhenId = []
        ∧ ∃ msg, fillTranslator defaultTrFunctionByName (fun s => s) [] s = [] ++ [msg] :=
  ⟨by decide, by decide,
    no_comment_record defaultTrFunctionByName
      (noCommentContext "QObject::tr(\"hello\");\n".toList) "main.cpp".toList []
      trCall (fun s => s) [] (by decide) rfl rfl rfl rfl (by decide) (by decide)
      (Or.inl (by decide))⟩

end LupdateVisitor

/-! ## Tagged lines, one at a time -/

namespace Qt

theorem trimRight_cons_of_neg (p : Char → Bool) (x : Char) (s : List Char) (hx : p x = false) :
    trimRight p (x :: s) = x :: trimRight p s := by
  unfold trimRight
  rw [List.reverse_cons, List.dropWhile_append]
  split_ifs with h
  · have h2 : s.reverse.dropWhile p = [] := by simpa using h
    rw [h2, List.dropWhile_cons_of_neg (by simp [hx])]
    rfl
  · simp

theorem trimmed_cons_of_neg (x : Char) (s : List Char) (hx : isSpace x = false) :
    trimmed (x :: s) = x :: trimRight isSpace s := by
  unfold trimmed
  rw [List.dropWhile_cons_of_neg (by simp [hx])]
  exact trimRight_cons_of_neg isSpace x s hx

theorem trimRight_append_rest (p : Char → Bool) (s : List Char) :
    ∃ b, s = trimRight p s ++ b ∧ ∀ c ∈ b, p c = true := by
  refine ⟨(s.reverse.takeWhile p).reverse, ?_, ?_⟩
  · have h2 := List.takeWhile_append_dropWhile p s.reverse
    have h3 := congrArg List.reverse h2
    rw [List.reverse_append, List.reverse_reverse] at h3
    exact h3.symm
  · intro c hc
    exact List.mem_takeWhile_imp (List.mem_reverse.mp hc)

end Qt

namespace Regex

theorem spacePlus_some {α : Type} (f : List Char → Option α) (hf : f [] = none) :
    ∀ (s : List Char) (r : α), spacePlus f s = some r →
      ∃ c d cs, s = c :: d :: cs ∧ isSpace c = true := by
  intro s
  induction s with
  | nil => intro r h; simp [spacePlus] at h
  | cons c cs ih =>
    intro r h
    rw [spacePlus] at h
    by_cases hc : isSpace c = true
    · cases cs with
      | nil =>
        simp [hc, spacePlus, hf] at h
      | cons d ds => exact ⟨c, d, ds, rfl, hc⟩
    · simp [hc] at h

theorem dotPlusEnd_nil : dotPlusEnd [] = none := by decide

end Regex

namespace LupdateVisitor

theorem isSpace_of_isIdentifier (marker : Char)
    (hid : LupdatePrivate.isIdentifier marker = true) : Qt.isSpace marker = false := by
  unfold LupdatePrivate.isIdentifier at hid
  simp only [Bool.or_eq_true, beq_iff_eq] at hid
  rcases hid with ((rfl | rfl) | rfl) | rfl <;> decide

/-- The trimmed tagged line: the whitespace behind the text is gone. -/
theorem trimmed_taggedLine (marker : Char) (a m b : List Char) (hm : Qt.IsCore m)
    (hb : ∀ c ∈ b, Qt.isSpace c = true) :
    Qt.trimmed (taggedLine marker (a ++ m ++ b)) = taggedLine marker (a ++ m) := by
  obtain ⟨_, ⟨ys, y, hy, hys⟩⟩ := hm
  unfold taggedLine
  rw [Qt.trimmed_cons_of_neg _ _ (by decide)]
  have e1 : '/' :: marker :: ' ' :: (a ++ m ++ b) = ('/' :: marker :: ' ' :: (a ++ m)) ++ b := by
    simp
  rw [e1, Qt.trimRight_append_blank _ _ _ hb, hy]
  have e2 : '/' :: marker :: ' ' :: (a ++ (ys ++ [y])) = ('/' :: marker :: ' ' :: (a ++ ys)) ++ [y] := by
    simp
  rw [e2, Qt.trimRight_concat_of_neg Qt.isSpace _ y hys]

/-- The trimmed tagged line without text: the marker ends it. -/
theorem trimmed_taggedLine_blank (marker : Char) (t : List Char)
    (hid : LupdatePrivate.isIdentifier marker = true) (ht : ∀ c ∈ t, Qt.isSpace c = true) :
    Qt.trimmed (taggedLine marker t) = ['/', '/', marker] := by
  unfold taggedLine
  rw [Qt.trimmed_cons_of_neg _ _ (by decide)]
  have e1 : '/' :: marker :: ' ' :: t = (['/'] ++ [marker]) ++ (' ' :: t) := by simp
  rw [e1, Qt.trimRight_append_blank _ _ _ (by
    intro c hc
    rcases List.mem_cons.mp hc with rfl | hc
    · decide
    · exact ht c hc)]
  rw [Qt.trimRight_concat_of_neg Qt.isSpace _ marker (isSpace_of_isIdentifier marker hid)]
  rfl

/-- What the pattern `cppStyle` captures of a tagged line with text. -/
theorem cppStyle_taggedLine (marker : Char) (a m : List Char)
    (hid : LupdatePrivate.isIdentifier marker = true) (ha : ∀ c ∈ a, Qt.isSpace c = true)
    (han : '\n' ∉ a) (hmn : '\n' ∉ m) (hm : Qt.IsCore m) :
    ∃ a2, LupdatePrivate.cppStyle (taggedLine marker (a ++ m)) = some ([marker], a2 ++ m)
      ∧ ∀ c ∈ a2, Qt.isSpace c = true := by
  obtain ⟨a2, hdrop, ha2, ha2s⟩ := dropWhile_regexSpace_blank_core m hm a ha
  have hxn : '\n' ∉ a2 ++ m := by
    simp only [List.mem_append, not_or]
    exact ⟨fun h => han (ha2s.subset h), hmn⟩
  have hne : a2 ++ m ≠ [] := by
    obtain ⟨⟨x, xs, hx, _⟩, _⟩ := hm
    rw [hx]
    simp
  have hdrop2 : (' ' :: (a ++ m)).dropWhile Regex.isSpace = a2 ++ m := by
    rw [List.dropWhile_cons_of_pos (by decide), hdrop]
  refine ⟨a2, ?_, ha2⟩
  unfold taggedLine LupdatePrivate.cppStyle
  simp only [hid, if_true]
  rw [Regex.spacePlus_eq _ _ ' ' (by decide)
    (by rw [hdrop2, Regex.dotPlusEnd_of_not_mem _ hne hxn]; rfl), hdrop2,
    Regex.dotPlusEnd_of_not_mem _ hne hxn]
  rfl

/-- One tagged line `//` + marker + blank + text read by the loop body, for a
marker other than `%` and a text with a character that is no whitespace: the
trimmed text is saved under the marker. -/
theorem processLine_taggedLine (store : TranslationRelatedStore) (marker : Char) (t : List Char)
    (hid : LupdatePrivate.isIdentifier marker = true) (hmarker : marker ≠ '%')
    (hn : '\n' ∉ t) (hv : ∃ c ∈ t, Qt.isSpace c = false) :
    processLine {} store (taggedLine marker t) =
      saveComment { save := true, comment := Qt.trimmed t, identifier := [marker] } store := by
  obtain ⟨a, b, hsplit, ha, hb, hcore⟩ := Qt.exists_core t hv
  have hmn : '\n' ∉ Qt.trimmed t := fun h => hn ((Qt.trimmed_sublist t).subset h)
  have han : '\n' ∉ a := fun h => hn (by rw [hsplit]; simp [h])
  have htl : Qt.trimmed (taggedLine marker t) = taggedLine marker (a ++ Qt.trimmed t) := by
    conv_lhs => rw [hsplit]
    exact trimmed_taggedLine marker a (Qt.trimmed t) b hcore hb
  obtain ⟨a2, hcpp, ha2⟩ := cppStyle_taggedLine marker a (Qt.trimmed t) hid ha han hmn hcore
  have hcap : LupdatePrivate.capture LupdatePrivate.cppStyle
      (taggedLine marker (a ++ Qt.trimmed t)) = (true, [marker], Qt.trimmed t) := by
    unfold LupdatePrivate.capture
    rw [hcpp]
    have h1 : ¬ ([marker] : List Char) = ['%'] := by
      intro h
      injection h with h _
      exact hmarker h
    have htr : Qt.trimmed (a2 ++ Qt.trimmed t) = Qt.trimmed t := by
      simpa using Qt.trimmed_of_core_between a2 (Qt.trimmed t) [] ha2 (by simp) hcore
    simp only [h1, if_false, htr]
    obtain ⟨⟨x, xs, hx, _⟩, _⟩ := hcore
    rw [hx]
    rfl
  have hstart : Qt.startsWith (taggedLine marker (a ++ Qt.trimmed t)) ['/', '/'] = true := by
    simp [Qt.startsWith, taggedLine]
  unfold processLine
  simp only [htl, hstart, hcap]
  rfl

/-- One tagged line without text read by the loop body: nothing is saved. -/
theorem processLine_taggedLine_blank (store : TranslationRelatedStore) (marker : Char)
    (t : List Char) (hid : LupdatePrivate.isIdentifier marker = true)
    (ht : ∀ c ∈ t, Qt.isSpace c = true) :
    processLine {} store (taggedLine marker t) = ({}, store) := by
  have htl := trimmed_taggedLine_blank marker t hid ht
  have hcap : LupdatePrivate.capture LupdatePrivate.cppStyle ['/', '/', marker]
      = (false, [], []) := by
    unfold LupdatePrivate.capture LupdatePrivate.cppStyle
    simp [hid, Regex.spacePlus]
  have hstart : Qt.startsWith ['/', '/', marker] ['/', '/'] = true := by
    simp [Qt.startsWith]
  unfold processLine
  simp only [htl, hstart, hcap]
  rfl

theorem taggedLine_no_newline (marker : Char) (t : List Char)
    (hid : LupdatePrivate.isIdentifier marker = true) (hn : '\n' ∉ t) :
    '\n' ∉ taggedLine marker t := by
  have h1 : marker ≠ '\n' := by
    rintro rfl
    exact absurd hid (by decide)
  unfold taggedLine
  simp only [List.mem_cons, not_or]
  exact ⟨by decide, by decide, fun h => h1 h.symm, by decide, hn⟩

theorem setInfoFromRawComment_taggedLine (store : TranslationRelatedStore) (marker : Char)
    (t : List Char) (hid : LupdatePrivate.isIdentifier marker = true) (hn : '\n' ∉ t) :
    setInfoFromRawComment (taggedLine marker t) store
      = (processLine {} store (taggedLine marker t)).2 :=
  setInfoFromRawComment_one_line store _ (by simp [taggedLine])
    (taggedLine_no_newline marker t hid hn)

theorem blank_or_not (t : List Char) :
    (∃ c ∈ t, Qt.isSpace c = false) ∨ (∀ c ∈ t, Qt.isSpace c = true) := by
  by_cases h : ∀ c ∈ t, Qt.isSpace c = true
  · exact Or.inr h
  · left
    push_neg at h
    obtain ⟨c, hc, hcs⟩ := h
    exact ⟨c, hc, by simpa using hcs⟩

theorem trimmed_ne_nil (t : List Char) (hv : ∃ c ∈ t, Qt.isSpace c = false) :
    Qt.trimmed t ≠ [] := by
  obtain ⟨_, _, _, _, _, ⟨⟨x, xs, hx, _⟩, _⟩⟩ := Qt.exists_core t hv
  rw [hx]
  simp

/-- The record after the line `//: t` with a text that is not blank. -/
theorem setInfoFromRawComment_extra (store : TranslationRelatedStore) (t : List Char)
    (hn : '\n' ∉ t) (hv : ∃ c ∈ t, Qt.isSpace c = false) :
    setInfoFromRawComment (taggedLine ':' t) store =
      { store with
          lupdateExtraComment :=
            if store.lupdateExtraComment = [] then Qt.trimmed t
            else store.lupdateExtraComment ++ ' ' :: Qt.trimmed t } := by
  rw [setInfoFromRawComment_taggedLine store ':' t (by decide) hn,
    processLine_taggedLine store ':' t (by decide) (by decide) hn hv]
  cases he : store.lupdateExtraComment with
  | nil => simp [saveComment, he]
  | cons x xs => simp [saveComment, he]

/-- The record after a tagged line with a blank text. -/
theorem setInfoFromRawComment_blank (store : TranslationRelatedStore) (marker : Char)
    (t : List Char) (hid : LupdatePrivate.isIdentifier marker = true) (hn : '\n' ∉ t)
    (ht : ∀ c ∈ t, Qt.isSpace c = true) :
    setInfoFromRawComment (taggedLine marker t) store = store := by
  rw [setInfoFromRawComment_taggedLine store marker t hid hn,
    processLine_taggedLine_blank store marker t hid ht]

/-- The record after the line `//= t` with a text that is not blank. -/
theorem setInfoFromRawComment_idMeta (store : TranslationRelatedStore) (t : List Char)
    (hn : '\n' ∉ t) (hv : ∃ c ∈ t, Qt.isSpace c = false) :
    setInfoFromRawComment (taggedLine '=' t) store =
      { store with lupdateIdMetaData := Qt.trimmed t } := by
  rw [setInfoFromRawComment_taggedLine store '=' t (by decide) hn,
    processLine_taggedLine store '=' t (by decide) (by decide) hn hv]
  simp [saveComment]

end LupdateVisitor

namespace LupdateVisitor

/-- A block comment tagged `:` read into a record: the trimmed texts of its
lines, joined by one space, are added to the extra comment of the record. -/
theorem blockComment_on_store (store : TranslationRelatedStore) (ws first : List Char)
    (middle : List (List Char)) (last : List Char)
    (hws : ws ≠ []) (hwsp : ∀ c ∈ ws, Regex.isSpace c = true) (hwn : '\n' ∉ ws)
    (hfn : '\n' ∉ first) (hf : ∃ c ∈ first, Qt.isSpace c = false)
    (hmn : ∀ line ∈ middle, '\n' ∉ line) (hln : '\n' ∉ last)
    (hc1 : ¬ hasCloser (ws ++ first)) (hc2 : ∀ line ∈ middle, ¬ hasCloser line)
    (hc3 : ¬ hasCloser last) :
    setInfoFromRawComment (joinLines (blockCommentLines ws first middle last)) store
      = { store with
            lupdateExtraComment :=
              if store.lupdateExtraComment = [] then joinTrimmed (first :: (middle ++ [last]))
              else store.lupdateExtraComment
                ++ ' ' :: joinTrimmed (first :: (middle ++ [last])) } := by
  have hlines : ∀ line ∈ blockCommentLines ws first middle last, '\n' ∉ line := by
    intro line hl
    unfold blockCommentLines at hl
    rcases List.mem_cons.mp hl with rfl | hl
    · simp only [List.mem_cons, List.mem_append, not_or]
      exact ⟨by decide, by decide, by decide, hwn, hfn⟩
    · rcases List.mem_append.mp hl with hl | hl
      · exact hmn line hl
      · rw [List.mem_singleton] at hl
        subst hl
        simp only [List.mem_append, List.mem_cons, not_or]
        exact ⟨hln, by decide, by decide, by simp⟩
  have hfilter : (blockCommentLines ws first middle last).filter (fun line => !line.isEmpty)
      = ('/' :: '*' :: ':' :: (ws ++ first))
        :: (middle.filter (fun line => !line.isEmpty) ++ [last ++ ['*', '/']]) := by
    unfold blockCommentLines
    have hl : (last ++ ['*', '/']).isEmpty = false := by
      cases last <;> rfl
    simp [List.filter_cons, List.filter_append, hl]
  have hne : Qt.trimmed first ≠ [] := trimmed_ne_nil first hf
  have hne2 := foldl_spaced_ne_nil middle (Qt.trimmed first) hne
  have hfold := foldl_spaced_eq_joinWithSpace (middle ++ [last]) (Qt.trimmed first)
  rw [List.foldl_append] at hfold
  simp only [List.foldl_cons, List.foldl_nil] at hfold
  have hjoin : joinTrimmed (first :: (middle ++ [last]))
      = joinWithSpace (Qt.trimmed first
          :: ((middle ++ [last]).map Qt.trimmed).filter (fun text => !text.isEmpty)) := by
    unfold joinTrimmed
    have he : (Qt.trimmed first).isEmpty = false := by
      cases h : Qt.trimmed first with
      | nil => exact absurd h hne
      | cons x xs => rfl
    simp [List.filter_cons, he]
  unfold setInfoFromRawComment
  rw [Qt.splitSkipEmpty_joinLines _ hlines, hfilter, processLines,
    processLine_opener store ws first hws hwsp hfn hf hc1,
    processLines_middle store [last ++ ['*', '/']] middle (Qt.trimmed first) hne hc2,
    processLines, processLine_closer store _ last hne2 hc3, processLines, hjoin, ← hfold]
  cases he : store.lupdateExtraComment with
  | nil => simp
  | cons x xs => simp

/-- The extra comment after a sequence of lines `//: t`. -/
theorem foldl_extra :
    ∀ (texts : List (List Char)) (store : TranslationRelatedStore),
      (∀ t ∈ texts, '\n' ∉ t) →
      (texts.foldl (fun s t => setInfoFromRawComment (taggedLine ':' t) s)
          store).lupdateExtraComment
        = joinWithSpace
            ((store.lupdateExtraComment :: texts.map Qt.trimmed).filter
              (fun text => !text.isEmpty)) := by
  intro texts
  induction texts with
  | nil =>
    intro store _
    rw [List.foldl_nil]
    cases he : store.lupdateExtraComment with
    | nil => rfl
    | cons x xs => rfl
  | cons t ts ih =>
    intro store hn
    have hnt : '\n' ∉ t := hn t (List.mem_cons_self _ _)
    rw [List.foldl_cons, ih _ (fun u hu => hn u (List.mem_cons_of_mem _ hu))]
    rcases blank_or_not t with hv | hb
    · have hne := trimmed_ne_nil t hv
      have hte : (Qt.trimmed t).isEmpty = false := by
        cases h : Qt.trimmed t with
        | nil => exact absurd h hne
        | cons x xs => rfl
      rw [setInfoFromRawComment_extra store t hnt hv]
      cases he : store.lupdateExtraComment with
      | nil => simp [List.filter_cons, hte]
      | cons x xs =>
        simp only [List.map_cons, List.filter_cons, hte, reduceCtorEq, if_false,
          List.isEmpty_cons, Bool.not_false, if_true, List.cons_append]
        exact joinWithSpace_cons_append (x :: xs) (Qt.trimmed t) _
    · rw [setInfoFromRawComment_blank store ':' t (by decide) hnt hb,
        List.map_cons, Qt.trimmed_of_blank t hb]
      cases he : store.lupdateExtraComment with
      | nil => simp [List.filter_cons]
      | cons x xs => simp [List.filter_cons]

/-- C11, the claim as stated fails: the text of one blank is not empty and has
one line, and parsing `//:` + blank + that text into a record with the extra
comment `x` leaves `x`, not `x` + one space + the trimmed text. -/
theorem extraComment_blank_text_counterexample :
    ([' '] : List Char) ≠ [] ∧ '\n' ∉ ([' '] : List Char)
      ∧ (setInfoFromRawComment (taggedLine ':' [' '])
          { lupdateExtraComment := ['x'] }).lupdateExtraComment
        ≠ ['x'] ++ ' ' :: Qt.trimmed [' '] := by
  decide

/-- C11, amended. For every record with extra comment E and every single-line
text `t`: if `t` has a character that is no whitespace, parsing the line
`//: t` sets the extra comment to the trimmed `t` when E is empty and to E +
one space + the trimmed `t` otherwise, and changes nothing else; if `t` is
blank, the record stays as it is. So the lines `//: t` of a sequence
accumulate: the extra comment afterwards is E and the trimmed texts that are
not empty, in order, joined by single spaces; and a block comment tagged `:`
adds the joined trimmed texts of its lines to E in the same way. -/
theorem extraComment_accumulates (store : TranslationRelatedStore) (t : List Char)
    (hn : '\n' ∉ t) :
    ((∃ c ∈ t, Qt.isSpace c = false) →
        setInfoFromRawComment (taggedLine ':' t) store =
          { store with
              lupdateExtraComment :=
                if store.lupdateExtraComment = [] then Qt.trimmed t
                else store.lupdateExtraComment ++ ' ' :: Qt.trimmed t })
      ∧ ((∀ c ∈ t, Qt.isSpace c = true) →
        setInfoFromRawComment (taggedLine ':' t) store = store)
      ∧ (∀ texts : List (List Char), (∀ u ∈ texts, '\n' ∉ u) →
        (texts.foldl (fun s u => setInfoFromRawComment (taggedLine ':' u) s)
            store).lupdateExtraComment
          = joinWithSpace
              ((store.lupdateExtraComment :: texts.map Qt.trimmed).filter
                (fun text => !text.isEmpty)))
      ∧ (∀ (ws first : List Char) (middle : List (List Char)) (last : List Char),
        ws ≠ [] → (∀ c ∈ ws, Regex.isSpace c = true) → '\n' ∉ ws →
        '\n' ∉ first → (∃ c ∈ first, Qt.isSpace c = false) →
        (∀ line ∈ middle, '\n' ∉ line) → '\n' ∉ last →
        ¬ hasCloser (ws ++ first) → (∀ line ∈ middle, ¬ hasCloser line) → ¬ hasCloser last →
        setInfoFromRawComment (joinLines (blockCommentLines ws first middle last)) store
          = { store with
                lupdateExtraComment :=
                  if store.lupdateExtraComment = [] then
                    joinTrimmed (first :: (middle ++ [last]))
                  else store.lupdateExtraComment
                    ++ ' ' :: joinTrimmed (first :: (middle ++ [last])) }) :=
  ⟨setInfoFromRawComment_extra store t hn,
    setInfoFromRawComment_blank store ':' t (by decide) hn,
    fun texts h => foldl_extra texts store h,
    blockComment_on_store store⟩

/-- C11, amended, on the record with the extra comment `first part`: the line
`//: second part ` makes it `first part second part`. -/
theorem extraComment_accumulates_witness :
    '\n' ∉ "second part ".toList
      ∧ setInfoFromRawComment (taggedLine ':' "second part ".toList)
          { lupdateExtraComment := "first part".toList }
        = { lupdateExtraComment := "first part second part".toList } :=
  ⟨by decide,
    (extraComment_accumulates { lupdateExtraComment := "first part".toList }
      "second part ".toList (by decide)).1 ⟨'s', by decide, by decide⟩⟩

/-- C12, the claim as stated fails: the text of one blank is not empty and has
one line, and parsing `//=` + blank + that text into a record with the ID meta
data `x` leaves `x`, not the trimmed text. -/
theorem idMetaData_blank_text_counterexample :
    ([' '] : List Char) ≠ [] ∧ '\n' ∉ ([' '] : List Char)
      ∧ (setInfoFromRawComment (taggedLine '=' [' '])
          { lupdateIdMetaData := ['x'] }).lupdateIdMetaData
        ≠ Qt.trimmed [' '] := by
  decide

/-- C12, amended. For every record, whatever its ID meta data, and every
single-line text `t`: if `t` has a character that is no whitespace, parsing
the line `//= t` sets the ID meta data to exactly the trimmed `t` and changes
nothing else; if `t` is blank, the record stays as it is. After several lines
`//= u` that end with the line of a text `t` that is not blank, the ID meta
data is the trimmed `t`. -/
theorem idMetaData_last_wins (store : TranslationRelatedStore) (t : List Char)
    (hn : '\n' ∉ t) :
    ((∃ c ∈ t, Qt.isSpace c = false) →
        setInfoFromRawComment (taggedLine '=' t) store =
          { store with lupdateIdMetaData := Qt.trimmed t })
      ∧ ((∀ c ∈ t, Qt.isSpace c = true) →
        setInfoFromRawComment (taggedLine '=' t) store = store)
      ∧ ((∃ c ∈ t, Qt.isSpace c = false) → ∀ texts : List (List Char),
        ((texts ++ [t]).foldl (fun s u => setInfoFromRawComment (taggedLine '=' u) s)
            store).lupdateIdMetaData = Qt.trimmed t) := by
  refine ⟨setInfoFromRawComment_idMeta store t hn,
    setInfoFromRawComment_blank store '=' t (by decide) hn, ?_⟩
  intro hv texts
  rw [List.foldl_append, List.foldl_cons, List.foldl_nil,
    setInfoFromRawComment_idMeta _ t hn hv]

/-- C12, amended, on the record with the ID meta data `old`: the line
`//= new value ` makes it `new value`. -/
theorem idMetaData_last_wins_witness :
    '\n' ∉ "new value ".toList
      ∧ setInfoFromRawComment (taggedLine '=' "new value ".toList)
          { lupdateIdMetaData := "old".toList }
        = { lupdateIdMetaData := "new value".toList } :=
  ⟨by decide,
    (idMetaData_last_wins { lupdateIdMetaData := "old".toList } "new value ".toList
      (by decide)).1 ⟨'n', by decide, by decide⟩⟩

/-- C14. For every record and every single line that starts with `//` and is
not of the form `//` + one of `:`, `=`, `~`, `%` + at least one whitespace
character + non-empty text, `setInfoFromRawComment` on that line leaves the
record as it is. -/
theorem malformed_tag_line_ignored (store : TranslationRelatedStore) (line : List Char)
    (hstart : Qt.startsWith line ['/', '/'] = true) (hn : '\n' ∉ line)
    (hform : ¬ isTaggedLineForm line) :
    setInfoFromRawComment line store = store := by
  obtain ⟨r, rfl⟩ : ∃ r, line = '/' :: '/' :: r := by
    unfold Qt.startsWith at hstart
    obtain ⟨r, hr⟩ := List.isPrefixOf_iff_prefix.mp hstart
    exact ⟨r, hr.symm⟩
  rw [setInfoFromRawComment_one_line store _ (by simp) hn]
  have htl : Qt.trimmed ('/' :: '/' :: r) = '/' :: '/' :: Qt.trimRight Qt.isSpace r := by
    rw [Qt.trimmed_cons_of_neg _ _ (by decide), Qt.trimRight_cons_of_neg _ _ _ (by decide)]
  obtain ⟨b, hb, _⟩ := Qt.trimRight_append_rest Qt.isSpace r
  have hcpp : LupdatePrivate.cppStyle ('/' :: '/' :: Qt.trimRight Qt.isSpace r) = none := by
    cases htr : Qt.trimRight Qt.isSpace r with
    | nil => rfl
    | cons i0 rest =>
      unfold LupdatePrivate.cppStyle
      by_cases hid : LupdatePrivate.isIdentifier i0 = true
      · simp only [hid, if_true]
        cases hsp : Regex.spacePlus Regex.dotPlusEnd rest with
        | none => rfl
        | some c =>
          exfalso
          obtain ⟨sp, d, cs, hrest, hspace⟩ :=
            Regex.spacePlus_some Regex.dotPlusEnd Regex.dotPlusEnd_nil rest c hsp
          apply hform
          refine ⟨i0, sp, d :: cs ++ b, ?_, hid, hspace, by simp⟩
          rw [hb, htr, hrest]
          rfl
      · simp [hid]
  have hcap : LupdatePrivate.capture LupdatePrivate.cppStyle
      ('/' :: '/' :: Qt.trimRight Qt.isSpace r) = (false, [], []) := by
    unfold LupdatePrivate.capture
    rw [hcpp]
  have hs : Qt.startsWith ('/' :: '/' :: Qt.trimRight Qt.isSpace r) ['/', '/'] = true := by
    simp [Qt.startsWith]
  unfold processLine
  simp only [htl, hs, hcap]
  rfl

/-- C14 on a record with an extra comment and ID meta data: the line
`//:no blank` has no whitespace behind its marker and changes nothing. -/
theorem malformed_tag_line_ignored_witness :
    Qt.startsWith "//:no blank".toList ['/', '/'] = true ∧ '\n' ∉ "//:no blank".toList
      ∧ ¬ isTaggedLineForm "//:no blank".toList
      ∧ setInfoFromRawComment "//:no blank".toList
          { lupdateExtraComment := "kept".toList, lupdateIdMetaData := "id".toList }
        = { lupdateExtraComment := "kept".toList, lupdateIdMetaData := "id".toList } :=
  have hform : ¬ isTaggedLineForm "//:no blank".toList := by
    rintro ⟨marker, space, rest, h, -, hs, -⟩
    have h2 : space = 'n' := by
      injection h with _ h
      injection h with _ h
      injection h with _ h
      injection h with h _
      exact h.symm
    rw [h2] at hs
    exact absurd hs (by decide)
  ⟨by decide, by decide, hform,
    malformed_tag_line_ignored _ "//:no blank".toList (by decide) (by decide) hform⟩

end LupdateVisitor

/-! ## Block comments tagged `%` -/

namespace Qt

theorem endsWith_closer_concat (s : List Char) (y : Char) (hy : y ≠ '/') :
    endsWith (s ++ [y]) ['*', '/'] = false := by
  rw [Bool.eq_false_iff]
  intro hh
  obtain ⟨t, ht⟩ := List.isSuffixOf_iff_suffix.mp hh
  have h2 := congrArg List.reverse ht
  simp only [List.reverse_append, List.reverse_cons, List.reverse_nil, List.nil_append,
    List.singleton_append, List.cons_append] at h2
  injection h2 with h3 _
  exact hy h3.symm

theorem not_hasCloser_quoted (trail : List Char) (ht : ∀ c ∈ trail, isSpace c = true) :
    ∀ piece : List Char, ¬ hasCloser piece → ¬ hasCloser (piece ++ '"' :: trail) := by
  intro piece
  induction piece with
  | nil =>
    intro _ h
    unfold hasCloser at h
    rcases List.infix_cons_iff.mp h with h | h
    · simp [List.cons_prefix_cons] at h
    · have := ht '*' (h.subset (by simp))
      exact absurd this (by decide)
  | cons c cs ih =>
    intro hp h
    have hcs : ¬ hasCloser cs := fun hh => hp (hh.trans (List.suffix_cons c cs).isInfix)
    unfold hasCloser at h
    rw [List.cons_append] at h
    rcases List.infix_cons_iff.mp h with h | h
    · cases cs with
      | nil =>
        simp [List.cons_prefix_cons] at h
      | cons d ds =>
        rw [List.cons_append, List.cons_prefix_cons, List.cons_prefix_cons] at h
        apply hp
        exact ⟨[], ds, by rw [← h.1, ← h.2.1]; rfl⟩
    · exact ih hcs h

end Qt

namespace LupdateVisitor

theorem isCore_quoted (piece : List Char) : Qt.IsCore ('"' :: (piece ++ ['"'])) :=
  ⟨⟨'"', piece ++ ['"'], rfl, by decide⟩, ⟨'"' :: piece, '"', rfl, by decide⟩⟩

theorem text_eq (l : QuotedLine) :
    l.text = l.lead ++ ('"' :: (l.piece ++ ['"'])) ++ l.trail := by
  simp [QuotedLine.text]

theorem trimmed_quotedLine (l : QuotedLine) (h : l.isLine) :
    Qt.trimmed l.text = '"' :: (l.piece ++ ['"']) := by
  rw [text_eq]
  exact Qt.trimmed_of_core_between _ _ _ h.1 h.2.1 (isCore_quoted l.piece)

theorem quoted_no_newline (l : QuotedLine) (h : l.isLine) : '\n' ∉ '"' :: (l.piece ++ ['"']) := by
  intro hm
  apply h.2.2
  rw [text_eq]
  simp only [List.mem_append]
  exact Or.inl (Or.inr hm)

/-- The first line of a block comment tagged `%`, read by the loop body: the
multi line mode starts with the piece of the line as the comment. -/
theorem processLine_source_opener (store : TranslationRelatedStore) (first : QuotedLine)
    (hlead : first.lead ≠ []) (hleadsp : ∀ c ∈ first.lead, Regex.isSpace c = true)
    (hfirst : first.isLine) :
    processLine {} store ('/' :: '*' :: '%' :: first.text) =
      ({ save := false, sawStarPrefix := true, sourceIdentifier := true,
         comment := first.piece, identifier := ['%'] }, store) := by
  obtain ⟨w0, ws1, hw⟩ := List.exists_cons_of_ne_nil hlead
  have htl : Qt.trimmed ('/' :: '*' :: '%' :: first.text)
      = '/' :: '*' :: '%' :: (first.lead ++ '"' :: (first.piece ++ ['"'])) := by
    rw [Qt.trimmed_cons_of_neg _ _ (by decide)]
    have e1 : '*' :: '%' :: first.text
        = ('*' :: '%' :: (first.lead ++ '"' :: first.piece)) ++ ['"'] ++ first.trail := by
      simp [QuotedLine.text]
    rw [e1, Qt.trimRight_append_blank _ _ _ hfirst.2.1,
      Qt.trimRight_concat_of_neg Qt.isSpace _ '"' (by decide)]
    simp
  have hend : Qt.endsWith ('/' :: '*' :: '%' :: (first.lead ++ '"' :: (first.piece ++ ['"'])))
      ['*', '/'] = false := by
    have e : '/' :: '*' :: '%' :: (first.lead ++ '"' :: (first.piece ++ ['"']))
        = ('/' :: '*' :: '%' :: (first.lead ++ '"' :: first.piece)) ++ ['"'] := by simp
    rw [e]
    exact Qt.endsWith_closer_concat _ '"' (by decide)
  have hs1 : Qt.startsWith ('/' :: '*' :: '%' :: (first.lead ++ '"' :: (first.piece ++ ['"'])))
      ['/', '/'] = false := rfl
  have hs2 : Qt.startsWith ('/' :: '*' :: '%' :: (first.lead ++ '"' :: (first.piece ++ ['"'])))
      ['/', '*'] = true := rfl
  have hid : LupdatePrivate.idefix
      ('/' :: '*' :: '%' :: (first.lead ++ '"' :: (first.piece ++ ['"']))) = some ['%'] := by
    simp [LupdatePrivate.idefix, LupdatePrivate.isIdentifier]
  have hsize : Qt.size ('/' :: '*' :: '%' :: (first.lead ++ '"' :: (first.piece ++ ['"']))) > 4 := by
    have h1 := Qt.length_le_size
      ('/' :: '*' :: '%' :: (first.lead ++ '"' :: (first.piece ++ ['"'])))
    rw [hw] at h1 ⊢
    simp only [List.length_cons, List.length_append] at h1
    omega
  have hxn := quoted_no_newline first hfirst
  have hdrop : (first.lead ++ '"' :: (first.piece ++ ['"'])).dropWhile Regex.isSpace
      = '"' :: (first.piece ++ ['"']) := by
    rw [List.dropWhile_append_of_pos hleadsp, List.dropWhile_cons_of_neg (by decide)]
  have hmb : LupdatePrivate.cStyleMultiBegin
      ('/' :: '*' :: '%' :: (first.lead ++ '"' :: (first.piece ++ ['"'])))
      = some (['%'], '"' :: (first.piece ++ ['"'])) := by
    unfold LupdatePrivate.cStyleMultiBegin
    have hid2 : LupdatePrivate.isIdentifier '%' = true := by decide
    simp only [hid2, if_true]
    have hw0 : Regex.isSpace w0 = true := hleadsp w0 (by rw [hw]; simp)
    have e : first.lead ++ '"' :: (first.piece ++ ['"'])
        = w0 :: (ws1 ++ '"' :: (first.piece ++ ['"'])) := by
      rw [hw]; rfl
    rw [e] at hdrop ⊢
    rw [Regex.spacePlus_eq _ _ w0 hw0
      (by rw [hdrop, Regex.dotStarEnd_of_not_mem _ hxn]; rfl), hdrop,
      Regex.dotStarEnd_of_not_mem _ hxn]
    rfl
  have hcap : LupdatePrivate.capture LupdatePrivate.cStyleMultiBegin
      ('/' :: '*' :: '%' :: (first.lead ++ '"' :: (first.piece ++ ['"'])))
      = (!first.piece.isEmpty, ['%'], first.piece) := by
    unfold LupdatePrivate.capture
    rw [hmb]
    simp only [if_true, LupdatePrivate.trimmed_quoted, LupdatePrivate.cleanQuote_quoted]
  unfold processLine
  simp only [htl, hs1, hs2, hend, hid, hcap]
  simp [saveComment, hsize]

/-- A line inside a block comment tagged `%`, read by the loop body: its piece
is added to the comment without a separator. -/
theorem processLine_source_middle (store : TranslationRelatedStore) (c : List Char)
    (l : QuotedLine) (hl : l.isLine) :
    processLine
        { save := false, sawStarPrefix := true, sourceIdentifier := true, comment := c,
          identifier := ['%'] } store l.text =
      ({ save := false, sawStarPrefix := true, sourceIdentifier := true,
         comment := c ++ l.piece, identifier := ['%'] }, store) := by
  have htl := trimmed_quotedLine l hl
  have hend : Qt.endsWith ('"' :: (l.piece ++ ['"'])) ['*', '/'] = false := by
    have e : '"' :: (l.piece ++ ['"']) = ('"' :: l.piece) ++ ['"'] := by simp
    rw [e]
    exact Qt.endsWith_closer_concat _ '"' (by decide)
  have hcq := LupdatePrivate.cleanQuote_quoted l.piece LupdatePrivate.QuoteCompulsary.Left
  unfold processLine
  simp only [continuationComment, continuationText, htl, hend]
  simp [saveComment, hcq]

/-- The last line of a block comment tagged `%`, read by the loop body: its
piece is added to the comment, and the comment goes to the end of the source
text override of the record. -/
theorem processLine_source_closer (store : TranslationRelatedStore) (c : List Char)
    (l : QuotedLine) (hl : l.isLine) (hclose : ¬ hasCloser l.piece) :
    (processLine
        { save := false, sawStarPrefix := true, sourceIdentifier := true, comment := c,
          identifier := ['%'] } store (l.text ++ ['*', '/'])).2 =
      { store with lupdateSourceWhenId := store.lupdateSourceWhenId ++ (c ++ l.piece) } := by
  have htl : Qt.trimmed (l.text ++ ['*', '/'])
      = ('"' :: (l.piece ++ '"' :: l.trail)) ++ ['*', '/'] := by
    unfold Qt.trimmed QuotedLine.text
    rw [List.append_assoc, List.dropWhile_append_of_pos hl.1, List.cons_append,
      List.dropWhile_cons_of_neg (by decide)]
    have e : '"' :: ((l.piece ++ '"' :: l.trail) ++ ['*', '/'])
        = ('"' :: (l.piece ++ '"' :: l.trail)) ++ (['*'] ++ ['/']) := by simp
    rw [e]
    exact Qt.trimRight_append_concat Qt.isSpace _ ['*'] '/' (by decide)
  have hend : Qt.endsWith (('"' :: (l.piece ++ '"' :: l.trail)) ++ ['*', '/']) ['*', '/']
      = true := by
    unfold Qt.endsWith
    exact List.isSuffixOf_iff_suffix.mpr (List.suffix_append _ _)
  have hnc : ¬ hasCloser ('"' :: (l.piece ++ '"' :: l.trail)) := by
    intro h
    unfold hasCloser at h
    rcases List.infix_cons_iff.mp h with h | h
    · simp [List.cons_prefix_cons] at h
    · exact Qt.not_hasCloser_quoted l.trail hl.2.1 l.piece hclose h
  have hrm := Qt.removeCloser_append_closer _ hnc
  have htr : Qt.trimmed ('"' :: (l.piece ++ '"' :: l.trail)) = '"' :: (l.piece ++ ['"']) := by
    have := Qt.trimmed_of_core_between [] ('"' :: (l.piece ++ ['"'])) l.trail (by simp) hl.2.1
      (isCore_quoted l.piece)
    simpa using this
  have hcq := LupdatePrivate.cleanQuote_quoted l.piece LupdatePrivate.QuoteCompulsary.Left
  unfold processLine
  simp only [continuationComment, continuationText, htl, hend, hrm, htr]
  by_cases he : (c ++ l.piece).isEmpty = true
  · have he0 : c ++ l.piece = [] := List.isEmpty_iff.mp he
    have hc0 : c = [] := (List.append_eq_nil.mp he0).1
    have hp0 : l.piece = [] := (List.append_eq_nil.mp he0).2
    simp only [if_true, hcq]
    simp [saveComment, hc0, hp0]
  · have he2 : (c ++ l.piece).isEmpty = false := by simpa using he
    simp only [if_true, hcq, he2]
    simp [saveComment, he2]

/-- The lines inside a block comment tagged `%`, read by the loop. -/
theorem processLines_source_middle (store : TranslationRelatedStore) (rest : List (List Char)) :
    ∀ (middle : List QuotedLine) (c : List Char), (∀ l ∈ middle, l.isLine) →
      processLines
          { save := false, sawStarPrefix := true, sourceIdentifier := true, comment := c,
            identifier := ['%'] } store (middle.map QuotedLine.text ++ rest) =
        processLines
          { save := false, sawStarPrefix := true, sourceIdentifier := true,
            comment := c ++ concatAll (middle.map QuotedLine.piece),
            identifier := ['%'] } store rest := by
  intro middle
  induction middle with
  | nil => intro c _; simp [concatAll]
  | cons m ms ih =>
    intro c h
    simp only [List.map_cons, List.cons_append, processLines]
    rw [processLine_source_middle store c m (h m (List.mem_cons_self _ _))]
    refine (ih (c ++ m.piece) (fun l hl => h l (List.mem_cons_of_mem _ hl))).trans ?_
    simp [concatAll]

theorem text_ne_nil (l : QuotedLine) : l.text ≠ [] := by
  unfold QuotedLine.text
  cases l.lead <;> simp

/-- C13. For every block comment tagged `%` whose lines each hold one
double-quoted piece between whitespace (`/*%`, whitespace and the first piece
on the first line, the closer `*/` behind the last piece), and for every
record, `setInfoFromRawComment` appends to the source text override of the
record the pieces, their quotes stripped, one after the other without a
separator, and changes nothing else; what the record held of earlier `%`
contributions stays in front, without a separator either. -/
theorem sourceTextWhenId_block (store : TranslationRelatedStore) (first : QuotedLine)
    (middle : List QuotedLine) (last : QuotedLine)
    (hlead : first.lead ≠ []) (hleadsp : ∀ c ∈ first.lead, Regex.isSpace c = true)
    (hfirst : first.isLine) (hmiddle : ∀ l ∈ middle, l.isLine) (hlast : last.isLine)
    (hclose : ¬ hasCloser last.piece) :
    setInfoFromRawComment (joinLines (sourceBlockLines first middle last)) store
      = { store with
            lupdateSourceWhenId :=
              store.lupdateSourceWhenId
                ++ concatAll ((first :: (middle ++ [last])).map QuotedLine.piece) } := by
  have hlines : ∀ line ∈ sourceBlockLines first middle last, '\n' ∉ line := by
    intro line hl
    unfold sourceBlockLines at hl
    rcases List.mem_cons.mp hl with rfl | hl
    · simp only [List.mem_cons, not_or]
      exact ⟨by decide, by decide, by decide, hfirst.2.2⟩
    · rcases List.mem_append.mp hl with hl | hl
      · obtain ⟨l, hlm, rfl⟩ := List.mem_map.mp hl
        exact (hmiddle l hlm).2.2
      · rw [List.mem_singleton] at hl
        subst hl
        simp only [List.mem_append, List.mem_cons, not_or]
        exact ⟨hlast.2.2, by decide, by decide, by simp⟩
  have hfilter : (sourceBlockLines first middle last).filter (fun line => !line.isEmpty)
      = sourceBlockLines first middle last := by
    apply List.filter_eq_self.mpr
    intro line hl
    unfold sourceBlockLines at hl
    rcases List.mem_cons.mp hl with rfl | hl
    · rfl
    · rcases List.mem_append.mp hl with hl | hl
      · obtain ⟨l, _, rfl⟩ := List.mem_map.mp hl
        cases h : l.text with
        | nil => exact absurd h (text_ne_nil l)
        | cons x xs => rfl
      · rw [List.mem_singleton] at hl
        subst hl
        cases h : last.text with
        | nil => exact absurd h (text_ne_nil last)
        | cons x xs => rfl
  have hcat : concatAll ((first :: (middle ++ [last])).map QuotedLine.piece)
      = first.piece ++ concatAll (middle.map QuotedLine.piece) ++ last.piece := by
    have happ : ∀ (xs : List (List Char)) (y : List Char),
        concatAll (xs ++ [y]) = concatAll xs ++ y := by
      intro xs y
      induction xs with
      | nil => simp [concatAll]
      | cons x xs ih => simp [concatAll, ih]
    rw [List.map_cons, List.map_append, List.map_cons, List.map_nil, concatAll, happ,
      List.append_assoc]
  unfold setInfoFromRawComment
  rw [Qt.splitSkipEmpty_joinLines _ hlines, hfilter]
  unfold sourceBlockLines
  rw [processLines, processLine_source_opener store first hlead hleadsp hfirst,
    processLines_source_middle store _ middle first.piece hmiddle, processLines, processLines,
    processLine_source_closer store _ last hlast hclose, hcat]

/-- C13 on the comment `/*% "a"`, newline, `"b" */`: the source text override
`x` of the record becomes `xab`. -/
theorem sourceTextWhenId_block_witness :
    setInfoFromRawComment "/*% \"a\"\n\"b\" */".toList { lupdateSourceWhenId := ['x'] }
      = { lupdateSourceWhenId := "xab".toList } :=
  sourceTextWhenId_block { lupdateSourceWhenId := ['x'] }
    { lead := [' '], piece := ['a'] } [] { piece := ['b'], trail := [' '] }
    (by decide) (by decide) (by decide) (by decide) (by decide) (by decide)

/-- C15, evaluated: in the comment `/*:  */`, newline, `/* plain`, newline,
`text */` the block of the last two lines opens without a marker, and its text
`text` goes to the extra comment of the record; in the comment `//% abc`,
newline, `/* note`, newline, `more */` the text `more` of such a block goes to
the source text override. -/
theorem markerless_block_evaluation :
    (setInfoFromRawComment "/*:  */\n/* plain\ntext */".toList {}).lupdateExtraComment
        = "text".toList
      ∧ setInfoFromRawComment "/*:  */".toList {} = {}
      ∧ (setInfoFromRawComment "//% abc\n/* note\nmore */".toList {}).lupdateSourceWhenId
        = "more".toList
      ∧ setInfoFromRawComment "/* plain\ntext */".toList {} = {} := by
  decide

end LupdateVisitor

/-! ## The signature parser and the function node -/

namespace QmlSignatureParser

theorem withNode_self (p : QmlSignatureParser) : withNode p p.func_ p.location_ = p := rfl

theorem tok_withNode (p : QmlSignatureParser) (x : FunctionNode) (y : Nat) :
    (withNode p x y).tok_ = p.tok_ := rfl

theorem fuel_withNode (p : QmlSignatureParser) (x : FunctionNode) (y : Nat) :
    fuel (withNode p x y) = fuel p := rfl

theorem tokenizer_withNode (p : QmlSignatureParser) (x : FunctionNode) (y : Nat) :
    (withNode p x y).tokenizer_ = p.tokenizer_ := rfl

theorem signature_withNode (p : QmlSignatureParser) (x : FunctionNode) (y : Nat) :
    (withNode p x y).signature_ = p.signature_ := rfl

theorem previousLexeme_withNode (p : QmlSignatureParser) (x : FunctionNode) (y : Nat) :
    previousLexeme (withNode p x y) = previousLexeme p := rfl

theorem lexeme_withNode (p : QmlSignatureParser) (x : FunctionNode) (y : Nat) :
    lexeme (withNode p x y) = lexeme p := rfl

theorem readToken_withNode (p : QmlSignatureParser) (x : FunctionNode) (y : Nat) :
    readToken (withNode p x y) = withNode (readToken p) x y := rfl

theorem matchWhile_withNode (targets : List Tok) (x : FunctionNode) (y : Nat) :
    ∀ (n : Nat) (p : QmlSignatureParser) (type : List Char) (m : Bool),
      matchWhile targets n (withNode p x y) type m
        = (withNode (matchWhile targets n p type m).1 x y, (matchWhile targets n p type m).2) := by
  intro n
  induction n with
  | zero => intro p type m; rfl
  | succ n ih =>
    intro p type m
    by_cases h : p.tok_ ∈ targets
    · have h2 : (withNode p x y).tok_ ∈ targets := h
      rw [matchWhile, if_pos h2, matchWhile, if_pos h, readToken_withNode, ih]
      rfl
    · have h2 : ¬ (withNode p x y).tok_ ∈ targets := h
      rw [matchWhile, if_neg h2, matchWhile, if_neg h]

theorem matchTypePart_withNode (p : QmlSignatureParser) (x : FunctionNode) (y : Nat)
    (type : List Char) :
    matchTypePart (withNode p x y) type
      = ((matchTypePart p type).1, withNode (matchTypePart p type).2.1 x y,
          (matchTypePart p type).2.2) := by
  unfold matchTypePart
  simp only [tok_withNode, fuel_withNode, matchWhile_withNode]
  by_cases h : p.tok_ ≠ Tok_Ident
  · simp only [if_pos h, tok_withNode, readToken_withNode, previousLexeme_withNode]
    split_ifs <;> rfl
  · simp only [if_neg h, tok_withNode, readToken_withNode, previousLexeme_withNode]
    split_ifs <;> rfl

theorem matchQualified_withNode (x : FunctionNode) (y : Nat) :
    ∀ (n : Nat) (p : QmlSignatureParser) (type : List Char),
      matchQualified n (withNode p x y) type
        = ((matchQualified n p type).1, withNode (matchQualified n p type).2.1 x y,
            (matchQualified n p type).2.2) := by
  intro n
  induction n with
  | zero => intro p type; rfl
  | succ n ih =>
    intro p type
    rw [matchQualified, matchQualified, matchTypePart_withNode]
    simp only [tok_withNode, readToken_withNode, previousLexeme_withNode, ih]
    split_ifs <;> rfl

theorem matchBrackets_withNode (bracketDepth0 : Int) (x : FunctionNode) (y : Nat) :
    ∀ (n : Nat) (p : QmlSignatureParser) (type : List Char),
      matchBrackets bracketDepth0 n (withNode p x y) type
        = (withNode (matchBrackets bracketDepth0 n p type).1 x y,
            (matchBrackets bracketDepth0 n p type).2) := by
  intro n
  induction n with
  | zero => intro p type; rfl
  | succ n ih =>
    intro p type
    rw [matchBrackets, matchBrackets]
    simp only [tok_withNode, tokenizer_withNode, readToken_withNode, lexeme_withNode, ih]
    split_ifs <;> rfl

theorem matchTypeAndName_withNode (p : QmlSignatureParser) (x : FunctionNode) (y : Nat)
    (type : List Char) (var : Option (List Char)) :
    matchTypeAndName (withNode p x y) type var
      = ((matchTypeAndName p type var).1, withNode (matchTypeAndName p type var).2.1 x y,
          (matchTypeAndName p type var).2.2) := by
  unfold matchTypeAndName
  simp only [fuel_withNode, matchQualified_withNode, matchWhile_withNode, tok_withNode]
  by_cases h1 : (!(matchQualified (fuel p) p type).1) = true
  · simp only [if_pos h1]
  · simp only [if_neg h1]
    rcases Bool.eq_false_or_eq_true (var.isSome
        && decide ((matchWhile [Tok_Ampersand, Tok_Aster, Tok_const, Tok_Caret]
          (fuel (matchQualified (fuel p) p type).2.1) (matchQualified (fuel p) p type).2.1
          (matchQualified (fuel p) p type).2.2 false).1.tok_ = Tok_Ident)) with h2 | h2
    · simp only [h2, if_true, readToken_withNode, tok_withNode, tokenizer_withNode,
        fuel_withNode, matchBrackets_withNode, previousLexeme_withNode]
      split_ifs <;> rfl
    · simp only [h2, Bool.false_eq_true, if_false, readToken_withNode, tok_withNode,
        tokenizer_withNode, fuel_withNode, matchBrackets_withNode, previousLexeme_withNode]
      split_ifs <;> rfl

theorem matchNames_withNode (x : FunctionNode) (y : Nat) :
    ∀ (n : Nat) (p : QmlSignatureParser),
      matchNames n (withNode p x y) = withNode (matchNames n p) x y := by
  intro n
  induction n with
  | zero => intro p; rfl
  | succ n ih =>
    intro p
    rw [matchNames, matchNames]
    simp only [tok_withNode, readToken_withNode]
    split_ifs
    · exact ih { readToken (readToken p) with
        names_ := (readToken p).names_ ++ [previousLexeme (readToken p)] }
    · rfl
    · rfl

theorem matchFunctionHead_withNode (p : QmlSignatureParser) (x : FunctionNode) (y : Nat) :
    matchFunctionHead (withNode p x y)
      = ((matchFunctionHead p).1, withNode (matchFunctionHead p).2.1 x y,
          (matchFunctionHead p).2.2) := by
  unfold matchFunctionHead
  simp only [signature_withNode, matchTypeAndName_withNode]
  split_ifs <;> simp only [fuel_withNode, matchNames_withNode, tok_withNode]


/-- The function `matchFunctionDecl` as its two parts: up to the test of
`Tok_LeftParen`, and from there on. -/
theorem matchFunctionDecl_eq (p : QmlSignatureParser) :
    matchFunctionDecl p
      = if (matchFunctionHead p).1 = true then
          matchFunctionTail (matchFunctionHead p).2.1 (matchFunctionHead p).2.2
        else (false, (matchFunctionHead p).2.1) := by
  unfold matchFunctionDecl matchFunctionHead
  simp only []
  generalize (if Qt.indexOf ' ' p.signature_ > 0
        ∧ Qt.indexOf '(' p.signature_ - Qt.indexOf ' ' p.signature_ > 1 then
      matchTypeAndName p [] none
    else (true, p, [], none)) = t
  rcases Bool.eq_false_or_eq_true t.1 with ht | ht
  · by_cases hl : (matchNames (fuel t.2.1) t.2.1).tok_ = Tok_LeftParen
    · simp only [ht, Bool.not_true, Bool.false_eq_true, if_false, hl, ne_eq, not_true_eq_false,
        decide_True, if_true]
      rfl
    · simp only [ht, Bool.not_true, Bool.false_eq_true, if_false, hl, ne_eq, not_false_eq_true,
        decide_False, if_true]
  · simp only [ht, Bool.not_false, if_true, Bool.false_eq_true, if_false]

theorem matchFunctionHead_func (p : QmlSignatureParser) :
    (matchFunctionHead p).2.1.func_ = p.func_
      ∧ (matchFunctionHead p).2.1.location_ = p.location_ := by
  have h := matchFunctionHead_withNode p p.func_ p.location_
  rw [withNode_self] at h
  constructor
  · have h2 := congrArg (fun r => r.2.1.func_) h
    exact h2
  · have h2 := congrArg (fun r => r.2.1.location_) h
    exact h2

theorem matchTypeAndName_func (p : QmlSignatureParser) (type : List Char)
    (var : Option (List Char)) : (matchTypeAndName p type var).2.1.func_ = p.func_ := by
  have h := matchTypeAndName_withNode p p.func_ p.location_ type var
  rw [withNode_self] at h
  exact congrArg (fun r => r.2.1.func_) h

theorem matchDefaultValue_func (parenDepth0 : Int) :
    ∀ (n : Nat) (p : QmlSignatureParser) (defaultValue : List Char),
      (matchDefaultValue parenDepth0 n p defaultValue).1.func_ = p.func_ := by
  intro n
  induction n with
  | zero => intro p defaultValue; rfl
  | succ n ih =>
    intro p defaultValue
    rw [matchDefaultValue]
    split_ifs
    · exact ih _ _
    · rfl

/-- The function `matchParameter` writes the parameters of the node only. -/
theorem matchParameter_func (p : QmlSignatureParser) :
    (matchParameter p).2.func_.location = p.func_.location
      ∧ (matchParameter p).2.func_.returnType = p.func_.returnType := by
  have h1 := matchTypeAndName_func p [] (some [])
  have h3 : (matchDefaultValue (readToken (matchTypeAndName p [] (some [])).2.1).tokenizer_.parenDepth
      (fuel (matchTypeAndName p [] (some [])).2.1)
      (readToken (matchTypeAndName p [] (some [])).2.1) []).1.func_ = p.func_ :=
    (matchDefaultValue_func _ _ _ _).trans h1
  have a1 := congrArg FunctionNode.location h1
  have a2 := congrArg FunctionNode.returnType h1
  have b1 := congrArg FunctionNode.location h3
  have b2 := congrArg FunctionNode.returnType h3
  unfold matchParameter
  simp only []
  split_ifs
  all_goals first
    | exact ⟨a1, a2⟩
    | exact ⟨b1, b2⟩

theorem matchParameters_func :
    ∀ (n : Nat) (p : QmlSignatureParser),
      (matchParameters n p).2.func_.location = p.func_.location
        ∧ (matchParameters n p).2.func_.returnType = p.func_.returnType := by
  intro n
  induction n with
  | zero => intro p; exact ⟨rfl, rfl⟩
  | succ n ih =>
    intro p
    have hp := matchParameter_func p
    rw [matchParameters]
    split_ifs
    · exact hp
    · have h := ih (readToken (matchParameter p).2)
      exact ⟨h.1.trans hp.1, h.2.trans hp.2⟩
    · exact hp

/-- The function `matchFunctionDecl` from the opening parenthesis on, when a
token other than the closing parenthesis follows it: the parameters are read
into a node that has nothing of the node before. -/
theorem matchFunctionTail_of_ne (p1 : QmlSignatureParser) (returnType : List Char)
    (htok : (readToken p1).tok_ ≠ Tok_RightParen) :
    matchFunctionTail p1 returnType
      = (if !(matchParameters (fuel (readToken p1))
              { readToken p1 with
                func_ :=
                  { location := p1.location_, returnType := returnType, parameters := [] } }).1
          then (false, (matchParameters (fuel (readToken p1))
              { readToken p1 with
                func_ :=
                  { location := p1.location_, returnType := returnType, parameters := [] } }).2)
          else if (matchParameters (fuel (readToken p1))
              { readToken p1 with
                func_ :=
                  { location := p1.location_, returnType := returnType, parameters := [] } }).2.tok_
              = Tok_RightParen
          then (true, readToken (matchParameters (fuel (readToken p1))
              { readToken p1 with
                func_ :=
                  { location := p1.location_, returnType := returnType, parameters := [] } }).2)
          else (false, (matchParameters (fuel (readToken p1))
              { readToken p1 with
                func_ :=
                  { location := p1.location_, returnType := returnType, parameters := [] } }).2)) := by
  have htok2 : ({ readToken p1 with
      func_ := { (readToken p1).func_ with
        location := (readToken p1).location_, returnType := returnType } }
      : QmlSignatureParser).tok_ ≠ Tok_RightParen := htok
  unfold matchFunctionTail
  simp only []
  rw [if_pos htok2]
  rfl

theorem matchFunctionTail_of_eq (p1 : QmlSignatureParser) (returnType : List Char)
    (htok : (readToken p1).tok_ = Tok_RightParen) :
    matchFunctionTail p1 returnType
      = (true,
          readToken
            { readToken p1 with
              func_ := { (readToken p1).func_ with
                location := p1.location_, returnType := returnType } }) := by
  have htok2 : ¬ ({ readToken p1 with
      func_ := { (readToken p1).func_ with
        location := (readToken p1).location_, returnType := returnType } }
      : QmlSignatureParser).tok_ ≠ Tok_RightParen := fun h => h htok
  have htok3 : ({ readToken p1 with
      func_ := { (readToken p1).func_ with
        location := (readToken p1).location_, returnType := returnType } }
      : QmlSignatureParser).tok_ = Tok_RightParen := htok
  unfold matchFunctionTail
  simp only []
  rw [if_neg htok2]
  simp only [Bool.not_true, Bool.false_eq_true, if_false]
  rw [if_pos htok3]
  rfl

/-- After the opening parenthesis the node has the location of the parser and
the return type that was read, whatever follows. -/
theorem matchFunctionTail_func (p1 : QmlSignatureParser) (returnType : List Char) :
    (matchFunctionTail p1 returnType).2.func_.location = p1.location_
      ∧ (matchFunctionTail p1 returnType).2.func_.returnType = returnType := by
  by_cases htok : (readToken p1).tok_ = Tok_RightParen
  · rw [matchFunctionTail_of_eq p1 returnType htok]
    exact ⟨rfl, rfl⟩
  · rw [matchFunctionTail_of_ne p1 returnType htok]
    have hps := matchParameters_func (fuel (readToken p1))
      { readToken p1 with
        func_ := { location := p1.location_, returnType := returnType, parameters := [] } }
    split_ifs <;> exact hps

/-- A parse that fails after the opening parenthesis leaves nothing of the
node it started on. -/
theorem matchFunctionTail_rejected (p1 : QmlSignatureParser) (x : FunctionNode) (y : Nat)
    (returnType : List Char) (h : (matchFunctionTail (withNode p1 x y) returnType).1 = false)
    (other : FunctionNode) :
    matchFunctionTail (withNode p1 other y) returnType
      = matchFunctionTail (withNode p1 x y) returnType := by
  by_cases htok : (readToken p1).tok_ = Tok_RightParen
  · rw [matchFunctionTail_of_eq (withNode p1 x y) returnType htok] at h
    exact Bool.noConfusion h
  · rw [matchFunctionTail_of_ne (withNode p1 other y) returnType htok,
      matchFunctionTail_of_ne (withNode p1 x y) returnType htok]
    rfl

end QmlSignatureParser

/-- C20, the claim as stated fails: the signature `foo(int a` is rejected, and
the node, which had the location 1, the return type `var` and the parameter
`x`, has the location 2, no return type and the parameter `int a` afterwards;
the branch of `applyDocumentation` has the same node after the accepted
signature `foo(int a)`, and nothing else of the parse. -/
theorem rejected_signature_counterexample :
    (QmlSignatureParser.create
          { location := 1, returnType := "var".toList, parameters := [⟨[], ['x'], []⟩] }
          "foo(int a".toList 2).1 = false
      ∧ applyMethodTopic
          { location := 1, returnType := "var".toList, parameters := [⟨[], ['x'], []⟩] }
          "foo(int a".toList 2
        = { location := 2, returnType := [], parameters := [⟨"int".toList, ['a'], []⟩] }
      ∧ (QmlSignatureParser.create
          { location := 1, returnType := "var".toList, parameters := [⟨[], ['x'], []⟩] }
          "foo(int a)".toList 2).1 = true
      ∧ applyMethodTopic
          { location := 1, returnType := "var".toList, parameters := [⟨[], ['x'], []⟩] }
          "foo(int a)".toList 2
        = applyMethodTopic
          { location := 1, returnType := "var".toList, parameters := [⟨[], ['x'], []⟩] }
          "foo(int a".toList 2 := by
  decide

/-- C20, amended. For every signature text that `QmlSignatureParser` rejects
(`matchFunctionDecl` returns false), the function node, which is all the
branch of `applyDocumentation` has of the parse, is left as it was if the parse
fails before the parameter list, that is, if the return type does not parse or
the token behind the name is not `(`. If the parse fails behind the `(`, the
node has the location of the parser and the return type that was read, and its
parameters are the ones read before the failure: the node is the same
whatever it was before. -/
theorem rejected_signature_node (func : FunctionNode) (signature : List Char) (loc : Nat)
    (hrej : (QmlSignatureParser.create func signature loc).1 = false) :
    ((QmlSignatureParser.matchFunctionHead
          (QmlSignatureParser.start func signature loc)).1 = false →
        applyMethodTopic func signature loc = func)
      ∧ ((QmlSignatureParser.matchFunctionHead
          (QmlSignatureParser.start func signature loc)).1 = true →
        (applyMethodTopic func signature loc).location = loc
          ∧ (applyMethodTopic func signature loc).returnType
            = (QmlSignatureParser.matchFunctionHead
                (QmlSignatureParser.start func signature loc)).2.2
          ∧ ∀ other : FunctionNode,
            applyMethodTopic other signature loc = applyMethodTopic func signature loc) := by
  have hcreate : ∀ fn : FunctionNode, QmlSignatureParser.create fn signature loc
      = QmlSignatureParser.matchFunctionDecl (QmlSignatureParser.start fn signature loc) :=
    fun _ => rfl
  have hhead := QmlSignatureParser.matchFunctionHead_func
    (QmlSignatureParser.start func signature loc)
  have hfunc : (QmlSignatureParser.start func signature loc).func_ = func := rfl
  have hloc : (QmlSignatureParser.start func signature loc).location_ = loc := rfl
  constructor
  · intro hh
    unfold applyMethodTopic
    rw [hcreate, QmlSignatureParser.matchFunctionDecl_eq, hh]
    exact hhead.1.trans hfunc
  · intro hh
    have hd : QmlSignatureParser.create func signature loc
        = QmlSignatureParser.matchFunctionTail
            (QmlSignatureParser.matchFunctionHead
              (QmlSignatureParser.start func signature loc)).2.1
            (QmlSignatureParser.matchFunctionHead
              (QmlSignatureParser.start func signature loc)).2.2 := by
      rw [hcreate, QmlSignatureParser.matchFunctionDecl_eq, if_pos hh]
    have htail := QmlSignatureParser.matchFunctionTail_func
      (QmlSignatureParser.matchFunctionHead (QmlSignatureParser.start func signature loc)).2.1
      (QmlSignatureParser.matchFunctionHead (QmlSignatureParser.start func signature loc)).2.2
    refine ⟨?_, ?_, ?_⟩
    · unfold applyMethodTopic
      rw [hd, htail.1, hhead.2, hloc]
    · unfold applyMethodTopic
      rw [hd, htail.2]
    · intro other
      have hstart : QmlSignatureParser.start other signature loc
          = QmlSignatureParser.withNode (QmlSignatureParser.start func signature loc) other loc :=
        rfl
      have hself : (QmlSignatureParser.matchFunctionHead
            (QmlSignatureParser.start func signature loc)).2.1
          = QmlSignatureParser.withNode
            (QmlSignatureParser.matchFunctionHead
              (QmlSignatureParser.start func signature loc)).2.1 func loc := by
        conv_lhs => rw [← QmlSignatureParser.withNode_self
          (QmlSignatureParser.matchFunctionHead
            (QmlSignatureParser.start func signature loc)).2.1]
        rw [hhead.1, hhead.2, hfunc, hloc]
      have hd2 : QmlSignatureParser.create other signature loc
          = QmlSignatureParser.matchFunctionTail
              (QmlSignatureParser.withNode
                (QmlSignatureParser.matchFunctionHead
                  (QmlSignatureParser.start func signature loc)).2.1 other loc)
              (QmlSignatureParser.matchFunctionHead
                (QmlSignatureParser.start func signature loc)).2.2 := by
        rw [hcreate, QmlSignatureParser.matchFunctionDecl_eq, hstart,
          QmlSignatureParser.matchFunctionHead_withNode]
        simp only [hh, if_true]
      unfold applyMethodTopic
      rw [hd2, hd]
      rw [hd] at hrej
      rw [hself] at hrej
      rw [QmlSignatureParser.matchFunctionTail_rejected _ func loc _ hrej other, ← hself]

/-- C20, amended, on a node with the location 1, the return type `var` and the
parameter `x`: the signature `foo bar` is rejected before the parameter list
and leaves the node as it was; the signature `foo(int a` is rejected behind the
`(` and leaves the location 2 and no return type. -/
theorem rejected_signature_node_witness :
    ((QmlSignatureParser.create
          { location := 1, returnType := "var".toList, parameters := [⟨[], ['x'], []⟩] }
          "foo bar".toList 2).1 = false
        ∧ applyMethodTopic
            { location := 1, returnType := "var".toList, parameters := [⟨[], ['x'], []⟩] }
            "foo bar".toList 2
          = { location := 1, returnType := "var".toList, parameters := [⟨[], ['x'], []⟩] })
      ∧ ((QmlSignatureParser.create
          { location := 1, returnType := "var".toList, parameters := [⟨[], ['x'], []⟩] }
          "foo(int a".toList 2).1 = false
        ∧ (applyMethodTopic
            { location := 1, returnType := "var".toList, parameters := [⟨[], ['x'], []⟩] }
            "foo(int a".toList 2).location = 2
        ∧ (applyMethodTopic
            { location := 1, returnType := "var".toList, parameters := [⟨[], ['x'], []⟩] }
            "foo(int a".toList 2).returnType = []) :=
  ⟨⟨by decide,
      (rejected_signature_node
        { location := 1, returnType := "var".toList, parameters := [⟨[], ['x'], []⟩] }
        "foo bar".toList 2 (by decide)).1 (by decide)⟩,
    ⟨by decide,
      ((rejected_signature_node
        { location := 1, returnType := "var".toList, parameters := [⟨[], ['x'], []⟩] }
        "foo(int a".toList 2 (by decide)).2 (by decide)).1,
      ((rejected_signature_node
        { location := 1, returnType := "var".toList, parameters := [⟨[], ['x'], []⟩] }
        "foo(int a".toList 2 (by decide)).2 (by decide)).2.1⟩⟩

/-! ## The ordered search and the passes of the walk -/

namespace LupdatePrivate

theorem infix_of_contains (pat : List Char) :
    ∀ text : List Char, contains pat text = true → pat <:+: text := by
  intro text
  induction text with
  | nil =>
    intro h
    have : pat = [] := by simpa [contains] using h
    subst this
    exact List.infix_refl _
  | cons c cs ih =>
    intro h
    rw [contains, Bool.or_eq_true] at h
    rcases h with h | h
    · exact (List.isPrefixOf_iff_prefix.mp h).isInfix
    · exact (ih h).trans (List.suffix_cons c cs).isInfix

theorem trFunctionPresent_of_no_infix (text : List Char)
    (h : ∀ pat ∈ trFunctions, ¬ pat <:+: text) : trFunctionPresent text = false := by
  unfold trFunctionPresent
  rw [List.any_eq_false]
  intro pat hpat hc
  exact h pat hpat (infix_of_contains pat text hc)

end LupdatePrivate

theorem findFirstOfStop_of_no_stop (text : List Char)
    (h : ∀ ch ∈ text, isStopChar ch = false) : findFirstOfStop text = false := by
  unfold findFirstOfStop
  rw [List.any_eq_false]
  intro ch hch
  simp [h ch hch]

/-- On a comment list that the comparison with the declaration partitions,
`std::lower_bound` returns the index of the partition point. -/
theorem lowerBoundAux_eq (loc : SourceLocation) (before after : List RawComment)
    (hbefore : ∀ c ∈ before, compareSourceLocation loc c = true)
    (hafter : ∀ c ∈ after, compareSourceLocation loc c = false) :
    ∀ (fuel first len : Nat), len ≤ fuel → first ≤ before.length →
      before.length ≤ first + len → first + len ≤ (before ++ after).length →
      lowerBoundAux loc (before ++ after) fuel first len = before.length := by
  intro fuel
  induction fuel with
  | zero =>
    intro first len h1 h2 h3 _
    unfold lowerBoundAux
    omega
  | succ n ih =>
    intro first len h1 h2 h3 h4
    unfold lowerBoundAux
    split_ifs with h0
    · omega
    · have hm : first + len / 2 < (before ++ after).length := by
        have : len / 2 < len := Nat.div_lt_self (by omega) (by decide)
        omega
      have hget : (before ++ after).get? (first + len / 2)
          = some ((before ++ after)[first + len / 2]) := by
        simp [List.getElem?_eq_getElem hm]
      rw [hget]
      dsimp only
      have hlt : len / 2 < len := Nat.div_lt_self (by omega) (by decide)
      by_cases hcmp : compareSourceLocation loc ((before ++ after)[first + len / 2]) = true
      · rw [if_pos hcmp]
        have hidx : first + len / 2 < before.length := by
          by_contra hge
          have hge2 : before.length ≤ first + len / 2 := by omega
          have hmem : (before ++ after)[first + len / 2] ∈ after := by
            rw [List.getElem_append_right hge2]
            exact List.getElem_mem _
          rw [hafter _ hmem] at hcmp
          exact absurd hcmp (by decide)
        exact ih _ _ (by omega) (by omega) (by omega) (by omega)
      · rw [if_neg hcmp]
        have hidx : before.length ≤ first + len / 2 := by
          by_contra hlt2
          have hlt3 : first + len / 2 < before.length := by omega
          have hmem : (before ++ after)[first + len / 2] ∈ before := by
            rw [List.getElem_append_left hlt3]
            exact List.getElem_mem _
          exact hcmp (hbefore _ hmem)
        exact ih _ _ (by omega) h2 hidx (by omega)

theorem lower_bound_eq (loc : SourceLocation) (before after : List RawComment)
    (hbefore : ∀ c ∈ before, compareSourceLocation loc c = true)
    (hafter : ∀ c ∈ after, compareSourceLocation loc c = false) :
    lower_bound loc (before ++ after) = before.length := by
  unfold lower_bound
  exact lowerBoundAux_eq loc before after hbefore hafter _ 0 _ (Nat.le_refl _) (Nat.zero_le _)
    (by simp) (by simp)

theorem compareSourceLocation_same_file (loc : SourceLocation) (c : RawComment)
    (hf : c.file = loc.file) :
    compareSourceLocation loc c = decide (c.beginOffset < loc.offset) := by
  simp [compareSourceLocation, isBeforeInTranslationUnit, hf]

namespace LupdateVisitor

/-- The walk keeps the comments it had accepted, at the end of what it
returns. -/
theorem walkBack_suffix (sm : SourceManager) (buffer : List Char) (loc : SourceLocation) :
    ∀ (before : List RawComment) (last : Nat) (retrieved : List RawComment),
      retrieved <:+ walkBack sm buffer loc before last retrieved := by
  intro before
  induction before with
  | nil => intro last retrieved; simp [walkBack]
  | cons c rest ih =>
    intro last retrieved
    unfold walkBack
    split_ifs
    · exact List.suffix_refl _
    · exact ih _ _
    · exact List.suffix_refl _
    · exact List.suffix_refl _
    · exact (List.suffix_cons c retrieved).trans (ih _ _)

/-- The comments the walk returns are the ones it had accepted and, before
them, the comments of the passes that accept. -/
theorem walkBack_eq_steps (sm : SourceManager) (buffer : List Char) (loc : SourceLocation) :
    ∀ (before : List RawComment) (last : Nat) (accepted : Option RawComment)
      (retrieved : List RawComment),
      walkBack sm buffer loc before last retrieved
        = (((walkBackSteps sm buffer loc before last accepted).filter accepts).map
            WalkStep.comment).reverse ++ retrieved := by
  intro before
  induction before with
  | nil => intro last accepted retrieved; simp [walkBack, walkBackSteps]
  | cons c rest ih =>
    intro last accepted retrieved
    unfold walkBack walkBackSteps
    by_cases h1 : loc.file ≠ c.file
    · simp [h1]
    · by_cases h2 : sm.getLineNumber loc.file loc.offset = sm.getLineNumber c.file c.endOffset
      · simp only [h1, h2, if_true, if_false]
        exact ih _ _ _
      · rcases Bool.eq_false_or_eq_true (findFirstOfStop (textBetween buffer last c)) with h3 | h3
        · simp [h1, h2, h3, accepts]
        · rcases Bool.eq_false_or_eq_true
            (LupdatePrivate.trFunctionPresent (textBetween buffer last c)) with h4 | h4
          · simp [h1, h2, h3, h4, accepts]
          · simp only [h1, h2, h3, h4, if_false, Bool.false_eq_true, List.filter_cons, accepts,
              Bool.not_false, Bool.and_self, if_true, List.map_cons, List.reverse_cons,
              List.append_assoc, List.singleton_append]
            exact ih _ _ _

theorem retrievedComments_eq_steps (sm : SourceManager) (rawComments : List RawComment)
    (loc : SourceLocation) :
    retrievedComments sm rawComments loc
      = (((retrievalSteps sm rawComments loc).filter accepts).map WalkStep.comment).reverse := by
  unfold retrievedComments retrievalSteps
  split_ifs
  · rfl
  · rfl
  · rfl
  · cases hb : sm.bufferData loc.file with
    | none => rfl
    | some buffer =>
      simp only []
      rw [walkBack_eq_steps sm buffer loc _ loc.offset none []]
      simp

/-- The invariant of the passes: `lastDecompLoc` is the offset of the
declaration as long as no comment is accepted, then the begin of the comment
accepted last; the text starts at the end of the comment of the pass. -/
theorem walkBackSteps_last (sm : SourceManager) (buffer : List Char) (loc : SourceLocation) :
    ∀ (before : List RawComment) (last : Nat) (accepted : Option RawComment),
      last = (match accepted with
        | none => loc.offset
        | some d => d.beginOffset) →
      ∀ s ∈ walkBackSteps sm buffer loc before last accepted,
        s.lastDecompLoc = (match s.accepted with
          | none => loc.offset
          | some d => d.beginOffset)
        ∧ s.text = stringRef buffer s.comment.endOffset
            (unsignedSub s.lastDecompLoc s.comment.endOffset) := by
  intro before
  induction before with
  | nil => intro last accepted _ s hs; simp [walkBackSteps] at hs
  | cons c rest ih =>
    intro last accepted hlast s hs
    unfold walkBackSteps at hs
    split_ifs at hs with h1 h2 h3 h4
    · simp at hs
    · exact ih _ _ hlast s hs
    · rw [List.mem_singleton] at hs
      subst hs
      exact ⟨hlast, rfl⟩
    · rw [List.mem_singleton] at hs
      subst hs
      exact ⟨hlast, rfl⟩
    · rcases List.mem_cons.mp hs with rfl | hs
      · exact ⟨hlast, rfl⟩
      · exact ih c.beginOffset (some c) rfl s hs

theorem retrievalSteps_eq_walkBackSteps (sm : SourceManager) (rawComments : List RawComment)
    (loc : SourceLocation) (s : WalkStep) (hs : s ∈ retrievalSteps sm rawComments loc) :
    ∃ buffer, sm.bufferData loc.file = some buffer ∧
      retrievalSteps sm rawComments loc =
        walkBackSteps sm buffer loc ((rawComments.take (lower_bound loc rawComments)).reverse)
          loc.offset none := by
  unfold retrievalSteps at hs ⊢
  split_ifs at hs ⊢ with h1 h2 h3
  · simp at hs
  · simp at hs
  · simp at hs
  · cases hb : sm.bufferData loc.file with
    | none => simp [hb] at hs
    | some buffer => exact ⟨buffer, rfl, rfl⟩

end LupdateVisitor

namespace LupdateVisitor

/-- C21. For every comment list in which `c1` is the nearest comment before
the target and `c0` the comment before it, `c1` ending on the line of the
target and `c0` on an earlier line, with none of `;`, `\x7d`, `#`, `@` and no
marker call text (a name `trFunctionPresent` looks for, with its opening
parenthesis) in the source text from the end of `c0` to the target: the finder
does not return `c1`, and it returns `c0`, as the last of the comments it
returns. The comments are those of the file of the target; offsets are
`unsigned`, so below 2^32. -/
theorem same_line_comment_skipped (sm : SourceManager) (loc : SourceLocation)
    (buffer : List Char) (pre post : List RawComment) (c0 c1 : RawComment)
    (hinvalid : loc.isInvalid = false) (hfileid : loc.isFileID = true)
    (hbuf : sm.bufferData loc.file = some buffer) (hloc : loc.offset < 4294967296)
    (hfile : ∀ d ∈ pre ++ c0 :: c1 :: post, d.file = loc.file)
    (hpre : ∀ d ∈ pre, d.beginOffset < loc.offset)
    (hbegin0 : c0.beginOffset < loc.offset) (hbegin1 : c1.beginOffset < loc.offset)
    (hpost : ∀ d ∈ post, loc.offset ≤ d.beginOffset)
    (hline1 : sm.getLineNumber c1.file c1.endOffset = sm.getLineNumber loc.file loc.offset)
    (hline0 : sm.getLineNumber c0.file c0.endOffset < sm.getLineNumber loc.file loc.offset)
    (hend0 : c0.endOffset ≤ loc.offset)
    (hstop : ∀ ch ∈ stringRef buffer c0.endOffset (loc.offset - c0.endOffset),
      isStopChar ch = false)
    (hmarker : ∀ pat ∈ LupdatePrivate.trFunctions,
      ¬ pat <:+: stringRef buffer c0.endOffset (loc.offset - c0.endOffset)) :
    c1 ∉ retrievedComments sm (pre ++ c0 :: c1 :: post) loc
      ∧ ∃ earlier, retrievedComments sm (pre ++ c0 :: c1 :: post) loc = earlier ++ [c0] := by
  have hsplit : pre ++ c0 :: c1 :: post = (pre ++ [c0, c1]) ++ post := by simp
  have hf0 : c0.file = loc.file := hfile c0 (by simp)
  have hf1 : c1.file = loc.file := hfile c1 (by simp)
  have hlb : lower_bound loc (pre ++ c0 :: c1 :: post) = pre.length + 2 := by
    rw [hsplit, lower_bound_eq loc (pre ++ [c0, c1]) post]
    · simp
    · intro c hc
      have hcf : c.file = loc.file := hfile c (by rw [hsplit]; exact List.mem_append_left _ hc)
      rw [compareSourceLocation_same_file loc c hcf, decide_eq_true_eq]
      rcases List.mem_append.mp hc with h | h
      · exact hpre c h
      · simp only [List.mem_cons, List.mem_singleton, List.not_mem_nil, or_false] at h
        rcases h with rfl | rfl
        · exact hbegin0
        · exact hbegin1
    · intro c hc
      have hcf : c.file = loc.file := hfile c (by rw [hsplit]; exact List.mem_append_right _ hc)
      rw [compareSourceLocation_same_file loc c hcf, decide_eq_false_iff_not]
      have := hpost c hc
      omega
  have htake : ((pre ++ c0 :: c1 :: post).take (lower_bound loc (pre ++ c0 :: c1 :: post))).reverse
      = c1 :: c0 :: pre.reverse := by
    rw [hlb, hsplit, List.take_left' (by simp)]
    simp
  have htext : textBetween buffer loc.offset c0
      = stringRef buffer c0.endOffset (loc.offset - c0.endOffset) := by
    unfold textBetween
    rw [unsignedSub_of_le _ _ hend0 hloc]
  have h3 : findFirstOfStop (textBetween buffer loc.offset c0) = false := by
    rw [htext]
    exact findFirstOfStop_of_no_stop _ hstop
  have h4 : LupdatePrivate.trFunctionPresent (textBetween buffer loc.offset c0) = false := by
    rw [htext]
    exact LupdatePrivate.trFunctionPresent_of_no_infix _ hmarker
  have heq : retrievedComments sm (pre ++ c0 :: c1 :: post) loc
      = walkBack sm buffer loc pre.reverse c0.beginOffset [c0] := by
    have hne : (pre ++ c0 :: c1 :: post).isEmpty = false := by
      cases pre <;> rfl
    have hlb0 : ¬ lower_bound loc (pre ++ c0 :: c1 :: post) = 0 := by
      rw [hlb]
      omega
    unfold retrievedComments
    simp only [hinvalid, hfileid, hne, hlb0, hbuf, htake, Bool.not_true, Bool.or_self,
      Bool.false_eq_true, if_false]
    have hl0 : ¬ sm.getLineNumber loc.file loc.offset = sm.getLineNumber c0.file c0.endOffset := by
      omega
    rw [walkBack, if_neg (by simp [hf1]), if_pos hline1.symm, walkBack, if_neg (by simp [hf0]),
      if_neg hl0, h3, h4]
    simp
  constructor
  · intro hmem
    rw [heq] at hmem
    have hline := walkBack_line sm buffer loc pre.reverse c0.beginOffset [c0]
      (by
        intro c hc
        rw [List.mem_singleton] at hc
        subst hc
        omega) c1 hmem
    exact hline hline1
  · obtain ⟨earlier, he⟩ := walkBack_suffix sm buffer loc pre.reverse c0.beginOffset [c0]
    exact ⟨earlier, by rw [heq, he]⟩

/-- C21 on `sameLineComment`: for the call at offset 19 the comment `/* arg */`
on its line is not returned, and the comment `//: note` of the line before
is. -/
theorem same_line_comment_skipped_witness :
    (⟨0, 9, 18⟩ : RawComment) ∉
        retrievedComments (SourceManager.ofBuffer sameLineComment) sameLineCommentList
          ⟨0, 19, false, true⟩
      ∧ ∃ earlier, retrievedComments (SourceManager.ofBuffer sameLineComment)
          sameLineCommentList ⟨0, 19, false, true⟩ = earlier ++ [⟨0, 0, 8⟩] :=
  same_line_comment_skipped (SourceManager.ofBuffer sameLineComment) ⟨0, 19, false, true⟩
    sameLineComment [] [] ⟨0, 0, 8⟩ ⟨0, 9, 18⟩ rfl rfl rfl (by decide) (by decide) (by decide)
    (by decide) (by decide) (by decide) (by decide) (by decide) (by decide) (by decide)
    (by decide)

/-- C22, the claim as stated fails: in `stackedComments` the pass for the
comment `//: a` comes after the comment `//: b; c` is accepted, and its text is
the newline between the two comments, from the end of `//: a` to the begin of
`//: b; c`; the bytes from the end of `//: a` to the end of `//: b; c` have a
`;`, and the finder returns both comments. -/
theorem examined_text_counterexample :
    retrievalSteps (SourceManager.ofBuffer stackedComments) stackedCommentsList
        ⟨0, 15, false, true⟩
        = [⟨⟨0, 6, 14⟩, 15, none, ['\n']⟩, ⟨⟨0, 0, 5⟩, 6, some ⟨0, 6, 14⟩, ['\n']⟩]
      ∧ stringRef stackedComments 5 (14 - 5) = "\n//: b; c".toList
      ∧ findFirstOfStop (stringRef stackedComments 5 (14 - 5)) = true
      ∧ retrievedComments (SourceManager.ofBuffer stackedComments) stackedCommentsList
        ⟨0, 15, false, true⟩ = [⟨0, 0, 5⟩, ⟨0, 6, 14⟩] := by
  decide

/-- C22, amended. During the backward walk of the finder, the text the
intervening-structure and the intervening-marker-call rule examine for a
candidate comment starts at the end of the candidate and has the length
`lastDecompLoc` minus that end, in `unsigned`, where `lastDecompLoc` is the
begin of the comment accepted last, or the offset of the target when no
comment is accepted yet: when the candidate ends at or before that offset, the
text is the byte range from the end of the candidate to it. The comments the
finder returns are the candidates whose text passes both rules. -/
theorem examined_text_range (sm : SourceManager) (rawComments : List RawComment)
    (loc : SourceLocation) (buffer : List Char) (hbuf : sm.bufferData loc.file = some buffer)
    (s : WalkStep) (hs : s ∈ retrievalSteps sm rawComments loc) :
    s.lastDecompLoc = (match s.accepted with
        | none => loc.offset
        | some d => d.beginOffset)
      ∧ s.text = stringRef buffer s.comment.endOffset
          (unsignedSub s.lastDecompLoc s.comment.endOffset)
      ∧ (s.comment.endOffset ≤ s.lastDecompLoc → s.lastDecompLoc < 4294967296 →
        s.text = (buffer.drop s.comment.endOffset).take (s.lastDecompLoc - s.comment.endOffset))
      ∧ retrievedComments sm rawComments loc
        = (((retrievalSteps sm rawComments loc).filter accepts).map WalkStep.comment).reverse := by
  obtain ⟨buffer2, hbuf2, heq⟩ := retrievalSteps_eq_walkBackSteps sm rawComments loc s hs
  have hb : buffer2 = buffer := Option.some.inj (hbuf2.symm.trans hbuf)
  subst hb
  rw [heq] at hs
  obtain ⟨h1, h2⟩ := walkBackSteps_last sm buffer2 loc _ loc.offset none rfl s hs
  refine ⟨h1, h2, ?_, retrievedComments_eq_steps sm rawComments loc⟩
  intro hle hlt
  rw [h2, unsignedSub_of_le _ _ hle hlt]
  rfl

/-- C22, amended, on `stackedComments`: the pass for the comment `//: a` has
the begin 6 of the accepted comment `//: b; c` as `lastDecompLoc`, and its
text is the one byte from offset 5 to offset 6. -/
theorem examined_text_range_witness :
    (⟨⟨0, 0, 5⟩, 6, some ⟨0, 6, 14⟩, ['\n']⟩ : WalkStep) ∈
        retrievalSteps (SourceManager.ofBuffer stackedComments) stackedCommentsList
          ⟨0, 15, false, true⟩
      ∧ (6 : Nat) = (⟨0, 6, 14⟩ : RawComment).beginOffset
      ∧ ['\n'] = (stackedComments.drop 5).take (6 - 5) :=
  ⟨by decide,
    (examined_text_range (SourceManager.ofBuffer stackedComments) stackedCommentsList
      ⟨0, 15, false, true⟩ stackedComments rfl ⟨⟨0, 0, 5⟩, 6, some ⟨0, 6, 14⟩, ['\n']⟩
      (by decide)).1,
    (examined_text_range (SourceManager.ofBuffer stackedComments) stackedCommentsList
      ⟨0, 15, false, true⟩ stackedComments rfl ⟨⟨0, 0, 5⟩, 6, some ⟨0, 6, 14⟩, ['\n']⟩
      (by decide)).2.2.1 (by decide) (by decide)⟩

end LupdateVisitor

theorem ofBuffer_getLineNumber_mono (buffer : List Char) (file a b : Nat) (hab : a ≤ b) :
    (SourceManager.ofBuffer buffer).getLineNumber file a
      ≤ (SourceManager.ofBuffer buffer).getLineNumber file b := by
  unfold SourceManager.ofBuffer
  simp only []
  have h : (buffer.take a).Sublist (buffer.take b) := by
    have e : buffer.take a = (buffer.take b).take a := by
      rw [List.take_take, Nat.min_eq_left hab]
    rw [e]
    exact List.take_sublist _ _
  have := h.count_le '\n'
  omega

namespace LupdateVisitor

/-- Once no comment left to walk over ends on the line of the declaration,
the walk accepts the comments one after the other until it stops. -/
theorem walkBack_take (sm : SourceManager) (buffer : List Char) (loc : SourceLocation) :
    ∀ (before : List RawComment) (last : Nat) (retrieved : List RawComment),
      (∀ c ∈ before,
        sm.getLineNumber c.file c.endOffset ≠ sm.getLineNumber loc.file loc.offset) →
      ∃ n, walkBack sm buffer loc before last retrieved = (before.take n).reverse ++ retrieved := by
  intro before
  induction before with
  | nil => intro last retrieved _; exact ⟨0, by simp [walkBack]⟩
  | cons c rest ih =>
    intro last retrieved h
    have hc := h c (List.mem_cons_self _ _)
    have hrest : ∀ d ∈ rest,
        sm.getLineNumber d.file d.endOffset ≠ sm.getLineNumber loc.file loc.offset :=
      fun d hd => h d (List.mem_cons_of_mem _ hd)
    unfold walkBack
    split_ifs with h1 h2 h3 h4
    · exact ⟨0, by simp⟩
    · exact absurd h2.symm hc
    · exact ⟨0, by simp⟩
    · exact ⟨0, by simp⟩
    · obtain ⟨n, hn⟩ := ih c.beginOffset (c :: retrieved) hrest
      exact ⟨n + 1, by rw [hn]; simp⟩

/-- The walk from the offset of the declaration, with no comment accepted
yet, returns consecutive comments when no pass has a comment that ends behind
`lastDecompLoc`: the comments it skips are the ones nearest to the
declaration. -/
theorem walkBack_infix (sm : SourceManager) (buffer : List Char) (loc : SourceLocation)
    (hmono : ∀ file a b, a ≤ b → sm.getLineNumber file a ≤ sm.getLineNumber file b) :
    ∀ (before : List RawComment),
      (∀ c ∈ before, c.file = loc.file) →
      before.Pairwise (fun a b => b.endOffset ≤ a.beginOffset) →
      (∀ c ∈ before, c.beginOffset ≤ c.endOffset) →
      (∀ s ∈ walkBackSteps sm buffer loc before loc.offset none,
        s.comment.endOffset ≤ s.lastDecompLoc) →
      walkBack sm buffer loc before loc.offset [] <:+: before.reverse := by
  intro before
  induction before with
  | nil => intro _ _ _ _; simp [walkBack]
  | cons c rest ih =>
    intro hfile h hwf hsteps
    rw [List.pairwise_cons] at h
    have hfrest : ∀ d ∈ rest, d.file = loc.file := fun d hd => hfile d (List.mem_cons_of_mem _ hd)
    have hwrest : ∀ d ∈ rest, d.beginOffset ≤ d.endOffset :=
      fun d hd => hwf d (List.mem_cons_of_mem _ hd)
    unfold walkBack
    split_ifs with h1 h2 h3 h4
    · exact List.nil_infix
    · rw [List.reverse_cons]
      have hsrest : ∀ s ∈ walkBackSteps sm buffer loc rest loc.offset none,
          s.comment.endOffset ≤ s.lastDecompLoc := by
        intro s hs
        apply hsteps s
        unfold walkBackSteps
        rw [if_neg h1, if_pos h2]
        exact hs
      exact (ih hfrest h.2 hwrest hsrest).trans (List.prefix_append _ _).isInfix
    · exact List.nil_infix
    · exact List.nil_infix
    · have hmem : (⟨c, loc.offset, none, textBetween buffer loc.offset c⟩ : WalkStep)
          ∈ walkBackSteps sm buffer loc (c :: rest) loc.offset none := by
        unfold walkBackSteps
        rw [if_neg h1, if_neg h2]
        exact List.mem_cons_self _ _
      have hce : c.endOffset ≤ loc.offset := hsteps _ hmem
      have hcw := hwf c (List.mem_cons_self _ _)
      have hfc := hfile c (List.mem_cons_self _ _)
      have hlc := hmono loc.file c.endOffset loc.offset hce
      rw [hfc] at h2
      have hrest : ∀ d ∈ rest,
          sm.getLineNumber d.file d.endOffset ≠ sm.getLineNumber loc.file loc.offset := by
        intro d hd
        have hde := h.1 d hd
        have hld := hmono loc.file d.endOffset c.endOffset (by omega)
        rw [hfrest d hd]
        omega
      obtain ⟨n, hn⟩ := walkBack_take sm buffer loc rest c.beginOffset [c] hrest
      rw [hn, List.reverse_cons]
      have hsuf : (rest.take n).reverse <:+ rest.reverse := by
        rw [List.reverse_suffix]
        exact List.take_prefix _ _
      obtain ⟨t, ht⟩ := hsuf
      exact ⟨t, [], by rw [← ht]; simp⟩

/-- The invariant of the passes for the length of the text: no comment left
to walk over ends behind `lastDecompLoc`. -/
theorem walkBackSteps_bounds (sm : SourceManager) (buffer : List Char) (loc : SourceLocation) :
    ∀ (before : List RawComment) (last : Nat) (accepted : Option RawComment),
      last ≤ buffer.length →
      (∀ c ∈ before, c.endOffset ≤ last) →
      (∀ c ∈ before, c.beginOffset ≤ buffer.length) →
      before.Pairwise (fun a b => b.endOffset ≤ a.beginOffset) →
      ∀ s ∈ walkBackSteps sm buffer loc before last accepted,
        s.comment.endOffset ≤ s.lastDecompLoc ∧ s.lastDecompLoc ≤ buffer.length := by
  intro before
  induction before with
  | nil => intro last accepted _ _ _ _ s hs; simp [walkBackSteps] at hs
  | cons c rest ih =>
    intro last accepted hlast hend hbegin hpair s hs
    rw [List.pairwise_cons] at hpair
    have hrest : ∀ d ∈ rest, d.endOffset ≤ last := fun d hd => hend d (List.mem_cons_of_mem _ hd)
    have hrestb : ∀ d ∈ rest, d.beginOffset ≤ buffer.length :=
      fun d hd => hbegin d (List.mem_cons_of_mem _ hd)
    have hc := hend c (List.mem_cons_self _ _)
    unfold walkBackSteps at hs
    split_ifs at hs with h1 h2 h3 h4
    · simp at hs
    · exact ih _ _ hlast hrest hrestb hpair.2 s hs
    · rw [List.mem_singleton] at hs
      subst hs
      exact ⟨hc, hlast⟩
    · rw [List.mem_singleton] at hs
      subst hs
      exact ⟨hc, hlast⟩
    · rcases List.mem_cons.mp hs with rfl | hs
      · exact ⟨hc, hlast⟩
      · exact ih c.beginOffset (some c) (hbegin c (List.mem_cons_self _ _)) hpair.1 hrestb
          hpair.2 s hs

/-- C30. For every comment list of the file of the target that is ordered by
start offset, non-overlapping and inside the file buffer, and in which every
comment starting before the target also ends at or before the target, for a
target inside the buffer: in every pass of the backward walk that takes the
text between comment and declaration, the end of the comment is at most
`lastDecompLoc`, so the subtraction does not underflow, and `lastDecompLoc` is
at most the size of the buffer, so the text lies inside the buffer and has the
length `lastDecompLoc` minus the end of the comment. -/
theorem walk_text_within_buffer (sm : SourceManager) (rawComments : List RawComment)
    (loc : SourceLocation) (buffer : List Char)
    (hbuf : sm.bufferData loc.file = some buffer)
    (hsize : buffer.length < 4294967296)
    (hloc : loc.offset ≤ buffer.length)
    (hfile : ∀ c ∈ rawComments, c.file = loc.file)
    (hsorted : rawComments.Pairwise (fun a b => a.beginOffset ≤ b.beginOffset))
    (hdisjoint : rawComments.Pairwise (fun a b => a.endOffset ≤ b.beginOffset))
    (hinside : ∀ c ∈ rawComments, c.endOffset ≤ buffer.length)
    (hsite : ∀ c ∈ rawComments, c.beginOffset < loc.offset → c.endOffset ≤ loc.offset)
    (s : WalkStep) (hs : s ∈ retrievalSteps sm rawComments loc) :
    s.comment.endOffset ≤ s.lastDecompLoc ∧ s.lastDecompLoc ≤ buffer.length
      ∧ unsignedSub s.lastDecompLoc s.comment.endOffset
        = s.lastDecompLoc - s.comment.endOffset
      ∧ s.text = (buffer.drop s.comment.endOffset).take
          (s.lastDecompLoc - s.comment.endOffset)
      ∧ s.text.length = s.lastDecompLoc - s.comment.endOffset := by
  obtain ⟨buffer2, hbuf2, heq⟩ := retrievalSteps_eq_walkBackSteps sm rawComments loc s hs
  have hb : buffer2 = buffer := Option.some.inj (hbuf2.symm.trans hbuf)
  subst hb
  rw [heq] at hs
  have hall : ∀ c ∈ (rawComments.take (lower_bound loc rawComments)).reverse,
      c ∈ rawComments ∧ c.beginOffset < loc.offset := fun c hc =>
    ⟨List.mem_of_mem_take (List.mem_reverse.mp hc),
      lower_bound_before loc rawComments hfile hsorted c (List.mem_reverse.mp hc)⟩
  have hpair : ((rawComments.take (lower_bound loc rawComments)).reverse).Pairwise
      (fun a b => b.endOffset ≤ a.beginOffset) := by
    rw [List.pairwise_reverse]
    exact hdisjoint.sublist (List.take_sublist _ _)
  obtain ⟨h1, h2⟩ := walkBackSteps_bounds sm buffer2 loc _ loc.offset none hloc
    (fun c hc => hsite c (hall c hc).1 (hall c hc).2)
    (fun c hc => by have := (hall c hc).2; omega) hpair s hs
  obtain ⟨_, h3⟩ := walkBackSteps_last sm buffer2 loc _ loc.offset none rfl s hs
  have h4 := unsignedSub_of_le s.lastDecompLoc s.comment.endOffset h1 (by omega)
  refine ⟨h1, h2, h4, ?_, ?_⟩
  · rw [h3, h4]
    rfl
  · rw [h3, h4]
    unfold stringRef
    rw [List.length_take, List.length_drop]
    omega

/-- C30 on `stackedComments`: in the pass for the comment `//: a`, which ends
at offset 5, `lastDecompLoc` is 6, and the text has the length 1. -/
theorem walk_text_within_buffer_witness :
    (⟨⟨0, 0, 5⟩, 6, some ⟨0, 6, 14⟩, ['\n']⟩ : WalkStep) ∈
        retrievalSteps (SourceManager.ofBuffer stackedComments) stackedCommentsList
          ⟨0, 15, false, true⟩
      ∧ (5 : Nat) ≤ 6 ∧ 6 ≤ stackedComments.length ∧ unsignedSub 6 5 = 6 - 5
      ∧ ['\n'] = (stackedComments.drop 5).take (6 - 5)
      ∧ (['\n'] : List Char).length = 6 - 5 :=
  ⟨by decide,
    walk_text_within_buffer (SourceManager.ofBuffer stackedComments) stackedCommentsList
      ⟨0, 15, false, true⟩ stackedComments rfl (by decide) (by decide) (by decide) (by decide)
      (by decide) (by decide) (by decide) ⟨⟨0, 0, 5⟩, 6, some ⟨0, 6, 14⟩, ['\n']⟩ (by decide)⟩

end LupdateVisitor

/-! ## Unbalanced quotes and raw string literals -/

namespace LupdatePrivate

theorem trim_opening_quote (t : List Char) :
    trim ('"' :: t) = '"' :: Qt.trimRight Regex.isSpace t := by
  unfold trim
  rw [List.dropWhile_cons_of_neg (by decide)]
  exact Qt.trimRight_cons_of_neg Regex.isSpace '"' t (by decide)

/-- What `cleanQuote` with `Left` makes of an opening quote and a text: the
text without its trailing whitespace and without a quote that ends it then. -/
theorem cleanQuote_opening_quote (t : List Char) :
    cleanQuote ('"' :: t) QuoteCompulsary.Left
      = (consume_back (Qt.trimRight Regex.isSpace t) ['"']).2 := by
  have hv : (QuoteCompulsary.Left.value &&& 0x04 != 0) = false := by decide
  unfold cleanQuote
  rw [trim_opening_quote, consume_front_quote]
  simp [hv]

/-- C25, the claim as stated fails: the text of a blank and `a` does not end
with a double quote, and `cleanQuote` with `Left` on the opening quote and
that text returns the text with its leading blank, not the text `a` without
it. -/
theorem cleanQuote_unbalanced_counterexample :
    ¬ ['"'] <:+ [' ', 'a']
      ∧ cleanQuote ('"' :: [' ', 'a']) QuoteCompulsary.Left = [' ', 'a']
      ∧ trim [' ', 'a'] = ['a'] ∧ Qt.trimmed [' ', 'a'] = ['a'] := by
  decide

/-- C25, amended. For every text `t` that, its trailing whitespace removed,
does not end with a double quote, `cleanQuote` with `Left` on an opening quote
followed by `t` returns `t` with its trailing whitespace removed and its
leading whitespace kept; the result is not empty when `t` has a character that
is no whitespace. -/
theorem cleanQuote_unbalanced (t : List Char)
    (hopen : ¬ ['"'] <:+ Qt.trimRight Regex.isSpace t) :
    cleanQuote ('"' :: t) QuoteCompulsary.Left = Qt.trimRight Regex.isSpace t
      ∧ ((∃ c ∈ t, Regex.isSpace c = false) →
        cleanQuote ('"' :: t) QuoteCompulsary.Left ≠ []) := by
  have hb : List.isSuffixOf ['"'] (Qt.trimRight Regex.isSpace t) = false := by
    rw [Bool.eq_false_iff]
    intro hh
    exact hopen (List.isSuffixOf_iff_suffix.mp hh)
  have h1 : cleanQuote ('"' :: t) QuoteCompulsary.Left = Qt.trimRight Regex.isSpace t := by
    rw [cleanQuote_opening_quote]
    simp [consume_back, hb]
  refine ⟨h1, ?_⟩
  rintro ⟨c, hc, hcs⟩ hnil
  rw [h1] at hnil
  unfold Qt.trimRight at hnil
  have h2 : t.reverse.dropWhile Regex.isSpace = [] := by
    simpa using hnil
  have h3 := List.dropWhile_eq_nil_iff.mp h2 c (List.mem_reverse.mpr hc)
  rw [hcs] at h3
  exact absurd h3 (by decide)

/-- C25, amended, on the text ` abc ` between blanks: the opening quote and
the text give ` abc`, with the leading blank. -/
theorem cleanQuote_unbalanced_witness :
    cleanQuote ('"' :: " abc ".toList) QuoteCompulsary.Left = " abc".toList
      ∧ ((∃ c ∈ " abc ".toList, Regex.isSpace c = false) →
        cleanQuote ('"' :: " abc ".toList) QuoteCompulsary.Left ≠ []) :=
  cleanQuote_unbalanced " abc ".toList (by decide)

end LupdatePrivate

namespace Qt

theorem indexOf_append_of_not_mem (c : Char) (rest : List Char) :
    ∀ p : List Char, c ∉ p → indexOf c (p ++ c :: rest) = (p.length : Int) := by
  intro p
  induction p with
  | nil => intro _; simp [indexOf]
  | cons x xs ih =>
    intro h
    simp only [List.mem_cons, not_or] at h
    have hx : ¬ x = c := fun e => h.1 e.symm
    have hi := ih h.2
    rw [List.cons_append, indexOf, if_neg hx, hi]
    have hn : ¬ ((xs.length : Int) < 0) := by omega
    rw [if_neg hn]
    simp

end Qt

namespace Regex

theorem lastSplit_short (pat : List Char) :
    ∀ s : List Char, s.length < pat.length → lastSplit pat s = none := by
  intro s
  induction s with
  | nil =>
    intro h
    cases pat with
    | nil => simp at h
    | cons p ps => rfl
  | cons c cs ih =>
    intro h
    rw [lastSplit, ih (by simp only [List.length_cons] at h; omega)]
    have hp : List.isPrefixOf pat (c :: cs) = false := by
      rw [Bool.eq_false_iff]
      intro hh
      have := (List.isPrefixOf_iff_prefix.mp hh).length_le
      omega
    simp [hp]

/-- The greedy `(.*)` before a pattern that ends the text takes all the text
before it. -/
theorem lastSplit_append (pat : List Char) (hpat : pat ≠ []) :
    ∀ body : List Char, lastSplit pat (body ++ pat) = some body := by
  intro body
  induction body with
  | nil =>
    cases pat with
    | nil => exact absurd rfl hpat
    | cons p ps =>
      rw [List.nil_append, lastSplit, lastSplit_short (p :: ps) ps (by simp)]
      have hp : List.isPrefixOf (p :: ps) (p :: ps) = true :=
        List.isPrefixOf_iff_prefix.mpr (List.prefix_refl _)
      simp [hp]
  | cons c cs ih =>
    rw [List.cons_append, lastSplit, ih]

end Regex

namespace LupdatePrivate

theorem rawStringLiteralBody_eq (d body : List Char) (hlen : d.length ≤ 16)
    (hd : ∀ c ∈ d, isDelimiterChar c = true) :
    rawStringLiteralBody (d ++ '(' :: (body ++ ')' :: (d ++ ['"']))) = some body := by
  have htake : (d ++ '(' :: (body ++ ')' :: (d ++ ['"']))).takeWhile isDelimiterChar = d :=
    LupdateVisitor.takeWhile_append_stop isDelimiterChar d _ '(' hd (by decide)
  have hdrop : (d ++ '(' :: (body ++ ')' :: (d ++ ['"']))).dropWhile isDelimiterChar
      = '(' :: (body ++ ')' :: (d ++ ['"'])) := by
    rw [List.dropWhile_append_of_pos hd, List.dropWhile_cons_of_neg (by decide)]
  unfold rawStringLiteralBody
  rw [htake, hdrop, if_pos hlen]
  exact Regex.lastSplit_append (')' :: (d ++ ['"'])) (by simp) body

theorem rawStringLiteral_at (rest r : List Char) (hbody : rawStringLiteralBody rest = some r) :
    rawStringLiteral ('R' :: '"' :: rest) = some r := by
  have e : rawStringLiteral ('R' :: '"' :: rest)
      = (match rawStringLiteralBody rest with
        | some r => some r
        | none => rawStringLiteral ('"' :: rest)) := rfl
  rw [e, hbody]

theorem rawStringLiteral_eq (rest r : List Char) (hbody : rawStringLiteralBody rest = some r)
    (p : List Char) (hp : isEncodingPrefix p) :
    rawStringLiteral (p ++ 'R' :: '"' :: rest) = some r := by
  have h0 := rawStringLiteral_at rest r hbody
  unfold isEncodingPrefix at hp
  rcases hp with rfl | rfl | rfl | rfl | rfl
  · exact h0
  · have e : rawStringLiteral (['u', '8'] ++ 'R' :: '"' :: rest)
        = rawStringLiteral ('R' :: '"' :: rest) := rfl
    rw [e, h0]
  · have e : rawStringLiteral (['L'] ++ 'R' :: '"' :: rest)
        = rawStringLiteral ('R' :: '"' :: rest) := rfl
    rw [e, h0]
  · have e : rawStringLiteral (['u'] ++ 'R' :: '"' :: rest)
        = rawStringLiteral ('R' :: '"' :: rest) := rfl
    rw [e, h0]
  · have e : rawStringLiteral (['U'] ++ 'R' :: '"' :: rest)
        = rawStringLiteral ('R' :: '"' :: rest) := rfl
    rw [e, h0]

theorem isEncodingPrefix_facts (p : List Char) (h : isEncodingPrefix p) :
    '"' ∉ p ∧ 'R' ∉ p ∧ (p ++ ['R']).dropWhile Qt.isSpace = p ++ ['R'] := by
  unfold isEncodingPrefix at h
  rcases h with rfl | rfl | rfl | rfl | rfl <;> decide

/-- C26. For every raw string literal token `R"d(body)d"`, with or without one
of the encoding prefixes `u8`, `L`, `u`, `U` before it, whose delimiter `d` has
at most 16 characters and none of `(`, `)`, backslash and blank, `cleanQuote`
on the token returns exactly `body`. -/
theorem cleanQuoteToken_rawString (prefixText d body : List Char)
    (henc : isEncodingPrefix prefixText) (hlen : d.length ≤ 16)
    (hd : ∀ c ∈ d, isDelimiterChar c = true) :
    cleanQuoteToken (rawStringToken prefixText d body) = body := by
  obtain ⟨hq, hr, hsp⟩ := isEncodingPrefix_facts prefixText henc
  have hne : (rawStringToken prefixText d body).isEmpty = false := by
    unfold rawStringToken
    cases prefixText <;> rfl
  have htrim : Qt.trimmed (rawStringToken prefixText d body) = rawStringToken prefixText d body := by
    unfold Qt.trimmed
    have e1 : rawStringToken prefixText d body
        = (prefixText ++ ['R']) ++ ('"' :: (d ++ '(' :: (body ++ ')' :: (d ++ ['"'])))) := by
      simp [rawStringToken]
    have hdw : (rawStringToken prefixText d body).dropWhile Qt.isSpace
        = rawStringToken prefixText d body := by
      rw [e1, List.dropWhile_append, hsp]
      simp
    rw [hdw]
    have e2 : rawStringToken prefixText d body
        = (prefixText ++ 'R' :: '"' :: (d ++ '(' :: (body ++ ')' :: d))) ++ ['"'] := by
      simp [rawStringToken]
    rw [e2]
    exact Qt.trimRight_concat_of_neg Qt.isSpace _ '"' (by decide)
  have hidx : Qt.indexOf '"' (rawStringToken prefixText d body)
      = ((prefixText.length + 1 : Nat) : Int) := by
    have e1 : rawStringToken prefixText d body
        = (prefixText ++ ['R']) ++ ('"' :: (d ++ '(' :: (body ++ ')' :: (d ++ ['"'])))) := by
      simp [rawStringToken]
    rw [e1, Qt.indexOf_append_of_not_mem '"' _ (prefixText ++ ['R'])
      (by
        simp only [List.mem_append, List.mem_singleton, not_or]
        exact ⟨hq, by decide⟩)]
    simp
  have hchar : charBefore (rawStringToken prefixText d body)
      (Qt.indexOf '"' (rawStringToken prefixText d body)) = some 'R' := by
    unfold charBefore
    rw [hidx]
    have e : (((prefixText.length + 1 : Nat) : Int) - 1).toNat = prefixText.length := by omega
    rw [e]
    unfold rawStringToken
    rw [List.get?_eq_getElem?, List.getElem?_append_right (Nat.le_refl _)]
    simp
  have hraw := rawStringLiteral_eq _ body (rawStringLiteralBody_eq d body hlen hd) prefixText
    henc
  have hpos : ¬ Qt.indexOf '"' (rawStringToken prefixText d body) ≤ 0 := by
    rw [hidx]
    omega
  unfold cleanQuoteToken
  rw [htrim]
  simp only [hne, Bool.false_eq_true, if_false, hpos, hchar, if_true]
  unfold rawStringToken
  rw [hraw]

/-- C26 on the token `u8R"xy(a "b" (c))xy"`: the result is `a "b" (c)`. -/
theorem cleanQuoteToken_rawString_witness :
    cleanQuoteToken "u8R\"xy(a \"b\" (c))xy\"".toList = "a \"b\" (c)".toList :=
  cleanQuoteToken_rawString ['u', '8'] ['x', 'y'] "a \"b\" (c)".toList (by decide) (by decide)
    (by decide)

end LupdatePrivate
open TrFunction

/-! ## The fields of the messages, and the fields the parser leaves alone -/

namespace LupdateVisitor

theorem fillTranslatorMessage_fields (transcode : List Char → List Char)
    (store : TranslationRelatedStore) (forcePlural isId : Bool) :
    (fillTranslatorMessage transcode store forcePlural isId).sourceText
      = transcode (if isId then store.lupdateSourceWhenId else store.lupdateSource) := by
  cases hm : store.lupdateAllMagicMetaData.isEmpty <;> simp [fillTranslatorMessage, hm]

theorem fillTranslatorMessage_idMetaData (transcode : List Char → List Char)
    (store : TranslationRelatedStore) (forcePlural isId : Bool) (m : List Char) :
    fillTranslatorMessage transcode { store with lupdateIdMetaData := m } forcePlural isId
      = fillTranslatorMessage transcode store forcePlural isId := rfl

theorem fillTranslatorMessage_sourceWhenId (transcode : List Char → List Char)
    (store : TranslationRelatedStore) (forcePlural : Bool) (w : List Char) :
    fillTranslatorMessage transcode { store with lupdateSourceWhenId := w } forcePlural false
      = fillTranslatorMessage transcode store forcePlural false := rfl

/-- C28. For every record of an ID based kind (`qtTrId`, `QT_TRID_NOOP`,
`QT_TRID_N_NOOP`), `fillTranslator` appends one message, which has the
transcoded id argument of the call as id and the transcoded source text
override as source text, and the ID meta data of the record has no influence.
For every record of a kind of `translate` or `tr`, the message
`fillTranslator` appends (for `tr`, when the record has a context) has the
transcoded ID meta data as id and the transcoded source literal of the call as
source text, and the source text override has no influence. -/
theorem fillTranslator_message_fields (trFunctionByName : List Char → Option TrFunction)
    (transcode : List Char → List Char) (tor : List TranslatorMessage)
    (store : TranslationRelatedStore) (k : TrFunction)
    (hk : trFunctionByName store.funcName = some k) :
    ((k = Function_qtTrId ∨ k = Function_QT_TRID_NOOP ∨ k = Function_QT_TRID_N_NOOP) →
        (∃ msg, fillTranslator trFunctionByName transcode tor store = tor ++ [msg]
          ∧ msg.id = transcode store.lupdateId
          ∧ msg.sourceText = transcode store.lupdateSourceWhenId)
        ∧ ∀ m, fillTranslator trFunctionByName transcode tor { store with lupdateIdMetaData := m }
          = fillTranslator trFunctionByName transcode tor store)
      ∧ ((k = Function_translate ∨ k = Function_findMessage ∨ k = Function_QT_TRANSLATE_NOOP
          ∨ k = Function_QT_TRANSLATE_NOOP_UTF8 ∨ k = Function_QT_TRANSLATE_NOOP3
          ∨ k = Function_QT_TRANSLATE_NOOP3_UTF8 ∨ k = Function_QT_TRANSLATE_N_NOOP
          ∨ k = Function_QT_TRANSLATE_N_NOOP3) →
        (∃ msg, fillTranslator trFunctionByName transcode tor store = tor ++ [msg]
          ∧ msg.id = transcode store.lupdateIdMetaData
          ∧ msg.sourceText = transcode store.lupdateSource)
        ∧ ∀ w, fillTranslator trFunctionByName transcode tor
            { store with lupdateSourceWhenId := w }
          = fillTranslator trFunctionByName transcode tor store)
      ∧ ((k = Function_tr ∨ k = Function_trUtf8 ∨ k = Function_QT_TR_NOOP
          ∨ k = Function_QT_TR_NOOP_UTF8 ∨ k = Function_QT_TR_N_NOOP) →
        ((store.contextRetrieved ≠ [] ∨ store.contextArg ≠ []) →
          ∃ msg, fillTranslator trFunctionByName transcode tor store = tor ++ [msg]
            ∧ msg.id = transcode store.lupdateIdMetaData
            ∧ msg.sourceText = transcode store.lupdateSource)
        ∧ ∀ w, fillTranslator trFunctionByName transcode tor
            { store with lupdateSourceWhenId := w }
          = fillTranslator trFunctionByName transcode tor store) := by
  have hid : ∀ forcePlural,
      (∃ msg, handleTrId transcode tor store forcePlural = tor ++ [msg]
        ∧ msg.id = transcode store.lupdateId
        ∧ msg.sourceText = transcode store.lupdateSourceWhenId) := by
    intro forcePlural
    exact ⟨_, rfl, rfl, fillTranslatorMessage_fields transcode store forcePlural true⟩
  have htranslate : ∀ forcePlural,
      (∃ msg, handleTranslate transcode tor store forcePlural = tor ++ [msg]
        ∧ msg.id = transcode store.lupdateIdMetaData
        ∧ msg.sourceText = transcode store.lupdateSource) := by
    intro forcePlural
    exact ⟨_, rfl, rfl, fillTranslatorMessage_fields transcode store forcePlural false⟩
  have htr : ∀ forcePlural, (store.contextRetrieved ≠ [] ∨ store.contextArg ≠ []) →
      (∃ msg, handleTr transcode tor store forcePlural = tor ++ [msg]
        ∧ msg.id = transcode store.lupdateIdMetaData
        ∧ msg.sourceText = transcode store.lupdateSource) := by
    intro forcePlural h
    have hc : (store.contextRetrieved.isEmpty && store.contextArg.isEmpty) = false := by
      rcases h with h | h
      · cases hr : store.contextRetrieved with
        | nil => exact absurd hr h
        | cons x xs => rfl
      · cases hr : store.contextArg with
        | nil => exact absurd hr h
        | cons x xs => simp
    unfold handleTr
    rw [hc]
    exact ⟨_, rfl, rfl, fillTranslatorMessage_fields transcode store forcePlural false⟩
  refine ⟨?_, ?_, ?_⟩
  · intro hkind
    constructor
    · unfold fillTranslator
      rw [hk]
      rcases hkind with rfl | rfl | rfl <;> exact hid _
    · intro m
      unfold fillTranslator
      simp only [hk]
      rcases hkind with rfl | rfl | rfl <;> rfl
  · intro hkind
    constructor
    · unfold fillTranslator
      rw [hk]
      rcases hkind with rfl | rfl | rfl | rfl | rfl | rfl | rfl | rfl <;> exact htranslate _
    · intro w
      unfold fillTranslator
      simp only [hk]
      rcases hkind with rfl | rfl | rfl | rfl | rfl | rfl | rfl | rfl <;> rfl
  · intro hkind
    constructor
    · intro hctx
      unfold fillTranslator
      rw [hk]
      rcases hkind with rfl | rfl | rfl | rfl | rfl <;> exact htr _ hctx
    · intro w
      unfold fillTranslator
      simp only [hk]
      rcases hkind with rfl | rfl | rfl | rfl | rfl <;> rfl

/-- C28 on a record of the kind `qtTrId` with the id `msg-id`, the source text
override `Hello` and the ID meta data `meta`: the message has the id `msg-id`
and the source text `Hello`. -/
theorem fillTranslator_message_fields_witness :
    ∃ msg, fillTranslator defaultTrFunctionByName (fun s => s) []
          { funcName := "qtTrId".toList, lupdateId := "msg-id".toList,
            lupdateSourceWhenId := "Hello".toList, lupdateIdMetaData := "meta".toList }
          = [] ++ [msg]
      ∧ msg.id = "msg-id".toList ∧ msg.sourceText = "Hello".toList :=
  ((fillTranslator_message_fields defaultTrFunctionByName (fun s => s) []
    { funcName := "qtTrId".toList, lupdateId := "msg-id".toList,
      lupdateSourceWhenId := "Hello".toList, lupdateIdMetaData := "meta".toList }
    Function_qtTrId (by decide)).1 (Or.inl rfl)).1

/-- C29. For every comment string and record, `setInfoFromRawComment` changes
no member of the record other than `lupdateExtraComment`, `lupdateIdMetaData`,
`lupdateAllMagicMetaData` and `lupdateSourceWhenId`: the contexts, the source
text, the comment, the plural text, the id, the function name, the location
and the other members are the same before and after. -/
theorem setInfoFromRawComment_other_fields (commentString : List Char)
    (store : TranslationRelatedStore) :
    (setInfoFromRawComment commentString store).contextArg = store.contextArg
      ∧ (setInfoFromRawComment commentString store).contextRetrieved = store.contextRetrieved
      ∧ (setInfoFromRawComment commentString store).lupdateSource = store.lupdateSource
      ∧ (setInfoFromRawComment commentString store).lupdateComment = store.lupdateComment
      ∧ (setInfoFromRawComment commentString store).lupdatePlural = store.lupdatePlural
      ∧ (setInfoFromRawComment commentString store).lupdateId = store.lupdateId
      ∧ (setInfoFromRawComment commentString store).funcName = store.funcName
      ∧ (setInfoFromRawComment commentString store).lupdateLocationFile
        = store.lupdateLocationFile
      ∧ (setInfoFromRawComment commentString store).lupdateLocationLine
        = store.lupdateLocationLine
      ∧ (setInfoFromRawComment commentString store).locationCol = store.locationCol
      ∧ (setInfoFromRawComment commentString store).callType = store.callType
      ∧ (setInfoFromRawComment commentString store).rawCode = store.rawCode
      ∧ (setInfoFromRawComment commentString store).lupdateMagicMetaData
        = store.lupdateMagicMetaData := by
  have h := setInfoFromRawComment_frame commentString store
  unfold TranslationRelatedStore.sameOutsideComments at h
  obtain ⟨h1, h2, h3, h4, h5, h6, h7, h8, h9, h10, h11, h12, h13⟩ := h
  exact ⟨h5, h6, h7, h12, h13, h10, h3, h8, h9, h4, h1, h2, h11⟩

end LupdateVisitor

/-! ## The comment before a QML entity -/

namespace QmlDocVisitor

theorem precedingCommentLoop_nil (v : QmlDocVisitor) (offset : Nat) :
    precedingCommentLoop v offset [] = {} := rfl

theorem precedingCommentLoop_cons (v : QmlDocVisitor) (offset : Nat)
    (loc : QQmlJS.SourceLocation) (comments : List QQmlJS.SourceLocation) :
    precedingCommentLoop v offset (loc :: comments)
      = if loc.begin ≤ v.lastEndOffset then {}
        else if loc.begin ∈ v.usedComments then {}
        else if loc.begin > v.lastEndOffset ∧ loc.end_ < offset then
          if v.isMultiline loc then
            if v.startsDoc loc then loc
            else precedingCommentLoop v offset comments
          else precedingCommentLoop v offset comments
        else precedingCommentLoop v offset comments := rfl

theorem precedingCommentLoop_comments (w : QmlDocVisitor) (offset : Nat)
    (other : List QQmlJS.SourceLocation) :
    ∀ cs : List QQmlJS.SourceLocation,
      precedingCommentLoop { w with comments := other } offset cs
        = precedingCommentLoop w offset cs := by
  intro cs
  induction cs with
  | nil => rfl
  | cons d cs ih =>
    rw [precedingCommentLoop_cons, precedingCommentLoop_cons, ih]
    rfl

theorem precedingCommentLoop_skip (v : QmlDocVisitor) (offset : Nat)
    (rest : List QQmlJS.SourceLocation) :
    ∀ ds : List QQmlJS.SourceLocation,
      (∀ d ∈ ds, d.begin ∉ v.usedComments ∧ v.lastEndOffset < d.begin
        ∧ v.isDocCommentBefore offset d = false) →
      precedingCommentLoop v offset (ds ++ rest) = precedingCommentLoop v offset rest := by
  intro ds
  induction ds with
  | nil => intro _; rfl
  | cons d ds ih =>
    intro h
    obtain ⟨hu, hl, hd⟩ := h d (List.mem_cons_self _ _)
    have ih2 := ih (fun e he => h e (List.mem_cons_of_mem _ he))
    have hle : ¬ d.begin ≤ v.lastEndOffset := Nat.not_le.mpr hl
    rw [List.cons_append, precedingCommentLoop_cons, if_neg hle, if_neg hu]
    unfold isDocCommentBefore at hd
    by_cases hc : d.begin > v.lastEndOffset ∧ d.end_ < offset
    · rw [if_pos hc]
      rcases Bool.eq_false_or_eq_true (v.isMultiline d) with hm | hm
      · rcases Bool.eq_false_or_eq_true (v.startsDoc d) with hs | hs
        · simp [hc.1, hc.2, hm, hs] at hd
        · simp [hm, hs, ih2]
      · simp [hm, ih2]
    · rw [if_neg hc]
      exact ih2

theorem precedingCommentLoop_hit (v : QmlDocVisitor) (offset : Nat) (c : QQmlJS.SourceLocation)
    (rest : List QQmlJS.SourceLocation) (hu : c.begin ∉ v.usedComments)
    (hc : v.isDocCommentBefore offset c = true) :
    precedingCommentLoop v offset (c :: rest) = c := by
  unfold isDocCommentBefore at hc
  simp only [Bool.and_eq_true, decide_eq_true_eq] at hc
  obtain ⟨⟨⟨hl, he⟩, hm⟩, hs⟩ := hc
  have hle : ¬ c.begin ≤ v.lastEndOffset := Nat.not_le.mpr hl
  rw [precedingCommentLoop_cons, if_neg hle, if_neg hu, if_pos ⟨hl, he⟩]
  simp [hm, hs]

theorem precedingCommentLoop_used (v : QmlDocVisitor) (offset : Nat) (u : QQmlJS.SourceLocation)
    (rest : List QQmlJS.SourceLocation) (hu : u.begin ∈ v.usedComments) :
    ∀ ds : List QQmlJS.SourceLocation,
      precedingCommentLoop v offset (ds ++ u :: rest) = precedingCommentLoop v offset ds := by
  intro ds
  induction ds with
  | nil =>
    rw [List.nil_append, precedingCommentLoop_cons, precedingCommentLoop_nil]
    by_cases hle : u.begin ≤ v.lastEndOffset
    · rw [if_pos hle]
    · rw [if_neg hle, if_pos hu]
  | cons d ds ih =>
    rw [List.cons_append, precedingCommentLoop_cons, precedingCommentLoop_cons, ih]

theorem precedingCommentLoop_cases (v : QmlDocVisitor) (offset : Nat) :
    ∀ cs : List QQmlJS.SourceLocation,
      precedingCommentLoop v offset cs = {}
        ∨ ∃ ds c rest, cs = ds ++ c :: rest
          ∧ (∀ d ∈ ds, d.begin ∉ v.usedComments ∧ v.lastEndOffset < d.begin
            ∧ v.isDocCommentBefore offset d = false)
          ∧ c.begin ∉ v.usedComments ∧ v.isDocCommentBefore offset c = true
          ∧ precedingCommentLoop v offset cs = c := by
  intro cs
  induction cs with
  | nil => exact Or.inl rfl
  | cons d cs ih =>
    by_cases hle : d.begin ≤ v.lastEndOffset
    · left
      rw [precedingCommentLoop_cons, if_pos hle]
    · by_cases hu : d.begin ∈ v.usedComments
      · left
        rw [precedingCommentLoop_cons, if_neg hle, if_pos hu]
      · rcases Bool.eq_false_or_eq_true (v.isDocCommentBefore offset d) with hd | hd
        · right
          exact ⟨[], d, cs, rfl, fun _ h => absurd h (List.not_mem_nil _), hu, hd,
            precedingCommentLoop_hit v offset d cs hu hd⟩
        · have hskip := precedingCommentLoop_skip v offset cs [d] (by
            intro e he
            rw [List.mem_singleton] at he
            subst he
            exact ⟨hu, Nat.not_le.mp hle, hd⟩)
          rw [List.singleton_append] at hskip
          rcases ih with h | ⟨ds, c, rest, hcs, hds, hcu, hcd, hres⟩
          · left
            rw [hskip, h]
          · right
            refine ⟨d :: ds, c, rest, by rw [hcs]; rfl, ?_, hcu, hcd, by rw [hskip, hres]⟩
            intro e he
            rcases List.mem_cons.mp he with rfl | he
            · exact ⟨hu, Nat.not_le.mp hle, hd⟩
            · exact hds e he

theorem precedingCommentLoop_valid (v : QmlDocVisitor) (offset : Nat)
    (cs : List QQmlJS.SourceLocation) (h : (precedingCommentLoop v offset cs).isValid = true) :
    precedingCommentLoop v offset cs ∈ cs
      ∧ (precedingCommentLoop v offset cs).begin ∉ v.usedComments := by
  rcases precedingCommentLoop_cases v offset cs with h0 | ⟨ds, c, rest, hcs, _, hcu, _, hres⟩
  · rw [h0] at h
    exact Bool.noConfusion h
  · rw [hres]
    exact ⟨by rw [hcs]; simp, hcu⟩

/-- C23. Once `applyDocumentation` has found a comment for a location, the
start offset of the comment is in `usedComments`, and in every later state of
the visitor in which it still is, whatever `lastEndOffset`, the comments and
the document are, `precedingComment` does not return that comment for any
offset. Where a comment `u` of the list is used, the search from the end of
the list gives what it gives on the comments after `u` alone: it returns
neither `u` nor a comment before `u`. -/
theorem used_comment_not_returned (v w : QmlDocVisitor) (location : QQmlJS.SourceLocation)
    (offset : Nat) (hvalid : (v.precedingComment location.begin).isValid = true)
    (hlater : ∀ b ∈ (v.applyDocumentation location).usedComments, b ∈ w.usedComments) :
    (v.precedingComment location.begin).begin ∈ (v.applyDocumentation location).usedComments
      ∧ w.precedingComment offset ≠ v.precedingComment location.begin
      ∧ ∀ pre u post, w.comments = pre ++ u :: post → u.begin ∈ w.usedComments →
          w.precedingComment offset = precedingComment { w with comments := post } offset
            ∧ ((w.precedingComment offset).isValid = true →
              w.precedingComment offset ∈ post) := by
  have hmem : (v.precedingComment location.begin).begin
      ∈ (v.applyDocumentation location).usedComments := by
    unfold applyDocumentation
    rw [if_pos hvalid]
    exact List.mem_cons_self _ _
  refine ⟨hmem, ?_, ?_⟩
  · intro heq
    have hv : (precedingCommentLoop w offset w.comments.reverse).isValid = true := by
      have h := hvalid
      rw [← heq] at h
      exact h
    have hnot := (precedingCommentLoop_valid w offset _ hv).2
    apply hnot
    have h := hlater _ hmem
    rw [← heq] at h
    exact h
  · intro pre u post hcs hu
    have heq : w.precedingComment offset
        = precedingComment { w with comments := post } offset := by
      unfold precedingComment
      rw [hcs, List.reverse_append, List.reverse_cons, List.append_assoc,
        List.singleton_append]
      exact (precedingCommentLoop_used w offset u pre.reverse hu post.reverse).trans
        (precedingCommentLoop_comments w offset post post.reverse).symm
    refine ⟨heq, ?_⟩
    intro hv
    rw [heq] at hv ⊢
    have h := (precedingCommentLoop_valid { w with comments := post } offset post.reverse hv).1
    exact List.mem_reverse.mp h

/-- C23 on the document `/*! doc */` with an item after it: the comment is
found for the item at offset 11 while no comment is used, and it is not
returned again once it is in `usedComments`. -/
theorem used_comment_not_returned_witness :
    (freshDocComment.precedingComment 11).isValid = true
      ∧ usedDocComment.precedingComment 11 ≠ freshDocComment.precedingComment 11 :=
  ⟨by decide,
    (used_comment_not_returned freshDocComment usedDocComment { offset := 11, length := 7 } 11
      (by decide) (by decide)).2.1⟩

/-- C27, the claim as stated fails: in `usedDocComment` the only comment starts
after `lastEndOffset`, ends before the offset 11, is a block comment and has a
text that begins with `!`, and no comment comes after it in the list; it is a
used comment, and `precedingComment` returns an invalid location, not the
comment. -/
theorem last_doc_comment_counterexample :
    usedDocComment.comments = [] ++ { offset := 2, length := 6 } :: []
      ∧ usedDocComment.isDocCommentBefore 11 { offset := 2, length := 6 } = true
      ∧ usedDocComment.precedingComment 11 ≠ { offset := 2, length := 6 }
      ∧ (usedDocComment.precedingComment 11).isValid = false := by
  decide

/-- C27, amended. For every comment list, `lastEndOffset`, used set and offset,
`precedingComment` returns the last comment of the list that is not used,
starts after `lastEndOffset`, ends before the offset, is a block comment and
has a text that begins with `!` or `*`, provided no used comment and no
comment starting at or before `lastEndOffset` comes after it in the list; in
every other case it returns an invalid location, the default constructed
one. -/
theorem precedingComment_last_doc_comment (v : QmlDocVisitor) (offset : Nat) :
    (∀ pre c post, v.comments = pre ++ c :: post →
        c.begin ∉ v.usedComments → v.isDocCommentBefore offset c = true →
        (∀ d ∈ post, ¬ (d.begin ∉ v.usedComments ∧ v.isDocCommentBefore offset d = true)) →
        (∀ d ∈ post, d.begin ∉ v.usedComments ∧ v.lastEndOffset < d.begin) →
        v.precedingComment offset = c)
      ∧ ((¬ ∃ pre c post, v.comments = pre ++ c :: post
            ∧ c.begin ∉ v.usedComments ∧ v.isDocCommentBefore offset c = true
            ∧ (∀ d ∈ post,
              ¬ (d.begin ∉ v.usedComments ∧ v.isDocCommentBefore offset d = true))
            ∧ (∀ d ∈ post, d.begin ∉ v.usedComments ∧ v.lastEndOffset < d.begin)) →
        v.precedingComment offset = {} ∧ (v.precedingComment offset).isValid = false) := by
  constructor
  · intro pre c post hcs hcu hcd hlast hclear
    unfold precedingComment
    rw [hcs, List.reverse_append, List.reverse_cons, List.append_assoc, List.singleton_append,
      precedingCommentLoop_skip v offset (c :: pre.reverse) post.reverse (by
        intro d hd
        have hd2 := List.mem_reverse.mp hd
        obtain ⟨h1, h2⟩ := hclear d hd2
        refine ⟨h1, h2, ?_⟩
        rcases Bool.eq_false_or_eq_true (v.isDocCommentBefore offset d) with h3 | h3
        · exact absurd ⟨h1, h3⟩ (hlast d hd2)
        · exact h3)]
    exact precedingCommentLoop_hit v offset c _ hcu hcd
  · intro hnone
    rcases precedingCommentLoop_cases v offset v.comments.reverse with
      h0 | ⟨ds, c, rest, hcs, hds, hcu, hcd, _⟩
    · unfold precedingComment
      rw [h0]
      exact ⟨rfl, rfl⟩
    · exfalso
      apply hnone
      refine ⟨rest.reverse, c, ds.reverse, ?_, hcu, hcd, ?_, ?_⟩
      · have h := congrArg List.reverse hcs
        rw [List.reverse_reverse] at h
        rw [h]
        simp
      · intro d hd hcon
        have h := (hds d (List.mem_reverse.mp hd)).2.2
        rw [hcon.2] at h
        exact Bool.noConfusion h
      · intro d hd
        have h := hds d (List.mem_reverse.mp hd)
        exact ⟨h.1, h.2.1⟩

/-- C27, amended, on `freshDocComment`: the only comment is not used and is a
qdoc comment before the offset 11, and `precedingComment` returns it. -/
theorem precedingComment_last_doc_comment_witness :
    freshDocComment.precedingComment 11 = { offset := 2, length := 6 } :=
  (precedingComment_last_doc_comment freshDocComment 11).1 [] { offset := 2, length := 6 } []
    rfl (by decide) (by decide) (by decide) (by decide)

end QmlDocVisitor
